import Mathlib

/-!
# logkit: key/value line parser (`parser/logfmt/logfmt.go`)

A shallow embedding of `splitKV`, `Parser.parse` and `Parser.Parse`, and of `ErrorsList.Reset`
and `ErrorsList.Copy` of `mgr/models.go`.

* A Go `string` is a sequence of bytes: `GoString := List Nat`, one entry per byte.
* The functions of the Go standard library that the code calls (`strings`, `unicode`,
  `unicode/utf8`, `strconv.ParseBool`) are written out after their documented behaviour.
* A Go function returning `(result, error)` returns `Except Fault result`; a run-time panic
  of a slice expression is the fault `outOfRange`, a loop of the model that runs out of
  fuel is the fault `outOfFuel`.
-/

namespace Logkit

/-- A Go string: its bytes, in order. -/
abbrev GoString := List Nat

/-- The bytes of a text, UTF-8 encoded, as Go holds a string literal. -/
def go (s : String) : GoString :=
  s.toUTF8.data.toList.map UInt8.toNat

/-- What a call can end in besides a result: the two errors `logfmt.go` builds with `errors.New`,
a slice expression out of range, and the model's own fuel running out. -/
inductive Fault where
  /-- The error "no value was parsed after logfmt, will keep origin data in pandora_stash ...". -/
  | noValue
  /-- The error "key value not match". -/
  | notMatch
  /-- Run-time panic: slice bounds or index out of range. -/
  | outOfRange
  /-- The model stopped a loop that had used up its fuel. -/
  | outOfFuel
  deriving DecidableEq, Repr

/-! ## Slice expressions -/

/-- The slice expression `s[a:b]`. -/
def slice (s : GoString) (a b : Nat) : Except Fault GoString :=
  if a ≤ b ∧ b ≤ s.length then .ok ((s.take b).drop a) else .error .outOfRange

/-- The slice expression `s[a:]`. -/
def sliceFrom (s : GoString) (a : Nat) : Except Fault GoString :=
  if a ≤ s.length then .ok (s.drop a) else .error .outOfRange

/-- The slice expression `s[:b]`. -/
def sliceTo (s : GoString) (b : Nat) : Except Fault GoString :=
  if b ≤ s.length then .ok (s.take b) else .error .outOfRange

/-- The slice expression `s[:len(s)-1]`; the bound is negative for the empty string. -/
def dropLastByte (s : GoString) : Except Fault GoString :=
  if s.length = 0 then .error .outOfRange else .ok (s.take (s.length - 1))

/-- The index expression `s[i]`. -/
def byteAt (s : GoString) (i : Nat) : Except Fault Nat :=
  match s.get? i with
  | some b => .ok b
  | none => .error .outOfRange

/-! ## `unicode` and `unicode/utf8` -/

/-- `utf8.RuneError`. -/
def RuneError : Nat := 0xFFFD

/-- `utf8.RuneSelf`. -/
def RuneSelf : Nat := 0x80

/-- `unicode.IsSpace`: the Latin-1 spaces, and the `White_Space` table above Latin-1. -/
def IsSpace (r : Nat) : Bool :=
  if r ≤ 0xFF then
    r = 0x09 || r = 0x0A || r = 0x0B || r = 0x0C || r = 0x0D || r = 0x20 || r = 0x85 || r = 0xA0
  else
    r = 0x1680 || (0x2000 ≤ r && r ≤ 0x200A) || r = 0x2028 || r = 0x2029 || r = 0x202F ||
      r = 0x205F || r = 0x3000

/-- A UTF-8 continuation byte, `0x80..0xBF`. -/
def isCont (b : Nat) : Bool := 0x80 ≤ b && b ≤ 0xBF

/-- `utf8.RuneStart`: the byte is not a continuation byte. -/
def RuneStart (b : Nat) : Bool := !isCont b

/-- `utf8.DecodeRuneInString`: the first rune of `s` and its width in bytes; an invalid or
short encoding gives `(RuneError, 1)`, the empty string `(RuneError, 0)`. -/
def DecodeRuneInString (s : GoString) : Nat × Nat :=
  match s with
  | [] => (RuneError, 0)
  | s0 :: rest =>
    if s0 < 0x80 then (s0, 1)
    else if s0 < 0xC2 ∨ 0xF4 < s0 then (RuneError, 1)
    else
      let sz := if s0 < 0xE0 then 2 else if s0 < 0xF0 then 3 else 4
      let lo := if s0 = 0xE0 then 0xA0 else if s0 = 0xF0 then 0x90 else 0x80
      let hi := if s0 = 0xED then 0x9F else if s0 = 0xF4 then 0x8F else 0xBF
      if s.length < sz then (RuneError, 1)
      else
        match rest with
        | [] => (RuneError, 1)
        | s1 :: r1 =>
          if s1 < lo ∨ hi < s1 then (RuneError, 1)
          else if sz ≤ 2 then ((s0 % 32) * 64 + s1 % 64, 2)
          else
            match r1 with
            | [] => (RuneError, 1)
            | s2 :: r2 =>
              if !isCont s2 then (RuneError, 1)
              else if sz ≤ 3 then ((s0 % 16) * 4096 + (s1 % 64) * 64 + s2 % 64, 3)
              else
                match r2 with
                | [] => (RuneError, 1)
                | s3 :: _ =>
                  if !isCont s3 then (RuneError, 1)
                  else ((s0 % 8) * 262144 + (s1 % 64) * 4096 + (s2 % 64) * 64 + s3 % 64, 4)

/-- The backwards search of `DecodeLastRuneInString`,
`for start--; start >= lim; start-- { if RuneStart(s[start]) { break } }` followed by
`if start < 0 { start = 0 }`. The argument is `start + 1`. -/
def backToStart (s : GoString) (lim : Nat) : Nat → Nat
  | 0 => 0
  | k + 1 =>
    if k < lim then lim - 1
    else if RuneStart (s.getD k 0) then k
    else backToStart s lim k

/-- `utf8.DecodeLastRuneInString`: the last rune of `s` and its width. -/
def DecodeLastRuneInString (s : GoString) : Nat × Nat :=
  let e := s.length
  if e = 0 then (RuneError, 0)
  else
    let r := s.getD (e - 1) 0
    if r < RuneSelf then (r, 1)
    else
      let start := backToStart s (e - 4) (e - 1)
      let d := DecodeRuneInString (s.drop start)
      if start + d.2 ≠ e then (RuneError, 1) else d

/-- `utf8.RuneCountInString`. -/
def runeCountAux : Nat → GoString → Nat
  | 0, _ => 0
  | fuel + 1, s =>
    match s with
    | [] => 0
    | _ :: _ => 1 + runeCountAux fuel (s.drop (DecodeRuneInString s).2)

/-- `utf8.RuneCountInString`. -/
def RuneCountInString (s : GoString) : Nat := runeCountAux s.length s

/-! ## `strings` -/

/-- `strings.HasPrefix`. -/
def HasPrefix : GoString → GoString → Bool
  | _, [] => true
  | [], _ :: _ => false
  | a :: s, b :: p => a = b && HasPrefix s p

/-- `strings.HasSuffix`: `len(s) >= len(suffix) && s[len(s)-len(suffix):] == suffix`. -/
def HasSuffix (s suffix : GoString) : Bool :=
  suffix.length ≤ s.length && s.drop (s.length - suffix.length) = suffix

/-- `strings.Index`: the byte index of the first occurrence of `substr` in `s`, `none` for
Go's `-1`. -/
def Index : GoString → GoString → Option Nat
  | [], substr => if substr = [] then some 0 else none
  | c :: s, substr =>
    if HasPrefix (c :: s) substr then some 0 else (Index s substr).map (· + 1)

/-- `strings.LastIndex`: the byte index of the last occurrence of `substr` in `s`, `none` for
Go's `-1`. -/
def LastIndex : GoString → GoString → Option Nat
  | [], substr => if substr = [] then some 0 else none
  | c :: s, substr =>
    match LastIndex s substr with
    | some i => some (i + 1)
    | none => if HasPrefix (c :: s) substr then some 0 else none

/-- `strings.Contains`: `Index(s, substr) >= 0`. -/
def Contains (s substr : GoString) : Bool := (Index s substr).isSome

/-- The count of non-overlapping occurrences of a non-empty `substr`, found left to right. -/
def countAux (substr : GoString) : Nat → GoString → Nat
  | 0, _ => 0
  | fuel + 1, s =>
    match Index s substr with
    | none => 0
    | some i => 1 + countAux substr fuel (s.drop (i + substr.length))

/-- `strings.Count`: the number of non-overlapping instances of `substr` in `s`; for the empty
`substr`, one more than the number of runes of `s`. -/
def Count (s substr : GoString) : Nat :=
  if substr = [] then RuneCountInString s + 1 else countAux substr (s.length + 1) s

/-- The replacement loop of `strings.Replace` for a non-empty `old`: `n` is the number of
replacements still allowed, `none` for no limit. -/
def replaceAux (old new : GoString) : Nat → GoString → Option Nat → GoString
  | 0, s, _ => s
  | fuel + 1, s, n =>
    if n = some 0 then s
    else
      match Index s old with
      | none => s
      | some i =>
        s.take i ++ new ++ replaceAux old new fuel (s.drop (i + old.length)) (n.map (· - 1))

/-- `strings.Replace(s, old, new, n)` for a non-empty `old` (every call in `logfmt.go` passes a
literal one): the first `n` non-overlapping instances of `old` are replaced, all of them when
`n < 0`. -/
def Replace (s old new : GoString) (n : Int) : GoString :=
  replaceAux old new (s.length + 1) s (if n < 0 then none else some n.toNat)

/-- The loop of `strings.indexFunc`, `for i, r := range s { if f(r) == truth { return i } }`;
`i` is the byte offset of `s` in the whole string. -/
def indexFuncAux (f : Nat → Bool) (truth : Bool) : Nat → GoString → Nat → Option Nat
  | 0, _, _ => none
  | fuel + 1, s, i =>
    match s with
    | [] => none
    | _ :: _ =>
      let d := DecodeRuneInString s
      if f d.1 = truth then some i else indexFuncAux f truth fuel (s.drop d.2) (i + d.2)

/-- `strings.indexFunc`. -/
def indexFunc (s : GoString) (f : Nat → Bool) (truth : Bool) : Option Nat :=
  indexFuncAux f truth s.length s 0

/-- The loop of `strings.lastIndexFunc`, `for i := len(s); i > 0; { r, size :=
utf8.DecodeLastRuneInString(s[0:i]); i -= size; if f(r) == truth { return i } }`. -/
def lastIndexFuncAux (s : GoString) (f : Nat → Bool) (truth : Bool) : Nat → Nat → Option Nat
  | 0, _ => none
  | fuel + 1, i =>
    if 0 < i then
      let d := DecodeLastRuneInString (s.take i)
      if f d.1 = truth then some (i - d.2) else lastIndexFuncAux s f truth fuel (i - d.2)
    else none

/-- `strings.lastIndexFunc`. -/
def lastIndexFunc (s : GoString) (f : Nat → Bool) (truth : Bool) : Option Nat :=
  lastIndexFuncAux s f truth (s.length + 1) s.length

/-- `strings.LastIndexFunc`: the index of the last rune satisfying `f`, `none` for `-1`. -/
def LastIndexFunc (s : GoString) (f : Nat → Bool) : Option Nat := lastIndexFunc s f true

/-- `strings.TrimLeftFunc`. -/
def TrimLeftFunc (s : GoString) (f : Nat → Bool) : GoString :=
  match indexFunc s f false with
  | none => []
  | some i => s.drop i

/-- `strings.TrimRightFunc`. -/
def TrimRightFunc (s : GoString) (f : Nat → Bool) : GoString :=
  match lastIndexFunc s f false with
  | none => []
  | some i =>
    if RuneSelf ≤ s.getD i 0 then s.take (i + (DecodeRuneInString (s.drop i)).2)
    else s.take (i + 1)

/-- `strings.TrimFunc`. -/
def TrimFunc (s : GoString) (f : Nat → Bool) : GoString :=
  TrimRightFunc (TrimLeftFunc s f) f

/-- `strings.TrimSpace`: `s` without its leading and trailing white space, as defined by
Unicode. -/
def TrimSpace (s : GoString) : GoString := TrimFunc s IsSpace

/-- `strconv.ParseBool`: accepts 1, t, T, TRUE, true, True, 0, f, F, FALSE, false, False. -/
def ParseBool (s : GoString) : Option Bool :=
  if s = [49] ∨ s = [116] ∨ s = [84] ∨ s = [84, 82, 85, 69] ∨ s = [116, 114, 117, 101] ∨
      s = [84, 114, 117, 101] then some true
  else if s = [48] ∨ s = [102] ∨ s = [70] ∨ s = [70, 65, 76, 83, 69] ∨
      s = [102, 97, 108, 115, 101] ∨ s = [70, 97, 108, 115, 101] then some false
  else none

/-! ## `splitKV` -/

/-- The loop of `splitKV` for a separator of more than one byte (lines 222-231): line breaks
that cut a separator in two are deleted. `sepCount` never changes. -/
def joinLoop (sep : GoString) (sepCount : Nat) :
    Nat → GoString → Nat → Nat → Except Fault GoString
  | 0, _, _, _ => .error .outOfFuel
  | fuel + 1, line, jointCount, j =>
    if sepCount < jointCount ∧ j ≤ jointCount then
      let tempLine := Replace line [10] [] j
      let tempCount := Count tempLine sep
      if tempCount > jointCount then joinLoop sep sepCount fuel tempLine tempCount (j + 1)
      else joinLoop sep sepCount fuel line jointCount (j + 1)
    else .ok line

/-- Lines 219-233 of `splitKV`. -/
def joinSep (line sep : GoString) : Except Fault GoString :=
  if sep.length > 1 then
    joinLoop sep (Count line sep) (line.length + 2) line (Count (Replace line [10] [] (-1)) sep) 1
  else .ok line

/-- The loop `for nl != -1` of `splitKV` (lines 236-276). `recur` is the recursive call
`splitKV(next, sep)`; the state is `line`, `nl` (`none` for `-1`) and `data`, and the loop ends
in the `line` and `data` it leaves. -/
def nlLoop (sep : GoString) (recur : GoString → Except Fault (List (List GoString))) :
    Nat → GoString → Option Nat → List (List GoString) →
      Except Fault (GoString × List (List GoString))
  | 0, _, _, _ => .error .outOfFuel
  | _ + 1, line, none, data => .ok (line, data)
  | fuel + 1, line, some nl, data =>
    if line.length ≤ nl + 1 then do
      let line ← dropLastByte line
      pure (line, data)
    else do
      let pre ← sliceTo line nl
      let post ← sliceFrom line (nl + 1)
      let preSep := LastIndex pre sep
      match Index post sep with
      | none => pure (line, data)
      | some nextSep =>
        match preSep with
        | none =>
          match Index post [10] with
          | none => pure (line, data)
          | some n => nlLoop sep recur fuel line (some (nl + 1 + n)) data
        | some _ =>
          let seg ← slice line (nl + 1) (nl + 1 + nextSep)
          let afTrim := TrimSpace seg
          match LastIndexFunc afTrim IsSpace with
          | some _ =>
            match Index post [10] with
            | none => pure (line, data)
            | some n => nlLoop sep recur fuel line (some (nl + 1 + n)) data
          | none =>
            let next ← sliceFrom line (nl + 1)
            let nextResult ← recur next
            let line ← sliceTo line nl
            nlLoop sep recur fuel line (Index line [10]) (data ++ nextResult)

/-- How the white-space test of the scan (lines 292-302) ends. -/
inductive SpaceStep where
  /-- No separator follows: `break`. -/
  | stop
  /-- The space is inside a value: `lastSpace = pos; pos++; continue`. -/
  | skip
  /-- Go on to the separator test at the same `pos`. -/
  | test
  deriving DecidableEq, Repr

/-- Lines 292-302 of `splitKV`: the byte at `pos` is taken as a rune of its own. -/
def spaceStep (line sep : GoString) (pos : Nat) : Except Fault SpaceStep := do
  let w ← slice line pos (pos + 1)
  let c ← byteAt w 0
  if IsSpace c then
    let rest ← sliceFrom line (pos + 1)
    match Index rest sep with
    | none => pure .stop
    | some nextSep =>
      let seg ← slice line (pos + 1) (pos + 1 + nextSep)
      if TrimSpace seg ≠ [] then pure .skip else pure .test
  else pure .test

/-- The scan loop of `splitKV` (lines 291-319) from the state `pos`, `isKey`, `vhead`,
`lastSpace`, `kvArr`; it ends in the final `vhead` and `kvArr`. After a separator the source
sets `pos = pos + sepLen - 1` and then runs `pos++`: `pos + sepLen`. -/
def scanLoop (line sep : GoString) :
    Nat → Nat → Bool → Nat → Nat → List GoString → Except Fault (Nat × List GoString)
  | 0, _, _, _, _, _ => .error .outOfFuel
  | fuel + 1, pos, isKey, vhead, lastSpace, kvArr =>
    if pos + sep.length ≤ line.length then do
      match (← spaceStep line sep pos) with
      | .stop => pure (vhead, kvArr)
      | .skip => scanLoop line sep fuel (pos + 1) isKey vhead pos kvArr
      | .test =>
        let w ← slice line pos (pos + sep.length)
        if w = sep then
          if isKey then do
            let k ← slice line vhead pos
            scanLoop line sep fuel (pos + sep.length) false (pos + sep.length) lastSpace
              (kvArr ++ [TrimSpace k])
          else if lastSpace ≤ vhead then
            scanLoop line sep fuel (pos + 1) isKey vhead lastSpace kvArr
          else do
            let v ← slice line vhead lastSpace
            let k ← slice line lastSpace pos
            scanLoop line sep fuel (pos + sep.length) isKey (pos + sep.length) lastSpace
              (kvArr ++ [TrimSpace v, TrimSpace k])
        else scanLoop line sep fuel (pos + 1) isKey vhead lastSpace kvArr
    else pure (vhead, kvArr)

/-- Lines 278-324 of `splitKV`: the line breaks left are deleted, the line is scanned, the open
token is flushed, and the group is appended to `data`. -/
def scanLine (line sep : GoString) (data : List (List GoString)) :
    Except Fault (List (List GoString)) := do
  let line := Replace line [10] [] (-1)
  if !Contains line sep then throw Fault.noValue
  let (vhead, kvArr) ← scanLoop line sep (2 * line.length + 3) 0 true 0 0 []
  if vhead < line.length then do
    let t ← sliceFrom line vhead
    pure (data ++ [kvArr ++ [TrimSpace t]])
  else pure (data ++ [kvArr])

/-- The recursion of `splitKV` on `fuel`, the bound on its depth. -/
def splitKVFuel : Nat → GoString → GoString → Except Fault (List (List GoString))
  | 0, _, _ => .error .outOfFuel
  | fuel + 1, line, sep => do
    let line := Replace line [92, 34] [] (-1)
    let line ← joinSep line sep
    let (line, data) ←
      nlLoop sep (fun next => splitKVFuel fuel next sep) ((line.length + 1) * (line.length + 1))
        line (Index line [10]) []
    scanLine line sep data

/-- The function `splitKV(line, sep)`: the groups of tokens of `line`, or an error. Each
recursive call is on a strictly shorter string, so `len(line) + 1` bounds the depth. -/
def splitKV (line sep : GoString) : Except Fault (List (List GoString)) :=
  splitKVFuel (line.length + 1) line sep

/-! ## `Parser.parse` -/

/-- A value of a record, Go's `interface{}` holding what `parse` stores: a `float64` (of the
type `F`, left open), a `bool` or a `string`. -/
inductive Value (F : Type) where
  | float (f : F)
  | bool (b : Bool)
  | str (s : GoString)
  deriving DecidableEq, Repr

/-- The record type `Data`, a Go `map[string]interface{}`: a list of fields with distinct names,
in the order the names were first stored. -/
abbrev Data (F : Type) := List (GoString × Value F)

/-- The map assignment `d[k] = v`. -/
def Data.set {F : Type} (d : Data F) (k : GoString) (v : Value F) : Data F :=
  if d.any (fun e => e.1 = k) then d.map (fun e => if e.1 = k then (k, v) else e)
  else d ++ [(k, v)]

/-- The map read `d[k]`, `none` when the map has no key `k`. -/
def Data.get? {F : Type} (d : Data F) (k : GoString) : Option (Value F) :=
  (d.find? (fun e => e.1 = k)).map (fun e => e.2)

/-- The fields of the struct `Parser`. -/
structure Parser where
  name : GoString
  keepString : Bool
  disableRecordErrData : Bool
  numRoutine : Nat
  keepRawData : Bool
  splitter : GoString

/-- Lines 163-168 of `parse`: with an odd count of quotes in the key and in the value, the
quote that opens the key and the quote that closes the value are removed. -/
def stripAcross (kNum vNum : Nat) (k v : GoString) : Except Fault (GoString × GoString) :=
  if kNum % 2 = 1 ∧ vNum % 2 = 1 then
    if HasPrefix k [34] ∧ HasSuffix v [34] then do
      let k1 ← sliceFrom k 1
      let v1 ← dropLastByte v
      pure (k1, v1)
    else pure (k, v)
  else pure (k, v)

/-- Lines 169-173 (for the key) and 174-178 (for the value) of `parse`: with an even count of
quotes and more than one byte, the quotes around the token are removed. -/
def stripAround (num : Nat) (s : GoString) : Except Fault GoString :=
  if num % 2 = 0 ∧ s.length > 1 then
    if HasPrefix s [34] ∧ HasSuffix s [34] then slice s 1 (s.length - 1) else pure s
  else pure s

/-- Lines 161-178 of `parse`: the double quotes around a key and a value are removed. The
counts `kNum` and `vNum` are taken once, before any assignment to `pair[i]` or `pair[i+1]`. -/
def stripQuotes (k v : GoString) : Except Fault (GoString × GoString) := do
  let kNum := Count k [34]
  let vNum := Count v [34]
  let kv ← stripAcross kNum vNum k v
  let k ← stripAround kNum kv.1
  let v ← stripAround vNum kv.2
  pure (k, v)

/-- Lines 184-196 of `parse`: the value stored for the token `value`. `ParseFloat` stands for
`strconv.ParseFloat(value, 64)`, `none` when it returns an error. -/
def coerce {F : Type} (ParseFloat : GoString → Option F) (keepString : Bool)
    (value : GoString) : Value F :=
  if !keepString then
    match ParseFloat value with
    | some f => .float f
    | none =>
      match ParseBool value with
      | some b => .bool b
      | none => .str value
  else .str value

/-- The loop `for i := 0; i < len(pair); i += 2` of `parse` (lines 159-197) over the tokens
still to read, with the record `field` built so far. -/
def decodeGroup {F : Type} (ParseFloat : GoString → Option F) (keepString : Bool) :
    List GoString → Data F → Except Fault (Data F)
  | [], field => .ok field
  | [_], _ => .error .outOfRange
  | k :: v :: rest, field => do
    let (k, v) ← stripQuotes k v
    if k.length = 0 ∨ v.length = 0 then throw Fault.noValue
    decodeGroup ParseFloat keepString rest (field.set k (coerce ParseFloat keepString v))

/-- The loop `for _, pair := range pairs` of `parse` (lines 154-202), with the slice `datas`
built so far. -/
def decodeGroups {F : Type} (ParseFloat : GoString → Option F) (keepString : Bool) :
    List (List GoString) → List (Data F) → Except Fault (List (Data F))
  | [], datas => .ok datas
  | pair :: rest, datas =>
    if pair.length % 2 = 1 then .error .notMatch
    else do
      let field ← decodeGroup ParseFloat keepString pair []
      if field.length = 0 then decodeGroups ParseFloat keepString rest datas
      else decodeGroups ParseFloat keepString rest (datas ++ [field])

/-- The loop of lines 205-209 of `parse`, from the index `i`: `datas[i]` and
`datas[len(datas)-i-1]` change places while `i < len(datas)/2`. -/
def swapLoop {α : Type} : Nat → Nat → List α → Except Fault (List α)
  | 0, _, _ => .error .outOfFuel
  | fuel + 1, i, datas =>
    if i < datas.length / 2 then
      match datas.get? i, datas.get? (datas.length - i - 1) with
      | some a, some b => swapLoop fuel (i + 1) ((datas.set i b).set (datas.length - i - 1) a)
      | _, _ => .error .outOfRange
    else .ok datas

/-- The method `Parser.parse(line)`: the records of one line, or an error and no record. -/
def parse {F : Type} (ParseFloat : GoString → Option F) (p : Parser) (line : GoString) :
    Except Fault (List (Data F)) := do
  let pairs ← splitKV line p.splitter
  let datas ← decodeGroups ParseFloat p.keepString pairs []
  swapLoop (datas.length + 1) 0 datas

/-! ## `Parser.Parse` -/

/-- The struct `parser.ParseResult`, with the fields `Parse` reads; an `error` is held as its
message, `none` for `nil`. -/
structure ParseResult (F : Type) where
  Line : GoString
  Index : Nat
  Datas : List (Data F)
  Err : Option GoString

/-- The zero value of `parser.ParseResult`, which `make` fills the result slice with. -/
def ParseResult.zero {F : Type} : ParseResult F := ⟨[], 0, [], none⟩

/-- Modelled from the spec: the struct `StatsError` of `utils/models` is not part of the
sources at hand. The spec gives it the running counters `successCount`, `errorCount`, the
`lastErrorMessage` and the skip index sequence; `AddErrors` and `AddSuccess` add one to a
counter. -/
structure StatsError where
  Errors : Nat
  Success : Nat
  LastError : GoString
  DatasourceSkipIndex : List Nat
  deriving DecidableEq, Repr

/-- Modelled from the spec: `StatsError.AddErrors`. -/
def StatsError.AddErrors (se : StatsError) : StatsError := { se with Errors := se.Errors + 1 }

/-- Modelled from the spec: `StatsError.AddSuccess`. -/
def StatsError.AddSuccess (se : StatsError) : StatsError := { se with Success := se.Success + 1 }

/-- The two reserved field names `KeyPandoraStash` and `KeyRawData`; their declarations are not
part of the sources at hand. -/
structure Keys where
  KeyPandoraStash : GoString
  KeyRawData : GoString

/-- The variables the loop of lines 96-136 changes. -/
structure LoopState (F : Type) where
  datas : List (Data F)
  se : StatsError
  datasourceIndex : Nat

/-- The assignment `se.DatasourceSkipIndex[datasourceIndex] = index` followed by
`datasourceIndex++`. -/
def recordSkip {F : Type} (st : LoopState F) (index : Nat) : Except Fault (LoopState F) :=
  if st.datasourceIndex < st.se.DatasourceSkipIndex.length then
    .ok { st with
      se := { st.se with
        DatasourceSkipIndex := st.se.DatasourceSkipIndex.set st.datasourceIndex index }
      datasourceIndex := st.datasourceIndex + 1 }
  else .error .outOfRange

/-- The record `errData` of lines 106-115. -/
def errData {F : Type} (keys : Keys) (p : Parser) (line : GoString) : Data F :=
  let d : Data F := []
  let d := if !p.disableRecordErrData then d.set keys.KeyPandoraStash (.str line) else d
  if p.keepRawData then d.set keys.KeyRawData (.str line) else d

/-- The text `fmt.Sprintf("parsed no data by line [%s]", line)`. -/
def noDataMessage (line : GoString) : GoString :=
  go "parsed no data by line [" ++ line ++ go "]"

/-- One pass of the loop `for _, parseResult := range parseResultSlice` (lines 96-136). -/
def classify {F : Type} (keys : Keys) (p : Parser) (st : LoopState F)
    (parseResult : ParseResult F) : Except Fault (LoopState F) :=
  if parseResult.Line.length = 0 then recordSkip st parseResult.Index
  else
    match parseResult.Err with
    | some msg => do
      let st := { st with se := { st.se.AddErrors with LastError := msg } }
      let st ←
        if !p.disableRecordErrData then pure st
        else if !p.keepRawData then recordSkip st parseResult.Index
        else pure st
      if !p.disableRecordErrData ∨ p.keepRawData then
        pure { st with datas := st.datas ++ [errData keys p parseResult.Line] }
      else pure st
    | none =>
      if parseResult.Datas.length = 0 then
        .ok { st with
          se := { st.se with LastError := noDataMessage parseResult.Line }.AddErrors }
      else
        let st := { st with se := st.se.AddSuccess }
        let ds :=
          if p.keepRawData then
            parseResult.Datas.map (fun d => d.set keys.KeyRawData (.str parseResult.Line))
          else parseResult.Datas
        .ok { st with datas := st.datas ++ ds }

/-- The loop of lines 96-136 over the result slice. -/
def classifyAll {F : Type} (keys : Keys) (p : Parser) :
    List (ParseResult F) → LoopState F → Except Fault (LoopState F)
  | [], st => .ok st
  | r :: rest, st => do
    let st ← classify keys p st r
    classifyAll keys p rest st

/-- The loop of lines 90-92, `parseResultSlice[resultInfo.Index] = resultInfo` for the results
in the order `arrivals` in which they come out of `resultChan`. -/
def collect {F : Type} :
    List (ParseResult F) → List (ParseResult F) → Except Fault (List (ParseResult F))
  | [], parseResultSlice => .ok parseResultSlice
  | resultInfo :: rest, parseResultSlice =>
    if resultInfo.Index < parseResultSlice.length then
      collect rest (parseResultSlice.set resultInfo.Index resultInfo)
    else .error .outOfRange

/-- The state of the loop of lines 96-136 at its start: `datas` empty, `se` zero with the skip
buffer `make([]int, lineLen)`, `datasourceIndex` zero. -/
def LoopState.init {F : Type} (lineLen : Nat) : LoopState F :=
  ⟨[], ⟨0, 0, [], List.replicate lineLen 0⟩, 0⟩

/-- Lines 138-142 of `Parse`: the skip buffer is cut to `datasourceIndex` entries, and the
error returned is `nil` when there is neither an error nor a skip. -/
def finish {F : Type} (st : LoopState F) : Except Fault (List (Data F) × Option StatsError) := do
  let skip ← sliceTo st.se.DatasourceSkipIndex st.datasourceIndex
  let se := { st.se with DatasourceSkipIndex := skip }
  if se.Errors = 0 ∧ se.DatasourceSkipIndex.length = 0 then pure (st.datas, none)
  else pure (st.datas, some se)

/-- The method `Parser.Parse(lines)`. The workers and channels are left out: `arrivals` is the
sequence of results the workers send, in the order in which `Parse` receives them. The result
is the pair `Parse` returns, the record slice and the error (`none` for `nil`). -/
def Parse {F : Type} (keys : Keys) (p : Parser) (lines : List GoString)
    (arrivals : List (ParseResult F)) : Except Fault (List (Data F) × Option StatsError) := do
  let lineLen := lines.length
  let parseResultSlice ← collect arrivals (List.replicate lineLen ParseResult.zero)
  let st ← classifyAll keys p parseResultSlice (LoopState.init lineLen)
  finish st

/-! ## The workers of `Parse` -/

/-- The text `err.Error()` of the two errors `parse` returns; `none` for a run-time panic and
for the model's fuel, which are no error values. -/
def Fault.Error : Fault → Option GoString
  | .noValue => some (go "no value was parsed after logfmt, will keep origin data in " ++
      go "pandora_stash if disable_record_errdata field is false")
  | .notMatch => some (go "key value not match")
  | .outOfRange => none
  | .outOfFuel => none

/-- Lines 52-54 of `Parse`: an empty `splitter` is set to "=" before the workers start. -/
def Parser.ready (p : Parser) : Parser :=
  if p.splitter = [] then { p with splitter := go "=" } else p

/-- Modelled from the spec: the worker `parser.ParseLineDataSlice` is declared in another
package. `Parse` starts it at line 71 with the flag `true` and the function `p.parse`. For one
unit `{line, index}` it sends back one outcome `{index, records, error, rawLine}`: with the
flag set the line is first resolved with `strings.TrimSpace`; an empty resolved line gives an
outcome with neither records nor error; else `parse` is called on the resolved line, and the
outcome holds the resolved line with the records, or with the error and no record. A panic of
`parse` gives no outcome. -/
def ParseLineDataSlice {F : Type} (ParseFloat : GoString → Option F) (p : Parser)
    (line : GoString) (index : Nat) : Except Fault (ParseResult F) :=
  let line := TrimSpace line
  if line.length = 0 then .ok ⟨line, index, [], none⟩
  else
    match parse ParseFloat p line with
    | .ok datas => .ok ⟨line, index, datas, none⟩
    | .error e =>
      match e.Error with
      | some msg => .ok ⟨line, index, [], some msg⟩
      | none => .error e

/-- The outcomes of the units that the loop of lines 80-85 sends for `lines`, the first with the
index `index`, in the order of the indices. -/
def workFrom {F : Type} (ParseFloat : GoString → Option F) (p : Parser) :
    Nat → List GoString → Except Fault (List (ParseResult F))
  | _, [] => .ok []
  | index, line :: rest =>
    match ParseLineDataSlice ParseFloat p line index with
    | .error e => .error e
    | .ok r =>
      match workFrom ParseFloat p (index + 1) rest with
      | .error e => .error e
      | .ok rs => .ok (r :: rs)

/-- The outcomes of the batch `lines`, one per line, in the order of the indices `0..N-1`. -/
def workOutcomes {F : Type} (ParseFloat : GoString → Option F) (p : Parser)
    (lines : List GoString) : Except Fault (List (ParseResult F)) :=
  workFrom ParseFloat p.ready 0 lines

/-! ## The words of the claims -/

/-- The text holds no white space: `strings.IndexFunc(t, unicode.IsSpace)` is `-1`, that is no
rune of `t`, read as Go's `range` reads them, is a space. -/
def NoSpace (t : GoString) : Prop := indexFunc t IsSpace true = none

instance (t : GoString) : Decidable (NoSpace t) :=
  inferInstanceAs (Decidable (indexFunc t IsSpace true = none))

/-- No byte of the text is a space when it is taken for a rune of its own, the way line 292 of
`splitKV` takes it: besides the ASCII spaces this excludes the bytes `0x85` and `0xA0`. -/
def NoSpaceByte (t : GoString) : Prop := ∀ b ∈ t, IsSpace b = false

instance (t : GoString) : Decidable (NoSpaceByte t) :=
  inferInstanceAs (Decidable (∀ b ∈ t, IsSpace b = false))

/-- A token on which the scan works as meant: not empty, without white space, without a byte
that is a space when taken for a rune, without "=" and without backslash. -/
def SafeToken (t : GoString) : Prop :=
  t ≠ [] ∧ NoSpace t ∧ NoSpaceByte t ∧ 61 ∉ t ∧ 92 ∉ t

instance (t : GoString) : Decidable (SafeToken t) :=
  inferInstanceAs (Decidable (t ≠ [] ∧ NoSpace t ∧ NoSpaceByte t ∧ 61 ∉ t ∧ 92 ∉ t))

/-- The line "k1=v1 k2=v2 ... kn=vn": the pairs `k=v`, joined by one space. -/
def pairLine (pairs : List (GoString × GoString)) : GoString :=
  [32].intercalate (pairs.map (fun kv => kv.1 ++ 61 :: kv.2))

/-- The flat sequence `k1, v1, k2, v2, ..., kn, vn`. -/
def pairTokens (pairs : List (GoString × GoString)) : List GoString :=
  (pairs.map (fun kv => [kv.1, kv.2])).flatten

/-- The text " k1=v1 k2=v2 ...": every pair with a space before it. -/
def pairTail (pairs : List (GoString × GoString)) : GoString :=
  (pairs.map (fun kv => 32 :: kv.1 ++ 61 :: kv.2)).flatten

/-- The last value of `v, (k1, v1), ..., (kn, vn)`. -/
def lastValue (v : GoString) : List (GoString × GoString) → GoString
  | [] => v
  | kv :: rest => lastValue kv.2 rest

/-- The tokens `v, k1, v1, ..., kn` of `v, (k1, v1), ..., (kn, vn)`: all but the last value. -/
def innerTokens (v : GoString) : List (GoString × GoString) → List GoString
  | [] => []
  | kv :: rest => v :: kv.1 :: innerTokens kv.2 rest

/-! ## The classification of a line, in the words of the spec -/

/-- The spec's skip: the resolved line is empty, or the parse failed while stash-on-error and
raw retention are both disabled. -/
def specSkip {F : Type} (p : Parser) (r : ParseResult F) : Bool :=
  decide (r.Line = []) ||
    (decide (r.Line ≠ []) && r.Err.isSome && p.disableRecordErrData && !p.keepRawData)

/-- The spec's hard error: a non-empty line whose parse failed or gave no record. -/
def specError {F : Type} (r : ParseResult F) : Bool :=
  decide (r.Line ≠ []) && (r.Err.isSome || r.Datas.isEmpty)

/-- The spec's success: a non-empty line parsed without error into at least one record. -/
def specSuccess {F : Type} (r : ParseResult F) : Bool :=
  decide (r.Line ≠ []) && r.Err.isNone && !r.Datas.isEmpty

/-- The records a line is the origin of: none for an empty line; for a failed line the stash
record when stash-on-error or raw retention is enabled; else the parsed records, each with the
raw line added when raw retention is enabled. -/
def specRecords {F : Type} (keys : Keys) (p : Parser) (r : ParseResult F) : List (Data F) :=
  if r.Line = [] then []
  else
    match r.Err with
    | some _ =>
      if p.disableRecordErrData = false ∨ p.keepRawData = true then [errData keys p r.Line]
      else []
    | none =>
      if p.keepRawData then
        r.Datas.map (fun d => d.set keys.KeyRawData (.str r.Line))
      else r.Datas

/-- The value of a field as the text describes it, for the quote-stripped value token `t`: the
string `t` when string preservation is on; otherwise the float parsed from `t` if `t` parses as
a float, otherwise the boolean parsed from `t` if `t` parses as a boolean, otherwise the string
`t`. -/
def specValue {F : Type} (ParseFloat : GoString → Option F) (keepString : Bool)
    (t : GoString) : Value F :=
  if keepString then .str t
  else
    match ParseFloat t, ParseBool t with
    | some f, _ => .float f
    | none, some b => .bool b
    | none, none => .str t

/-- The quote-stripped key and value tokens of a pair: what `stripQuotes` gives. -/
def stripped (k v : GoString) : GoString × GoString :=
  match stripQuotes k v with
  | .ok kv => kv
  | .error _ => (k, v)

/-- The tokens of a group two by two: its pairs `(key token, value token)`. -/
def tokenPairs : List GoString → List (GoString × GoString)
  | k :: v :: rest => (k, v) :: tokenPairs rest
  | _ => []

/-- The record of a group as the text describes it: for each pair in turn, the stripped key is
given the value `specValue` of the stripped value token. -/
def specFields {F : Type} (ParseFloat : GoString → Option F) (keepString : Bool)
    (g : List GoString) (field : Data F) : Data F :=
  (tokenPairs g).foldl
    (fun d kv => d.set (stripped kv.1 kv.2).1
      (specValue ParseFloat keepString (stripped kv.1 kv.2).2)) field

/-- A key or a value of a segment: not empty, without white space, "=", double quote and
backslash. -/
def PlainToken (t : GoString) : Prop :=
  t ≠ [] ∧ NoSpace t ∧ 61 ∉ t ∧ 34 ∉ t ∧ 92 ∉ t

instance (t : GoString) : Decidable (PlainToken t) :=
  inferInstanceAs (Decidable (t ≠ [] ∧ NoSpace t ∧ 61 ∉ t ∧ 34 ∉ t ∧ 92 ∉ t))

/-- The line made of the segments "k1=v1", ..., "kn=vn", joined by single line breaks. -/
def segLine (segs : List (GoString × GoString)) : GoString :=
  [10].intercalate (segs.map (fun kv => kv.1 ++ 61 :: kv.2))

/-! ## mgr/models.go: the error histories of a runner -/

/-- The functions of `ErrorQueue` that `ErrorsList` calls. The type `ErrorQueue` and the
functions `NewErrorQueue`, `IsEmpty`, `GetMaxSize` and `CopyQueue` are declared in another
package, so they are parameters here. `Q` is what a non-nil `*ErrorQueue` points to,
`IsEmptyNil` is what the call `q.IsEmpty()` gives when `q` is the nil pointer (an error when the
method does not return), and `CopyQueue dst src` is `dst` after `dst.CopyQueue(src)`. -/
structure QueueOps (Q : Type) where
  NewErrorQueue : Int → Q
  IsEmpty : Q → Bool
  IsEmptyNil : Except Fault Bool
  GetMaxSize : Q → Int
  CopyQueue : Q → Q → Q

/-- A `map[string]*ErrorQueue` that is not nil: its entries, one per key. -/
abbrev QueueMap (Q : Type) := List (GoString × Option Q)

/-- The assignment `m[k] = v`. -/
def QueueMap.set {Q : Type} (m : QueueMap Q) (k : GoString) (v : Option Q) : QueueMap Q :=
  match m with
  | [] => [(k, v)]
  | (k2, v2) :: rest => if k2 = k then (k, v) :: rest else (k2, v2) :: QueueMap.set rest k v

/-- The struct `ErrorsList`; `none` is a nil pointer or a nil map. -/
structure ErrorsList (Q : Type) where
  ReadErrors : Option Q
  ParseErrors : Option Q
  TransformErrors : Option (QueueMap Q)
  SendErrors : Option (QueueMap Q)

/-- The method `ErrorsList.Reset`: the list after the call. -/
def ErrorsList.Reset {Q : Type} (entry : ErrorsList Q) : ErrorsList Q :=
  let entry := { entry with ReadErrors := none }
  let entry := { entry with ParseErrors := none }
  let entry := { entry with TransformErrors := none }
  { entry with SendErrors := none }

/-- The call `q.IsEmpty()` on a pointer `q`. -/
def QueueOps.callIsEmpty {Q : Type} (ops : QueueOps Q) : Option Q → Except Fault Bool
  | none => ops.IsEmptyNil
  | some q => pure (ops.IsEmpty q)

/-- The two statements `d = NewErrorQueue(q.GetMaxSize()); d.CopyQueue(q)`: the queue `d`. -/
def QueueOps.duplicate {Q : Type} (ops : QueueOps Q) (q : Q) : Q :=
  ops.CopyQueue (ops.NewErrorQueue (ops.GetMaxSize q)) q

/-- The variables `dst` and `isEmpty` of `ErrorsList.Copy`. -/
structure CopyState (Q : Type) where
  dst : ErrorsList Q
  isEmpty : Bool

/-- The body of the loops over `src.TransformErrors` and `src.SendErrors` in `ErrorsList.Copy`:
the destination map and `isEmpty` after the entries `m`, visited in the order of the list. -/
def copyEntries {Q : Type} (ops : QueueOps Q) :
    QueueMap Q → Option (QueueMap Q) → Bool → Option (QueueMap Q) × Bool
  | [], dst, isEmpty => (dst, isEmpty)
  | (name, q) :: rest, dst, isEmpty =>
    match q with
    | some e =>
      if !ops.IsEmpty e then
        let made : QueueMap Q := match dst with
          | none => []
          | some m => m
        copyEntries ops rest (some (made.set name (some (ops.duplicate e)))) false
      else copyEntries ops rest dst isEmpty
    | none => copyEntries ops rest dst isEmpty

/-- Lines 154-158 of `ErrorsList.Copy`, the read history. -/
def copyRead {Q : Type} (ops : QueueOps Q) (src : ErrorsList Q) (st : CopyState Q) :
    CopyState Q :=
  match src.ReadErrors with
  | some q =>
    if !ops.IsEmpty q then
      ⟨{ st.dst with ReadErrors := some (ops.duplicate q) }, false⟩
    else st
  | none => st

/-- Lines 160-164 of `ErrorsList.Copy`, the parse history: the test is
`src.ParseErrors != nil && !src.ReadErrors.IsEmpty()`. -/
def copyParse {Q : Type} (ops : QueueOps Q) (src : ErrorsList Q) (st : CopyState Q) :
    Except Fault (CopyState Q) :=
  match src.ParseErrors with
  | some q =>
    match ops.callIsEmpty src.ReadErrors with
    | .error e => .error e
    | .ok b =>
      if !b then .ok ⟨{ st.dst with ParseErrors := some (ops.duplicate q) }, false⟩
      else .ok st
  | none => .ok st

/-- Lines 166-177 of `ErrorsList.Copy`, the transformer histories. -/
def copyTransform {Q : Type} (ops : QueueOps Q) (src : ErrorsList Q) (st : CopyState Q) :
    CopyState Q :=
  match src.TransformErrors with
  | some m =>
    let r := copyEntries ops m st.dst.TransformErrors st.isEmpty
    ⟨{ st.dst with TransformErrors := r.1 }, r.2⟩
  | none => st

/-- Lines 179-190 of `ErrorsList.Copy`, the sender histories. -/
def copySend {Q : Type} (ops : QueueOps Q) (src : ErrorsList Q) (st : CopyState Q) :
    CopyState Q :=
  match src.SendErrors with
  | some m =>
    let r := copyEntries ops m st.dst.SendErrors st.isEmpty
    ⟨{ st.dst with SendErrors := r.1 }, r.2⟩
  | none => st

/-- The method `ErrorsList.Copy`: the pointer it returns, `none` for nil. -/
def ErrorsList.Copy {Q : Type} (ops : QueueOps Q) (src : ErrorsList Q) :
    Except Fault (Option (ErrorsList Q)) :=
  let st : CopyState Q := ⟨⟨none, none, none, none⟩, true⟩
  let st := copyRead ops src st
  match copyParse ops src st with
  | .error e => .error e
  | .ok st =>
    let st := copyTransform ops src st
    let st := copySend ops src st
    if st.isEmpty then .ok none else .ok (some st.dst)

/-- A history is absent or empty. -/
def QueueOps.blank {Q : Type} (ops : QueueOps Q) : Option Q → Bool
  | none => true
  | some q => ops.IsEmpty q

/-- Every history of a map is absent or empty; a nil map has none. -/
def QueueOps.blankMap {Q : Type} (ops : QueueOps Q) : Option (QueueMap Q) → Bool
  | none => true
  | some m => m.all (fun e => ops.blank e.2)

/-- Every sub-history of an `ErrorsList` is absent or empty. -/
def QueueOps.allBlank {Q : Type} (ops : QueueOps Q) (src : ErrorsList Q) : Bool :=
  ops.blank src.ReadErrors && ops.blank src.ParseErrors &&
    ops.blankMap src.TransformErrors && ops.blankMap src.SendErrors

/-! ## Concrete instances used in the examples -/

deriving instance DecidableEq for Except

deriving instance DecidableEq for ParseResult

/-- A stand-in for `strconv.ParseFloat` on unsigned decimal integers: the number the digits
write; `none` for every other text. -/
def decimalFloat (s : GoString) : Option Nat :=
  if s ≠ [] ∧ s.all (fun b => 48 ≤ b ∧ b ≤ 57) then
    some (s.foldl (fun n b => 10 * n + (b - 48)) 0)
  else none

/-- A parser with the separator "=" and every flag off (type coercion on). -/
def coercingParser : Parser := ⟨[], false, false, 1, false, go "="⟩

/-- A parser with the separator "=" that keeps every value a string. -/
def stringParser : Parser := ⟨[], true, false, 1, false, go "="⟩

/-- The reserved field names as logkit declares them. -/
def sampleKeys : Keys := ⟨go "pandora_stash", go "raw_data"⟩

/-- The outcome of the line "a=1" at index 0: one record, no error. -/
def outcomeA : ParseResult Nat := ⟨go "a=1", 0, [[(go "a", Value.float 1)]], none⟩

/-- The outcome of the line "b" at index 1: the error of `splitKV`, no record. -/
def outcomeB : ParseResult Nat := ⟨go "b", 1, [], some (go "no value was parsed")⟩

/-- A parser that neither stashes nor keeps the raw text of a failed line. -/
def droppingParser : Parser := ⟨[], false, true, 1, false, go "="⟩

/-- The outcome of an empty line at index 2. -/
def outcomeC : ParseResult Nat := ⟨[], 2, [], none⟩

/-- A sample history for the examples: its maximum size and its entries. -/
structure SampleQueue where
  maxSize : Int
  entries : List Nat
deriving DecidableEq

/-- Sample queue functions for the examples; a call of `IsEmpty` on nil gives `nilEmpty`. -/
def sampleOps (nilEmpty : Except Fault Bool) : QueueOps SampleQueue :=
  ⟨fun m => ⟨m, []⟩, fun q => q.entries.isEmpty, nilEmpty, fun q => q.maxSize,
    fun dst src => { dst with entries := src.entries }⟩

/-- An empty read history and a parse history with one entry. -/
def parseOnlyList : ErrorsList SampleQueue := ⟨some ⟨10, []⟩, some ⟨10, [7]⟩, none, none⟩

/-! ## The `Except` monad -/

@[simp]
theorem ok_bind {α β : Type} (a : α) (f : α → Except Fault β) :
    (Except.ok a >>= f) = f a := rfl

@[simp]
theorem error_bind {α β : Type} (e : Fault) (f : α → Except Fault β) :
    ((Except.error e : Except Fault α) >>= f) = Except.error e := rfl

@[simp]
theorem pure_eq_ok {α : Type} (a : α) : (pure a : Except Fault α) = Except.ok a := rfl

@[simp]
theorem throw_eq_error {α : Type} (e : Fault) :
    (throw e : Except Fault α) = Except.error e := rfl

/-! ## C2: the order of the records of a line with a line break -/

/-- C2, as the code behaves: for every `ParseFloat` that reads "1" and "2" as numbers, parsing
the line "a=1\nb=2" with separator "=" and type coercion on yields exactly two records in the
order of the input, `[{a: 1}, {b: 2}]`: `splitKV` puts the group of the text after the break
first, and the final loop of `parse` turns the order round again. -/
theorem C2_parse_multiline_input_order {F : Type} (ParseFloat : GoString → Option F)
    (p : Parser) (f1 f2 : F) (hsep : p.splitter = go "=") (hks : p.keepString = false)
    (h1 : ParseFloat (go "1") = some f1) (h2 : ParseFloat (go "2") = some f2) :
    parse ParseFloat p (go "a=1\nb=2") =
      .ok [[(go "a", Value.float f1)], [(go "b", Value.float f2)]] := by
  have hs : splitKV (go "a=1\nb=2") (go "=") = .ok [[go "b", go "2"], [go "a", go "1"]] := by
    decide
  have ha : stripQuotes (go "a") (go "1") = .ok (go "a", go "1") := by decide
  have hb : stripQuotes (go "b") (go "2") = .ok (go "b", go "2") := by decide
  have hla : go "a" ≠ [] := by decide
  have hl1 : go "1" ≠ [] := by decide
  have hlb : go "b" ≠ [] := by decide
  have hl2 : go "2" ≠ [] := by decide
  simp [parse, hsep, hs, hks, decodeGroups, decodeGroup, ha, hb, coerce, h1, h2, Data.set,
    hla, hl1, hlb, hl2, swapLoop]

/-- C2, witness: with `decimalFloat` for `ParseFloat` the line "a=1\nb=2" gives
`[{a: 1}, {b: 2}]`. -/
theorem C2_parse_multiline_input_order_witness :
    parse decimalFloat coercingParser (go "a=1\nb=2") =
      .ok [[(go "a", Value.float 1)], [(go "b", Value.float 2)]] :=
  C2_parse_multiline_input_order decimalFloat coercingParser 1 2 rfl rfl (by decide) (by decide)

/-- C2, as stated, fails: the records of "a=1\nb=2" are not `[{b: 2}, {a: 1}]`; `parse` returns
`[{a: 1}, {b: 2}]`, although `splitKV` returns the groups in the order `[b, 2]`, `[a, 1]`. -/
theorem C2_reversed_order_refuted :
    splitKV (go "a=1\nb=2") (go "=") = .ok [[go "b", go "2"], [go "a", go "1"]] ∧
    parse decimalFloat coercingParser (go "a=1\nb=2") =
      .ok [[(go "a", Value.float 1)], [(go "b", Value.float 2)]] ∧
    parse decimalFloat coercingParser (go "a=1\nb=2") ≠
      .ok [[(go "b", Value.float 2)], [(go "a", Value.float 1)]] := by
  decide

/-! ## The loop of `Parse` -/

/-- One pass of the loop succeeds when the skip buffer has room for the results still to come;
it leaves the buffer's length alone, moves `datasourceIndex` by at most one and only appends to
`datas`. -/
theorem classify_ok {F : Type} (keys : Keys) (p : Parser) (st : LoopState F)
    (r : ParseResult F) (n : Nat)
    (h : st.datasourceIndex + (n + 1) ≤ st.se.DatasourceSkipIndex.length) :
    ∃ st1, classify keys p st r = .ok st1 ∧
      st1.datasourceIndex + n ≤ st1.se.DatasourceSkipIndex.length ∧
      st1.se.DatasourceSkipIndex.length = st.se.DatasourceSkipIndex.length ∧
      ∃ more, st1.datas = st.datas ++ more := by
  have hroom : st.datasourceIndex < st.se.DatasourceSkipIndex.length := by omega
  unfold classify
  by_cases hl : r.Line.length = 0
  · simp only [hl, if_true, recordSkip, hroom]
    refine ⟨_, rfl, ?_, ?_, [], ?_⟩
    · simp; omega
    · simp
    · simp
  · simp only [hl, if_false]
    cases hErr : r.Err with
    | some msg =>
      rcases hd : p.disableRecordErrData with _ | _ <;> rcases hk : p.keepRawData with _ | _ <;>
        simp [recordSkip, StatsError.AddErrors, hroom] <;> omega
    | none =>
      by_cases hz : r.Datas.length = 0
      · simp [hz, StatsError.AddErrors]; omega
      · simp [hz, StatsError.AddSuccess]; omega

/-- The whole loop succeeds when the skip buffer has room for every result; it only appends to
`datas`, and leaves `n` free entries in the buffer when there was room for `n` more results. -/
theorem classifyAll_ok {F : Type} (keys : Keys) (p : Parser) (rs : List (ParseResult F))
    (st : LoopState F) (n : Nat)
    (h : st.datasourceIndex + (rs.length + n) ≤ st.se.DatasourceSkipIndex.length) :
    ∃ st1, classifyAll keys p rs st = .ok st1 ∧
      st1.datasourceIndex + n ≤ st1.se.DatasourceSkipIndex.length ∧
      st1.se.DatasourceSkipIndex.length = st.se.DatasourceSkipIndex.length ∧
      ∃ more, st1.datas = st.datas ++ more := by
  induction rs generalizing st with
  | nil => exact ⟨st, rfl, by simpa using h, rfl, [], by simp⟩
  | cons r rest ih =>
    obtain ⟨st1, h1, hroom, hlen, m1, hm1⟩ :=
      classify_ok keys p st r (rest.length + n) (by simp at h; omega)
    obtain ⟨st2, h2, hroom2, hlen2, m2, hm2⟩ := ih st1 hroom
    refine ⟨st2, ?_, hroom2, by rw [hlen2, hlen], m1 ++ m2, ?_⟩
    · simp [classifyAll, h1, h2]
    · rw [hm2, hm1, List.append_assoc]

/-- The loop over `a ++ b` is the loop over `a` followed by the loop over `b`. -/
theorem classifyAll_append {F : Type} (keys : Keys) (p : Parser) (a b : List (ParseResult F))
    (st : LoopState F) :
    classifyAll keys p (a ++ b) st = classifyAll keys p a st >>= classifyAll keys p b := by
  induction a generalizing st with
  | nil => simp [classifyAll]
  | cons r rest ih =>
    simp only [List.cons_append, classifyAll]
    cases classify keys p st r with
    | error e => rfl
    | ok st1 => simpa using ih st1

/-- Writing results whose indices are all within the slice succeeds and keeps its length. -/
theorem collect_ok {F : Type} (arrivals : List (ParseResult F)) (init : List (ParseResult F))
    (hlt : ∀ r ∈ arrivals, r.Index < init.length) :
    ∃ sl, collect arrivals init = .ok sl ∧ sl.length = init.length := by
  induction arrivals generalizing init with
  | nil => exact ⟨init, rfl, rfl⟩
  | cons r rest ih =>
    have hr : r.Index < init.length := hlt r (List.mem_cons_self _ _)
    obtain ⟨sl, hsl, hlen⟩ := ih (init.set r.Index r)
      (fun x hx => by simpa using hlt x (List.mem_cons_of_mem _ hx))
    exact ⟨sl, by simp [collect, hr, hsl], by simpa using hlen⟩

/-- Writing results with distinct indices, all within the slice: every result ends in the slot
of its index, and a slot no result names keeps what it held. -/
theorem collect_spec {F : Type} (arrivals : List (ParseResult F)) (init : List (ParseResult F))
    (hnd : (arrivals.map (fun r => r.Index)).Nodup)
    (hlt : ∀ r ∈ arrivals, r.Index < init.length) :
    ∃ sl, collect arrivals init = .ok sl ∧ sl.length = init.length ∧
      (∀ r ∈ arrivals, sl[r.Index]? = some r) ∧
      ∀ i, (∀ r ∈ arrivals, r.Index ≠ i) → sl[i]? = init[i]? := by
  induction arrivals generalizing init with
  | nil => exact ⟨init, rfl, rfl, by simp, fun _ _ => rfl⟩
  | cons r rest ih =>
    have hr : r.Index < init.length := hlt r (List.mem_cons_self _ _)
    simp only [List.map_cons, List.nodup_cons, List.mem_map, not_exists, not_and] at hnd
    obtain ⟨sl, hsl, hlen, hhit, hmiss⟩ := ih (init.set r.Index r) hnd.2
      (fun x hx => by simpa using hlt x (List.mem_cons_of_mem _ hx))
    refine ⟨sl, by simp [collect, hr, hsl], by simpa using hlen, ?_, ?_⟩
    · intro x hx
      rcases List.mem_cons.1 hx with rfl | hx
      · rw [hmiss x.Index (fun y hy => hnd.1 y hy)]
        simp [hr]
      · exact hhit x hx
    · intro i hi
      rw [hmiss i (fun y hy => hi y (List.mem_cons_of_mem _ hy))]
      have : r.Index ≠ i := hi r (List.mem_cons_self _ _)
      simp [List.getElem?_set_ne this]

/-- C8: for outcomes carrying the distinct indices `0..N-1`, every arrival order (every
permutation of the outcomes) fills the pre-sized result slice alike: the slice has length `N`,
slot `i` holds the outcome with index `i`, and so what `Parse` returns does not depend on the
order in which the workers finish. -/
theorem C8_collect_order_independent {F : Type} (outcomes arrivals : List (ParseResult F))
    (hidx : (outcomes.map (fun r => r.Index)).Perm (List.range outcomes.length))
    (hperm : arrivals.Perm outcomes) :
    ∃ sl, collect arrivals (List.replicate outcomes.length ParseResult.zero) = .ok sl ∧
      collect outcomes (List.replicate outcomes.length ParseResult.zero) = .ok sl ∧
      sl.length = outcomes.length ∧
      (∀ r ∈ outcomes, sl[r.Index]? = some r) ∧
      (∀ i, i < outcomes.length → ∃ r ∈ outcomes, r.Index = i ∧ sl[i]? = some r) ∧
      ∀ (keys : Keys) (p : Parser) (lines : List GoString), lines.length = outcomes.length →
        Parse keys p lines arrivals = Parse keys p lines outcomes := by
  have hnd : (outcomes.map (fun r => r.Index)).Nodup := hidx.nodup_iff.2 (List.nodup_range _)
  have hlt : ∀ r ∈ outcomes, r.Index < outcomes.length := fun r hr =>
    List.mem_range.1 (hidx.mem_iff.1 (List.mem_map_of_mem _ hr))
  have hall : ∀ i, i < outcomes.length → ∃ r ∈ outcomes, r.Index = i := fun i hi => by
    simpa using hidx.mem_iff.2 (List.mem_range.2 hi)
  have hnd2 : (arrivals.map (fun r => r.Index)).Nodup :=
    (hperm.map _).nodup_iff.2 hnd
  obtain ⟨sl, hsl, hlen, hhit, -⟩ := collect_spec outcomes
    (List.replicate outcomes.length ParseResult.zero) hnd (by simpa using hlt)
  obtain ⟨sl2, hsl2, hlen2, hhit2, -⟩ := collect_spec arrivals
    (List.replicate outcomes.length ParseResult.zero) hnd2
    (fun r hr => by simpa using hlt r (hperm.mem_iff.1 hr))
  have heq : sl2 = sl := by
    apply List.ext_getElem?
    intro i
    by_cases hi : i < outcomes.length
    · obtain ⟨r, hr, rfl⟩ := hall i hi
      rw [hhit r hr, hhit2 r (hperm.mem_iff.2 hr)]
    · have h1 : sl.length ≤ i := by simp at hlen; omega
      have h2 : sl2.length ≤ i := by simp at hlen2; omega
      rw [List.getElem?_eq_none h1, List.getElem?_eq_none h2]
  subst heq
  refine ⟨sl2, hsl2, hsl, by simpa using hlen, hhit, ?_, ?_⟩
  · intro i hi
    obtain ⟨r, hr, rfl⟩ := hall i hi
    exact ⟨r, hr, rfl, hhit r hr⟩
  · intro keys p lines hl
    simp [Parse, hl, hsl, hsl2]

/-- C8, witness: the outcomes of the batch "a=1", "b" arriving in the order 1, 0 give what they
give in the order 0, 1. -/
theorem C8_collect_order_independent_witness :
    Parse sampleKeys coercingParser [go "a=1", go "b"] [outcomeB, outcomeA] =
      Parse sampleKeys coercingParser [go "a=1", go "b"] [outcomeA, outcomeB] := by
  obtain ⟨_, _, _, _, _, _, h⟩ :=
    C8_collect_order_independent [outcomeA, outcomeB] [outcomeB, outcomeA] (by decide)
      (List.Perm.swap _ _ _)
  exact h sampleKeys coercingParser [go "a=1", go "b"] rfl

/-- C9: when every result names a line of the batch, `Parse` returns; it returns the record
slice the loop built, and a non-nil error exactly when, after all lines are classified, the
error counter is not zero or the skip index sequence is not empty. The error returned is the
`StatsError` with those counters and that skip sequence. -/
theorem C9_Parse_error_iff {F : Type} (keys : Keys) (p : Parser) (lines : List GoString)
    (arrivals : List (ParseResult F)) (hidx : ∀ r ∈ arrivals, r.Index < lines.length) :
    ∃ sl st datas err,
      collect arrivals (List.replicate lines.length ParseResult.zero) = .ok sl ∧
      classifyAll keys p sl (LoopState.init lines.length) = .ok st ∧
      Parse keys p lines arrivals = .ok (datas, err) ∧
      datas = st.datas ∧
      (err ≠ none ↔
        (st.se.Errors ≠ 0 ∨ st.se.DatasourceSkipIndex.take st.datasourceIndex ≠ [])) ∧
      ∀ se, err = some se →
        se = { st.se with
          DatasourceSkipIndex := st.se.DatasourceSkipIndex.take st.datasourceIndex } := by
  obtain ⟨sl, hsl, hlen⟩ := collect_ok arrivals
    (List.replicate lines.length ParseResult.zero) (by simpa using hidx)
  obtain ⟨st, hst, hroom, -, -⟩ := classifyAll_ok keys p sl (LoopState.init lines.length) 0
    (by simp [LoopState.init] at hlen ⊢; omega)
  rw [Nat.add_zero] at hroom
  by_cases hz : st.se.Errors = 0 ∧ st.se.DatasourceSkipIndex.take st.datasourceIndex = []
  · refine ⟨sl, st, st.datas, none, hsl, hst, ?_, rfl, ?_, ?_⟩
    · simp [Parse, hsl, hst, finish, sliceTo, hroom, hz.1]
      have := hz.2
      simp at this
      exact fun hn => this.resolve_left hn
    · simp [hz.1, hz.2]
    · simp
  · refine ⟨sl, st, st.datas, some { st.se with
      DatasourceSkipIndex := st.se.DatasourceSkipIndex.take st.datasourceIndex },
      hsl, hst, ?_, rfl, ?_, ?_⟩
    · simp only [Parse, hsl, hst, finish, sliceTo, hroom, if_true, ok_bind, pure_eq_ok]
      rw [if_neg]
      simpa using hz
    · constructor
      · intro _
        by_contra hc
        rw [not_or, not_not, not_not] at hc
        exact hz hc
      · intro _; simp
    · intro se hse
      exact (Option.some.inj hse).symm

/-- C9, witness: for the batch "a=1", "b" `Parse` returns a record slice and an error. -/
theorem C9_Parse_error_iff_witness :
    ∃ datas err, Parse sampleKeys coercingParser [go "a=1", go "b"] [outcomeB, outcomeA] =
      .ok (datas, err) := by
  obtain ⟨_, _, datas, err, _, _, h, _⟩ :=
    C9_Parse_error_iff sampleKeys coercingParser [go "a=1", go "b"] [outcomeB, outcomeA]
      (by decide)
  exact ⟨datas, err, h⟩

/-- The pass of the loop for a result with a non-empty line and an error, written out. -/
theorem classify_failed {F : Type} (keys : Keys) (p : Parser) (st : LoopState F)
    (r : ParseResult F) (msg : GoString) (hline : r.Line ≠ []) (herr : r.Err = some msg)
    (hroom : st.datasourceIndex < st.se.DatasourceSkipIndex.length) :
    classify keys p st r = .ok
      { datas := st.datas ++
          (if p.disableRecordErrData = false ∨ p.keepRawData = true then
            [errData keys p r.Line] else [])
        se :=
          { Errors := st.se.Errors + 1
            Success := st.se.Success
            LastError := msg
            DatasourceSkipIndex :=
              if p.disableRecordErrData = true ∧ p.keepRawData = false then
                st.se.DatasourceSkipIndex.set st.datasourceIndex r.Index
              else st.se.DatasourceSkipIndex }
        datasourceIndex :=
          if p.disableRecordErrData = true ∧ p.keepRawData = false then st.datasourceIndex + 1
          else st.datasourceIndex } := by
  have hl : ¬ r.Line.length = 0 := by simpa using hline
  rcases hd : p.disableRecordErrData with _ | _ <;> rcases hk : p.keepRawData with _ | _ <;>
    simp [classify, hl, herr, hd, hk, recordSkip, hroom, StatsError.AddErrors]

/-! ## `parse`: decoding the groups -/

theorem HasPrefix_length {s p : GoString} (h : HasPrefix s p = true) : p.length ≤ s.length := by
  induction s generalizing p with
  | nil =>
    cases p with
    | nil => simp
    | cons b p => simp [HasPrefix] at h
  | cons a s ih =>
    cases p with
    | nil => simp
    | cons b p =>
      simp only [HasPrefix, Bool.and_eq_true, decide_eq_true_eq] at h
      have := ih h.2
      simp only [List.length_cons]
      omega

theorem HasSuffix_length {s p : GoString} (h : HasSuffix s p = true) : p.length ≤ s.length := by
  simp only [HasSuffix, Bool.and_eq_true, decide_eq_true_eq] at h
  exact h.1

theorem stripAcross_ok (kNum vNum : Nat) (k v : GoString) :
    ∃ kv, stripAcross kNum vNum k v = .ok kv := by
  unfold stripAcross
  split
  · split
    · rename_i h
      have h1 := HasPrefix_length h.1
      have h2 := HasSuffix_length h.2
      simp only [List.length_singleton] at h1 h2
      have h3 : ¬ v.length = 0 := by omega
      exact ⟨(k.drop 1, v.take (v.length - 1)), by simp [sliceFrom, dropLastByte, h1, h3]⟩
    · exact ⟨_, rfl⟩
  · exact ⟨_, rfl⟩

theorem stripAround_ok (num : Nat) (s : GoString) : ∃ t, stripAround num s = .ok t := by
  unfold stripAround
  split
  · split
    · refine ⟨(s.take (s.length - 1)).drop 1, ?_⟩
      rw [slice, if_pos]
      omega
    · exact ⟨_, rfl⟩
  · exact ⟨_, rfl⟩

/-- The quote removal of `parse` never slices out of range. -/
theorem stripQuotes_ok (k v : GoString) : ∃ kv, stripQuotes k v = .ok kv := by
  obtain ⟨kv, h1⟩ := stripAcross_ok (Count k [34]) (Count v [34]) k v
  obtain ⟨k2, h2⟩ := stripAround_ok (Count k [34]) kv.1
  obtain ⟨v2, h3⟩ := stripAround_ok (Count v [34]) kv.2
  exact ⟨(k2, v2), by simp [stripQuotes, h1, h2, h3]⟩

/-- Decoding a group with an even number of tokens ends in a record or in the error
"no value parsed". -/
theorem decodeGroup_even {F : Type} (ParseFloat : GoString → Option F) (keepString : Bool)
    (n : Nat) (g : List GoString) (field : Data F) (hn : g.length = 2 * n) :
    (∃ out, decodeGroup ParseFloat keepString g field = .ok out) ∨
      decodeGroup ParseFloat keepString g field = .error .noValue := by
  induction n generalizing g field with
  | zero =>
    have : g = [] := List.length_eq_zero.1 (by simpa using hn)
    subst this
    exact Or.inl ⟨field, rfl⟩
  | succ n ih =>
    match g, hn with
    | k :: v :: rest, hn =>
      obtain ⟨kv, hkv⟩ := stripQuotes_ok k v
      simp only [decodeGroup, hkv, ok_bind]
      by_cases he : kv.1.length = 0 ∨ kv.2.length = 0
      · right
        rw [if_pos he]
        rfl
      · rw [if_neg he]
        exact ih rest _ (by simp at hn; omega)

/-- The error of `parse` when a group has an odd number of tokens: some error in any case, and
"key value not match" when every group before the odd one decodes. -/
theorem decodeGroups_odd {F : Type} (ParseFloat : GoString → Option F) (keepString : Bool)
    (pre post : List (List GoString)) (g : List GoString) (datas : List (Data F))
    (hpre : ∀ h ∈ pre, h.length % 2 = 0) (hodd : g.length % 2 = 1) :
    (decodeGroups ParseFloat keepString (pre ++ g :: post) datas = .error .noValue ∨
      decodeGroups ParseFloat keepString (pre ++ g :: post) datas = .error .notMatch) ∧
    ((∀ h ∈ pre, ∃ out, decodeGroup ParseFloat keepString h [] = .ok out) →
      decodeGroups ParseFloat keepString (pre ++ g :: post) datas = .error .notMatch) := by
  induction pre generalizing datas with
  | nil =>
    simp [decodeGroups, hodd]
  | cons h pre ih =>
    have hh : h.length % 2 = 0 := hpre h (List.mem_cons_self _ _)
    have hpre2 : ∀ x ∈ pre, x.length % 2 = 0 := fun x hx => hpre x (List.mem_cons_of_mem _ hx)
    have hh2 : ¬ h.length % 2 = 1 := by omega
    simp only [List.cons_append, decodeGroups, hh2, if_false]
    rcases decodeGroup_even ParseFloat keepString (h.length / 2) h [] (by omega) with
      ⟨out, hout⟩ | herr
    · simp only [hout, ok_bind]
      constructor
      · split
        · exact (ih _ hpre2).1
        · exact (ih _ hpre2).1
      · intro hall
        have hall2 : ∀ x ∈ pre, ∃ out, decodeGroup ParseFloat keepString x [] = .ok out :=
          fun x hx => hall x (List.mem_cons_of_mem _ hx)
        split
        · exact (ih _ hpre2).2 hall2
        · exact (ih _ hpre2).2 hall2
    · simp only [herr, error_bind]
      refine ⟨by simp, ?_⟩
      intro hall
      obtain ⟨out, hout⟩ := hall h (List.mem_cons_self _ _)
      rw [herr] at hout
      cases hout

/-- A list of groups with an odd one splits at its first odd group. -/
theorem first_odd_group (groups : List (List GoString))
    (h : ∃ g ∈ groups, g.length % 2 = 1) :
    ∃ pre g post, groups = pre ++ g :: post ∧ g.length % 2 = 1 ∧
      ∀ x ∈ pre, x.length % 2 = 0 := by
  induction groups with
  | nil => simp at h
  | cons a rest ih =>
    by_cases ha : a.length % 2 = 1
    · exact ⟨[], a, rest, rfl, ha, by simp⟩
    · obtain ⟨g, hg, hodd⟩ := h
      rcases List.mem_cons.1 hg with rfl | hg
      · exact absurd hodd ha
      · obtain ⟨pre, g2, post, heq, hodd2, hpre⟩ := ih ⟨g, hg, hodd⟩
        refine ⟨a :: pre, g2, post, by simp [heq], hodd2, ?_⟩
        intro x hx
        rcases List.mem_cons.1 hx with rfl | hx
        · omega
        · exact hpre x hx

/-- C7: when a group that `splitKV` returns for the line has an odd number of tokens, `parse`
returns an error and no record: "no value parsed" or "key value not match", and the latter
when every group before the odd one has an even number of tokens and decodes. -/
theorem C7_odd_group_error {F : Type} (ParseFloat : GoString → Option F) (p : Parser)
    (line : GoString) (groups : List (List GoString))
    (hs : splitKV line p.splitter = .ok groups) (hodd : ∃ g ∈ groups, g.length % 2 = 1) :
    (parse ParseFloat p line = .error .noValue ∨ parse ParseFloat p line = .error .notMatch) ∧
    ∀ pre g post, groups = pre ++ g :: post → g.length % 2 = 1 →
      (∀ h ∈ pre, h.length % 2 = 0 ∧
        ∃ out, decodeGroup ParseFloat p.keepString h [] = .ok out) →
      parse ParseFloat p line = .error .notMatch := by
  constructor
  · obtain ⟨pre, g, post, heq, hg, hpre⟩ := first_odd_group groups hodd
    rcases (decodeGroups_odd ParseFloat p.keepString pre post g [] hpre hg).1 with h | h
    · left
      simp [parse, hs, heq, h]
    · right
      simp [parse, hs, heq, h]
  · intro pre g post heq hg hpre
    have h := (decodeGroups_odd ParseFloat p.keepString pre post g []
      (fun x hx => (hpre x hx).1) hg).2 (fun x hx => (hpre x hx).2)
    simp [parse, hs, heq, h]

/-- C7, witness: the line "a=" gives the single group `[a]`, and `parse` fails with
"key value not match". -/
theorem C7_odd_group_error_witness :
    splitKV (go "a=") (go "=") = .ok [[go "a"]] ∧
    parse decimalFloat coercingParser (go "a=") = .error .notMatch :=
  ⟨by decide,
    (C7_odd_group_error decimalFloat coercingParser (go "a=") [[go "a"]] (by decide)
      ⟨[go "a"], by simp, by decide⟩).2 [] [go "a"] [] rfl (by decide) (by simp)⟩

/-! ## Substring search -/

theorem HasPrefix_iff (s p : GoString) : HasPrefix s p = true ↔ p <+: s := by
  induction s generalizing p with
  | nil =>
    cases p with
    | nil => simp [HasPrefix]
    | cons b p => simp [HasPrefix]
  | cons a s ih =>
    cases p with
    | nil => simp [HasPrefix]
    | cons b p =>
      simp only [HasPrefix, Bool.and_eq_true, decide_eq_true_eq, ih, List.cons_prefix_cons]
      constructor
      · rintro ⟨h1, h2⟩; exact ⟨h1.symm, h2⟩
      · rintro ⟨h1, h2⟩; exact ⟨h1.symm, h2⟩

theorem Index_none_iff (s sub : GoString) : Index s sub = none ↔ ¬ sub <:+: s := by
  induction s with
  | nil =>
    by_cases h : sub = []
    · simp [Index, h]
    · simp [Index, h]
  | cons a s ih =>
    by_cases hp : HasPrefix (a :: s) sub = true
    · have := (HasPrefix_iff _ _).1 hp
      simp [Index, hp, this.isInfix]
    · have hnp : ¬ sub <+: a :: s := fun h => hp ((HasPrefix_iff _ _).2 h)
      simp only [Index, hp, Bool.false_eq_true, if_false, Option.map_eq_none', ih]
      rw [List.infix_cons_iff]
      tauto

theorem Index_some_infix {s sub : GoString} {i : Nat} (h : Index s sub = some i) :
    sub <:+: s := by
  by_contra hc
  rw [(Index_none_iff s sub).2 hc] at h
  cases h

theorem Contains_iff (s sub : GoString) : Contains s sub = true ↔ sub <:+: s := by
  unfold Contains
  cases h : Index s sub with
  | none => simpa using (Index_none_iff s sub).1 h
  | some i => simpa using Index_some_infix h

/-- The index `Index` returns is the start of an occurrence. -/
theorem Index_some_spec {s sub : GoString} {i : Nat} (h : Index s sub = some i) :
    i + sub.length ≤ s.length ∧ sub <+: s.drop i := by
  induction s generalizing i with
  | nil =>
    by_cases hs : sub = []
    · simp [Index, hs] at h
      subst h
      simp [hs]
    · simp [Index, hs] at h
  | cons a s ih =>
    by_cases hp : HasPrefix (a :: s) sub = true
    · simp [Index, hp] at h
      subst h
      have hpre := (HasPrefix_iff _ _).1 hp
      exact ⟨by simpa using hpre.length_le, by simpa using hpre⟩
    · simp only [Index, hp, Bool.false_eq_true, if_false, Option.map_eq_some'] at h
      obtain ⟨j, hj, rfl⟩ := h
      obtain ⟨h1, h2⟩ := ih hj
      exact ⟨by simp; omega, by simpa using h2⟩

theorem Count_eq_zero {s sub : GoString} (hsub : sub ≠ []) (h : ¬ sub <:+: s) :
    Count s sub = 0 := by
  simp [Count, hsub, countAux, (Index_none_iff s sub).2 h]

/-! ## Deleting the line breaks -/

theorem Index_byte_cons (a c : Nat) (s : GoString) :
    Index (a :: s) [c] = if a = c then some 0 else (Index s [c]).map (· + 1) := by
  simp [Index, HasPrefix]

theorem Index_byte_none {s : GoString} {c : Nat} (h : Index s [c] = none) : c ∉ s := by
  intro hc
  apply (Index_none_iff s [c]).1 h
  obtain ⟨a, b, rfl⟩ := List.append_of_mem hc
  exact ⟨a, b, by simp⟩

/-- The first occurrence of a byte: no earlier byte is equal to it. -/
theorem Index_byte_some {s : GoString} {c i : Nat} (h : Index s [c] = some i) :
    c ∉ s.take i ∧ s.drop i = c :: s.drop (i + 1) := by
  induction s generalizing i with
  | nil => simp [Index] at h
  | cons a s ih =>
    rw [Index_byte_cons] at h
    by_cases hac : a = c
    · simp [hac] at h
      subst h
      simp [hac]
    · simp only [hac, if_false, Option.map_eq_some'] at h
      obtain ⟨j, hj, rfl⟩ := h
      obtain ⟨h1, h2⟩ := ih hj
      refine ⟨?_, by simpa using h2⟩
      simp only [List.take_succ_cons, List.mem_cons, not_or]
      exact ⟨fun hc => hac hc.symm, h1⟩

/-- `strings.Replace(s, "\n", "", -1)`, with fuel to spare, deletes every line break. -/
theorem replaceAux_newlines (fuel : Nat) (s : GoString) (h : s.length < fuel) :
    replaceAux [10] [] fuel s none = s.filter (fun b => b ≠ 10) := by
  induction fuel generalizing s with
  | zero => omega
  | succ fuel ih =>
    simp only [replaceAux, reduceCtorEq, if_false, Option.map_none']
    cases hi : Index s [10] with
    | none =>
      have := Index_byte_none hi
      simp only
      symm
      rw [List.filter_eq_self]
      intro b hb
      simp only [ne_eq, decide_eq_true_eq]
      rintro rfl
      exact this hb
    | some i =>
      obtain ⟨h1, h2⟩ := Index_byte_some hi
      have hlt : i < s.length := by
        by_contra hc
        rw [List.drop_of_length_le (by omega)] at h2
        cases h2
      simp only [List.append_nil, List.length_singleton]
      rw [ih _ (by simp; omega)]
      conv_rhs => rw [← List.take_append_drop i s, h2]
      rw [List.filter_append, List.filter_cons_of_neg (by simp)]
      congr 1
      symm
      rw [List.filter_eq_self]
      intro b hb
      simp only [ne_eq, decide_eq_true_eq]
      rintro rfl
      exact h1 hb

theorem Replace_newlines (s : GoString) :
    Replace s [10] [] (-1) = s.filter (fun b => b ≠ 10) := by
  simp only [Replace]
  exact replaceAux_newlines _ _ (by omega)

/-- A separator without a line break that occurs in `s` still occurs once the line breaks of
`s` are deleted. -/
theorem infix_filter_newlines {sep s : GoString} (hsep : 10 ∉ sep) (h : sep <:+: s) :
    sep <:+: s.filter (fun b => b ≠ 10) := by
  obtain ⟨a, b, rfl⟩ := h
  refine ⟨a.filter (fun b => b ≠ 10), b.filter (fun b => b ≠ 10), ?_⟩
  rw [List.filter_append, List.filter_append]
  congr 2
  symm
  rw [List.filter_eq_self]
  intro x hx
  simp only [ne_eq, decide_eq_true_eq]
  rintro rfl
  exact hsep hx

/-! ## C6: a line without the separator -/

/-- On a line in which the separator does not occur, the loop over the line breaks ends at
once: it leaves the line, or the line without its last byte, and `data` as it was. -/
theorem nlLoop_no_sep (sep : GoString)
    (recur : GoString → Except Fault (List (List GoString))) (fuel : Nat) (line : GoString)
    (data : List (List GoString)) (hno : ¬ sep <:+: line) :
    ∃ rest, nlLoop sep recur (fuel + 1) line (Index line [10]) data = .ok (rest, data) ∧
      rest <+: line := by
  cases hi : Index line [10] with
  | none => exact ⟨line, by simp [nlLoop], List.prefix_refl _⟩
  | some nl =>
    obtain ⟨-, h2⟩ := Index_byte_some hi
    have hlt : nl < line.length := by
      by_contra hc
      rw [List.drop_of_length_le (by omega)] at h2
      cases h2
    by_cases hlast : line.length ≤ nl + 1
    · refine ⟨line.take (line.length - 1), ?_, List.take_prefix _ _⟩
      have : ¬ line.length = 0 := by omega
      simp [nlLoop, hlast, dropLastByte, this]
    · have hpost : Index (line.drop (nl + 1)) sep = none := by
        rw [Index_none_iff]
        intro hc
        exact hno (hc.trans (List.drop_suffix _ _).isInfix)
      refine ⟨line, ?_, List.prefix_refl _⟩
      simp only [nlLoop, hlast, if_false, sliceTo, sliceFrom]
      rw [if_pos (by omega), if_pos (by omega)]
      simp [hpost]

/-- C6: for a non-empty separator without a line break, and a line in which the separator does
not occur once the escaped quotes and then all line breaks are removed, `splitKV` returns the
error "no value parsed" and no group. -/
theorem C6_no_separator_error (line sep : GoString) (hne : sep ≠ []) (hnl : 10 ∉ sep)
    (h : Contains (Replace (Replace line [92, 34] [] (-1)) [10] [] (-1)) sep = false) :
    splitKV line sep = .error .noValue := by
  have hno : ¬ sep <:+: (Replace line [92, 34] [] (-1)).filter (fun b => b ≠ 10) := by
    rw [Replace_newlines] at h
    intro hc
    rw [(Contains_iff _ _).2 hc] at h
    cases h
  have hno1 : ¬ sep <:+: Replace line [92, 34] [] (-1) :=
    fun hc => hno (infix_filter_newlines hnl hc)
  have hjoin : joinSep (Replace line [92, 34] [] (-1)) sep =
      .ok (Replace line [92, 34] [] (-1)) := by
    unfold joinSep
    split
    · rw [Replace_newlines, Count_eq_zero hne hno]
      simp [joinLoop]
    · rfl
  obtain ⟨rest, hrest, hpre⟩ := nlLoop_no_sep sep
    (fun next => splitKVFuel line.length next sep)
    (((Replace line [92, 34] [] (-1)).length + 1) * ((Replace line [92, 34] [] (-1)).length + 1)
      - 1)
    (Replace line [92, 34] [] (-1)) [] hno1
  have hfuel : ((Replace line [92, 34] [] (-1)).length + 1) *
      ((Replace line [92, 34] [] (-1)).length + 1) - 1 + 1 =
      ((Replace line [92, 34] [] (-1)).length + 1) *
      ((Replace line [92, 34] [] (-1)).length + 1) := by
    have : 0 < ((Replace line [92, 34] [] (-1)).length + 1) *
      ((Replace line [92, 34] [] (-1)).length + 1) := Nat.mul_pos (by omega) (by omega)
    omega
  rw [hfuel] at hrest
  have hscan : scanLine rest sep [] = .error .noValue := by
    have hc : Contains (Replace rest [10] [] (-1)) sep = false := by
      rw [Replace_newlines]
      cases hcon : Contains (rest.filter (fun b => b ≠ 10)) sep with
      | false => rfl
      | true =>
        exact absurd (((Contains_iff _ _).1 hcon).trans (hpre.filter _).isInfix) hno
    simp [scanLine, hc]
  simp [splitKV, splitKVFuel, hjoin, hrest, hscan]

/-- C6, witness: the line "abc" has no "=". -/
theorem C6_no_separator_error_witness :
    splitKV (go "abc") (go "=") = .error .noValue :=
  C6_no_separator_error (go "abc") (go "=") (by decide) (by decide) (by decide)

/-! ## The scan loop, byte by byte -/

theorem getElem?_lt {ln : GoString} {pos c : Nat} (h : ln[pos]? = some c) :
    pos < ln.length := by
  by_contra hc
  rw [List.getElem?_eq_none (by omega)] at h
  cases h

theorem take_drop_one {ln : GoString} {pos c : Nat} (h : ln[pos]? = some c) :
    (ln.take (pos + 1)).drop pos = [c] := by
  induction ln generalizing pos with
  | nil => simp at h
  | cons a l ih =>
    cases pos with
    | zero =>
      simp at h
      simp [h]
    | succ n =>
      simp at h
      simpa using ih h

theorem slice_one {ln : GoString} {pos c : Nat} (h : ln[pos]? = some c) :
    slice ln pos (pos + 1) = .ok [c] := by
  have := getElem?_lt h
  rw [slice, if_pos ⟨by omega, by omega⟩, take_drop_one h]

theorem spaceStep_plain {ln sep : GoString} {pos c : Nat} (h : ln[pos]? = some c)
    (hc : IsSpace c = false) : spaceStep ln sep pos = .ok .test := by
  simp [spaceStep, slice_one h, byteAt, hc]

theorem spaceStep_stop {ln sep : GoString} {pos c : Nat} (h : ln[pos]? = some c)
    (hc : IsSpace c = true) (hi : Index (ln.drop (pos + 1)) sep = none) :
    spaceStep ln sep pos = .ok .stop := by
  have := getElem?_lt h
  simp only [spaceStep, slice_one h, byteAt, ok_bind, List.get?_cons_zero, hc, if_true,
    sliceFrom]
  rw [if_pos (by omega)]
  simp [hi]

theorem spaceStep_ahead {ln sep : GoString} {pos c j : Nat} (h : ln[pos]? = some c)
    (hi : Index (ln.drop (pos + 1)) sep = some j) :
    spaceStep ln sep pos = .ok .skip ∨ spaceStep ln sep pos = .ok .test := by
  have hlt := getElem?_lt h
  have hj := (Index_some_spec hi).1
  simp only [List.length_drop] at hj
  cases hc : IsSpace c with
  | false => exact Or.inr (spaceStep_plain h hc)
  | true =>
    simp only [spaceStep, slice_one h, byteAt, ok_bind, List.get?_cons_zero, hc, if_true,
      sliceFrom]
    rw [if_pos (by omega)]
    simp only [ok_bind, hi, slice]
    rw [if_pos ⟨by omega, by omega⟩]
    simp only [ok_bind]
    split
    · exact Or.inl rfl
    · exact Or.inr rfl

theorem mem_drop_of_getElem? {ln : GoString} {n m c : Nat} (h : ln[n]? = some c)
    (hmn : m ≤ n) : c ∈ ln.drop m := by
  have h2 : (ln.drop m)[n - m]? = some c := by
    rw [List.getElem?_drop]
    rw [show m + (n - m) = n by omega]
    exact h
  exact List.getElem?_mem h2

theorem Index_byte_isSome {s : GoString} {c : Nat} (h : c ∈ s) : ∃ j, Index s [c] = some j := by
  cases hi : Index s [c] with
  | none => exact absurd h (Index_byte_none hi)
  | some j => exact ⟨j, rfl⟩

/-- A byte other than "=" is passed over, when it is no space or an "=" follows: only
`lastSpace` may change, to the position of the byte. -/
theorem scanLoop_byte {ln : GoString} {pos c : Nat} (fuel : Nat) (isKey : Bool)
    (vhead ls : Nat) (kv : List GoString) (h : ln[pos]? = some c) (hc : c ≠ 61)
    (hs : IsSpace c = false ∨ 61 ∈ ln.drop (pos + 1)) :
    ∃ ls1, (ls1 = ls ∨ ls1 = pos) ∧
      scanLoop ln [61] (fuel + 1) pos isKey vhead ls kv =
        scanLoop ln [61] fuel (pos + 1) isKey vhead ls1 kv := by
  have hlt := getElem?_lt h
  have hstep : spaceStep ln [61] pos = .ok .skip ∨ spaceStep ln [61] pos = .ok .test := by
    rcases hs with hs | hs
    · exact Or.inr (spaceStep_plain h hs)
    · obtain ⟨j, hj⟩ := Index_byte_isSome hs
      exact spaceStep_ahead h hj
  have hguard : pos + [61].length ≤ ln.length := by simp; omega
  rcases hstep with hstep | hstep
  · refine ⟨pos, Or.inr rfl, ?_⟩
    rw [scanLoop, if_pos hguard]
    simp [hstep]
  · refine ⟨ls, Or.inl rfl, ?_⟩
    rw [scanLoop, if_pos hguard]
    simp [hstep, slice_one h, hc]

/-- The separator that ends a key: the key is the trimmed text from `vhead`. -/
theorem scanLoop_sep_key {ln : GoString} {pos : Nat} (fuel : Nat) (vhead ls : Nat)
    (kv : List GoString) (h : ln[pos]? = some 61) (hv : vhead ≤ pos) :
    scanLoop ln [61] (fuel + 1) pos true vhead ls kv =
      scanLoop ln [61] fuel (pos + 1) false (pos + 1) ls
        (kv ++ [TrimSpace ((ln.take pos).drop vhead)]) := by
  have hlt := getElem?_lt h
  have hguard : pos + [61].length ≤ ln.length := by simp; omega
  have hsp : IsSpace 61 = false := by decide
  rw [scanLoop, if_pos hguard]
  simp only [spaceStep_plain h hsp, ok_bind, List.length_singleton, slice_one h, if_true]
  rw [slice, if_pos ⟨hv, by omega⟩]
  rfl

/-- Once no "=" is left, the scan ends and changes nothing. -/
theorem scanLoop_tail {ln : GoString} (fuel pos : Nat) (isKey : Bool) (vhead ls : Nat)
    (kv : List GoString) (hno : 61 ∉ ln.drop pos) (hfuel : ln.length < pos + fuel)
    (hpos : 0 < fuel) :
    scanLoop ln [61] fuel pos isKey vhead ls kv = .ok (vhead, kv) := by
  induction fuel generalizing pos ls with
  | zero => omega
  | succ fuel ih =>
    by_cases hguard : pos + [61].length ≤ ln.length
    · have hlt : pos < ln.length := by simp at hguard; omega
      have hget : ln[pos]? = some ln[pos] := List.getElem?_eq_getElem hlt
      have hdrop : ln.drop pos = ln[pos] :: ln.drop (pos + 1) := (List.getElem_cons_drop _ _ hlt).symm
      rw [hdrop] at hno
      simp only [List.mem_cons, not_or] at hno
      have hc : ln[pos] ≠ 61 := fun h => hno.1 h.symm
      rw [scanLoop, if_pos hguard]
      cases hsp : IsSpace ln[pos] with
      | true =>
        have hi : Index (ln.drop (pos + 1)) [61] = none := by
          rw [Index_none_iff]
          rintro ⟨a, b, hab⟩
          exact hno.2 (by rw [← hab]; simp)
        simp [spaceStep_stop hget hsp hi]
      | false =>
        simp only [spaceStep_plain hget hsp, ok_bind, List.length_singleton, slice_one hget]
        rw [if_neg (by simpa using hc)]
        exact ih (pos + 1) ls hno.2 (by omega) (by omega)
    · rw [scanLoop, if_neg hguard]
      rfl

/-- The scan of a key: from `pos` on there is no "=" before the one at `pos + k`. -/
theorem scanLoop_key {ln : GoString} (k fuel pos vhead ls : Nat) (kv : List GoString)
    (hkey : ∀ q, pos ≤ q → q < pos + k → ∃ c, ln[q]? = some c ∧ c ≠ 61)
    (hsep : ln[pos + k]? = some 61) (hv : vhead ≤ pos) :
    ∃ ls1, scanLoop ln [61] (fuel + k + 1) pos true vhead ls kv =
      scanLoop ln [61] fuel (pos + k + 1) false (pos + k + 1) ls1
        (kv ++ [TrimSpace ((ln.take (pos + k)).drop vhead)]) ∧
      (ls1 = ls ∨ ls1 < pos + k) := by
  induction k generalizing pos ls with
  | zero => exact ⟨ls, scanLoop_sep_key fuel vhead ls kv hsep hv, Or.inl rfl⟩
  | succ k ih =>
    obtain ⟨c, hc, hne⟩ := hkey pos (le_refl _) (by omega)
    obtain ⟨ls1, hls1, h1⟩ := scanLoop_byte (fuel + k + 1) true vhead ls kv hc hne
      (Or.inr (mem_drop_of_getElem? hsep (by omega)))
    obtain ⟨ls2, h2, hls2⟩ := ih (pos + 1) ls1
      (fun q hq1 hq2 => hkey q (by omega) (by omega))
      (by rw [show pos + 1 + k = pos + (k + 1) by omega]; exact hsep) (by omega)
    refine ⟨ls2, ?_, by omega⟩
    rw [show fuel + (k + 1) + 1 = fuel + k + 1 + 1 by omega, h1, h2]
    rw [show pos + 1 + k = pos + (k + 1) by omega]

/-! ## Lines of the shape `key=rest` -/

theorem Index_none_of_not_mem {s sub : GoString} {c : Nat} (hc : c ∈ sub) (hs : c ∉ s) :
    Index s sub = none := by
  rw [Index_none_iff]
  rintro ⟨a, b, hab⟩
  exact hs (by rw [← hab]; simp [hc])

/-- A line without a backslash has no escaped quote to remove. -/
theorem Replace_escaped_quotes {s : GoString} (h : 92 ∉ s) :
    Replace s [92, 34] [] (-1) = s := by
  simp [Replace, replaceAux, Index_none_of_not_mem (by simp : 92 ∈ [92, 34]) h]

theorem filter_newlines_of_not_mem {s : GoString} (h : 10 ∉ s) :
    s.filter (fun b => b ≠ 10) = s := by
  rw [List.filter_eq_self]
  intro b hb
  simp only [ne_eq, decide_eq_true_eq]
  rintro rfl
  exact h hb

theorem drop_key_sep (key rest : GoString) (c : Nat) :
    (key ++ c :: rest).drop (key.length + 1) = rest := by
  have h : key ++ c :: rest = (key ++ [c]) ++ rest := by simp
  rw [h, List.drop_left']
  simp

/-- The scan of the line `key=rest` when neither part holds an "=" or a line break: the group
is the trimmed key and, when `rest` is not empty, the trimmed rest. -/
theorem scanLine_key_rest (key rest : GoString) (data : List (List GoString))
    (hk : 61 ∉ key) (hr : 61 ∉ rest) (hk10 : 10 ∉ key) (hr10 : 10 ∉ rest) :
    scanLine (key ++ 61 :: rest) [61] data =
      .ok (data ++ [if rest = [] then [TrimSpace key] else [TrimSpace key, TrimSpace rest]]) := by
  have h10 : 10 ∉ key ++ 61 :: rest := by simp [hk10, hr10]
  have hcon : Contains (key ++ 61 :: rest) [61] = true := by
    rw [Contains_iff]
    exact ⟨key, rest, by simp⟩
  have hkey : ∀ q, 0 ≤ q → q < 0 + key.length →
      ∃ c, (key ++ 61 :: rest)[q]? = some c ∧ c ≠ 61 := by
    intro q _ hq
    have hq2 : q < key.length := by omega
    refine ⟨key[q], ?_, ?_⟩
    · rw [List.getElem?_append_left hq2, List.getElem?_eq_getElem hq2]
    · intro h
      exact hk (h ▸ List.getElem_mem hq2)
  have hsep : (key ++ 61 :: rest)[0 + key.length]? = some 61 := by
    rw [Nat.zero_add, List.getElem?_append_right (le_refl _)]
    simp
  obtain ⟨ls1, h1, -⟩ := scanLoop_key key.length (key.length + 2 * rest.length + 4) 0 0 0 []
    hkey hsep (le_refl _)
  have hfuel : 2 * (key ++ 61 :: rest).length + 3 =
      key.length + 2 * rest.length + 4 + key.length + 1 := by
    simp; omega
  have h2 : scanLoop (key ++ 61 :: rest) [61] (key.length + 2 * rest.length + 4)
      (0 + key.length + 1) false (0 + key.length + 1) ls1
      ([] ++ [TrimSpace (((key ++ 61 :: rest).take (0 + key.length)).drop 0)]) =
      .ok (0 + key.length + 1,
        [] ++ [TrimSpace (((key ++ 61 :: rest).take (0 + key.length)).drop 0)]) := by
    apply scanLoop_tail
    · rw [Nat.zero_add, drop_key_sep]
      exact hr
    · simp; omega
    · omega
  simp only [scanLine, Replace_newlines, filter_newlines_of_not_mem h10, hcon, Bool.not_true,
    Bool.false_eq_true, if_false, hfuel, h1, h2]
  simp only [Nat.zero_add, List.take_left', List.drop_zero, List.nil_append, ok_bind,
    pure_eq_ok, List.length_append, List.length_cons, sliceFrom]
  by_cases hrest : rest = []
  · subst hrest
    simp
  · have hpos : 0 < rest.length := List.length_pos.2 hrest
    rw [if_pos (by omega), if_pos (by omega)]
    simp [hrest, drop_key_sep]

/-- The function `splitKV` on the line `key=rest` when the line has no backslash and no line
break and there is no "=" in `key` or in `rest`. -/
theorem splitKV_key_rest (key rest : GoString)
    (hk : 61 ∉ key) (hr : 61 ∉ rest) (hk10 : 10 ∉ key) (hr10 : 10 ∉ rest)
    (hk92 : 92 ∉ key) (hr92 : 92 ∉ rest) :
    splitKV (key ++ 61 :: rest) [61] =
      .ok [if rest = [] then [TrimSpace key] else [TrimSpace key, TrimSpace rest]] := by
  have h92 : 92 ∉ key ++ 61 :: rest := by simp [hk92, hr92]
  have h10 : 10 ∉ key ++ 61 :: rest := by simp [hk10, hr10]
  have hnl : Index (key ++ 61 :: rest) [10] = none :=
    Index_none_of_not_mem (by simp : 10 ∈ [10]) h10
  obtain ⟨n, hn⟩ : ∃ n, ((key ++ 61 :: rest).length + 1) * ((key ++ 61 :: rest).length + 1) =
      n + 1 := ⟨_, (Nat.succ_pred_eq_of_pos (Nat.mul_pos (by omega) (by omega))).symm⟩
  simp only [splitKV, splitKVFuel, Replace_escaped_quotes h92, joinSep, List.length_singleton,
    gt_iff_lt, lt_self_iff_false, if_false, ok_bind, hnl, hn, nlLoop,
    scanLine_key_rest key rest [] hk hr hk10 hr10, List.nil_append]

/-! ## UTF-8 decoding and `TrimSpace` -/

theorem DecodeRune_ascii (a : Nat) (r : GoString) (h : a < 0x80) :
    DecodeRuneInString (a :: r) = (a, 1) := by
  simp [DecodeRuneInString, h]

theorem DecodeRune_cont (c : Nat) (r : GoString) (h : isCont c = true) :
    DecodeRuneInString (c :: r) = (RuneError, 1) := by
  simp only [isCont, Bool.and_eq_true, decide_eq_true_eq] at h
  have h1 : ¬ c < 0x80 := by omega
  have h2 : c < 0xC2 ∨ 0xF4 < c := by omega
  simp [DecodeRuneInString, h1, h2]

theorem DecodeRune_single (c : Nat) (h : 0x80 ≤ c) :
    DecodeRuneInString [c] = (RuneError, 1) := by
  have h1 : ¬ c < 0x80 := by omega
  by_cases h2 : c < 0xC2 ∨ 0xF4 < c
  · simp [DecodeRuneInString, h1, h2]
  · simp only [DecodeRuneInString, h1, h2, if_false, List.length_singleton]
    split_ifs <;> rfl

/-- The width of the first rune, and the continuation bytes a rune wider than one byte has. -/
theorem DecodeRune_width (s : GoString) (hs : s ≠ []) :
    (DecodeRuneInString s).2 = 1 ∨
    (∃ s0 s1 r, s = s0 :: s1 :: r ∧ isCont s1 = true ∧ (DecodeRuneInString s).2 = 2) ∨
    (∃ s0 s1 s2 r, s = s0 :: s1 :: s2 :: r ∧ isCont s1 = true ∧ isCont s2 = true ∧
      (DecodeRuneInString s).2 = 3) ∨
    (∃ s0 s1 s2 s3 r, s = s0 :: s1 :: s2 :: s3 :: r ∧ isCont s1 = true ∧ isCont s2 = true ∧
      isCont s3 = true ∧ (DecodeRuneInString s).2 = 4) := by
  rcases s with _ | ⟨s0, rest⟩
  · exact absurd rfl hs
  by_cases h0 : s0 < 0x80
  · left; simp [DecodeRuneInString, h0]
  by_cases h1 : s0 < 0xC2 ∨ 0xF4 < s0
  · left; simp [DecodeRuneInString, h0, h1]
  rcases rest with _ | ⟨s1, r1⟩
  · left; rw [DecodeRune_single s0 (by omega)]
  by_cases hacc : s1 < (if s0 = 0xE0 then 0xA0 else if s0 = 0xF0 then 0x90 else 0x80) ∨
      (if s0 = 0xED then 0x9F else if s0 = 0xF4 then 0x8F else 0xBF) < s1
  · left
    simp only [DecodeRuneInString, h0, h1, hacc, if_false, if_true]
    split_ifs <;> rfl
  have hc1 : isCont s1 = true := by
    simp only [isCont, Bool.and_eq_true, decide_eq_true_eq]
    split_ifs at hacc <;> omega
  by_cases hsz2 : s0 < 0xE0
  · right; left
    refine ⟨s0, s1, r1, rfl, hc1, ?_⟩
    simp only [DecodeRuneInString, h0, h1, hacc, hsz2, if_false, if_true, List.length_cons]
    rw [if_neg (by omega), if_pos (le_refl _)]
  rcases r1 with _ | ⟨s2, r2⟩
  · left
    simp only [DecodeRuneInString, h0, h1, hacc, hsz2, if_false]
    split_ifs <;> first | rfl | (simp at *)
  by_cases hc2 : isCont s2 = true
  swap
  · left
    simp only [DecodeRuneInString, h0, h1, hacc, hsz2, hc2, if_false]
    split_ifs <;> first | rfl | (simp at *)
  by_cases hsz3 : s0 < 0xF0
  · right; right; left
    refine ⟨s0, s1, s2, r2, rfl, hc1, hc2, ?_⟩
    simp only [DecodeRuneInString, h0, h1, hacc, hsz2, hsz3, hc2, if_false, if_true,
      List.length_cons, Bool.not_true, Bool.false_eq_true]
    rw [if_neg (by omega), if_neg (by omega), if_pos (le_refl _)]
  rcases r2 with _ | ⟨s3, r3⟩
  · left
    simp [DecodeRuneInString, h0, h1, hacc, hsz2, hsz3, hc2]
  by_cases hc3 : isCont s3 = true
  swap
  · left
    simp [DecodeRuneInString, h0, h1, hacc, hsz2, hsz3, hc2, hc3]
  right; right; right
  refine ⟨s0, s1, s2, s3, r3, rfl, hc1, hc2, hc3, ?_⟩
  simp only [DecodeRuneInString, h0, h1, hacc, hsz2, hsz3, hc2, hc3, if_false, if_true,
    List.length_cons, Bool.not_true, Bool.false_eq_true]
  rw [if_neg (by omega), if_neg (by omega), if_neg (by omega)]

theorem DecodeRune_pos (s : GoString) (hs : s ≠ []) : 1 ≤ (DecodeRuneInString s).2 := by
  rcases DecodeRune_width s hs with h | ⟨_, _, _, _, _, h⟩ | ⟨_, _, _, _, _, _, _, h⟩ |
    ⟨_, _, _, _, _, _, _, _, _, h⟩ <;> omega

/-- Inside a rune wider than one byte, every byte after the first is a continuation byte. -/
theorem DecodeRune_inner (s : GoString) (hs : s ≠ []) (q : Nat) (h1 : 1 ≤ q)
    (h2 : q < (DecodeRuneInString s).2) :
    ∃ c r, s.drop q = c :: r ∧ isCont c = true := by
  rcases DecodeRune_width s hs with h | ⟨s0, s1, r, rfl, c1, h⟩ |
    ⟨s0, s1, s2, r, rfl, c1, c2, h⟩ | ⟨s0, s1, s2, s3, r, rfl, c1, c2, c3, h⟩
  · omega
  · have : q = 1 := by omega
    subst this
    exact ⟨s1, r, rfl, c1⟩
  · have : q = 1 ∨ q = 2 := by omega
    rcases this with rfl | rfl
    · exact ⟨s1, _, rfl, c1⟩
    · exact ⟨s2, _, rfl, c2⟩
  · have : q = 1 ∨ q = 2 ∨ q = 3 := by omega
    rcases this with rfl | rfl | rfl
    · exact ⟨s1, _, rfl, c1⟩
    · exact ⟨s2, _, rfl, c2⟩
    · exact ⟨s3, _, rfl, c3⟩

theorem IsSpace_RuneError : IsSpace RuneError = false := by decide

/-- When the scan of `indexFunc` finds no space in `s`, the rune decoded at any byte offset of
`s` is no space: the scan reaches every byte that is not a continuation byte, and a
continuation byte decodes to `RuneError`. -/
theorem indexFuncAux_none (fuel : Nat) (s : GoString) (i : Nat) (hfuel : s.length ≤ fuel)
    (h : indexFuncAux IsSpace true fuel s i = none) (q : Nat) (hq : q < s.length) :
    IsSpace (DecodeRuneInString (s.drop q)).1 = false := by
  induction fuel generalizing s i q with
  | zero => omega
  | succ fuel ih =>
    rcases s with _ | ⟨a, r⟩
    · simp at hq
    · have hs : a :: r ≠ [] := by simp
      simp only [indexFuncAux] at h
      split_ifs at h with hsp
      have hw := DecodeRune_pos (a :: r) hs
      by_cases hq0 : q = 0
      · subst hq0
        simpa using hsp
      · by_cases hqw : q < (DecodeRuneInString (a :: r)).2
        · obtain ⟨c, rest, hc, hcont⟩ := DecodeRune_inner (a :: r) hs q (by omega) hqw
          rw [hc, DecodeRune_cont c rest hcont]
          exact IsSpace_RuneError
        · have := ih ((a :: r).drop (DecodeRuneInString (a :: r)).2) _
            (by simp at hfuel ⊢; omega) h (q - (DecodeRuneInString (a :: r)).2)
            (by simp at hq ⊢; omega)
          rw [List.drop_drop] at this
          rw [show (DecodeRuneInString (a :: r)).2 + (q - (DecodeRuneInString (a :: r)).2) = q
            by omega] at this
          exact this

theorem NoSpace_decode {t : GoString} (h : NoSpace t) (q : Nat) (hq : q < t.length) :
    IsSpace (DecodeRuneInString (t.drop q)).1 = false :=
  indexFuncAux_none t.length t 0 (le_refl _) h q hq

/-- A text without white space has no byte below `0x80` that is a space. -/
theorem NoSpace_byte {t : GoString} (h : NoSpace t) {b : Nat} (hb : b ∈ t) (hlt : b < 0x80) :
    IsSpace b = false := by
  obtain ⟨q, hq, rfl⟩ := List.getElem_of_mem hb
  have := NoSpace_decode h q hq
  rw [← List.getElem_cons_drop _ _ hq, DecodeRune_ascii _ _ hlt] at this
  exact this

theorem NoSpace_newline {t : GoString} (h : NoSpace t) : 10 ∉ t := by
  intro hc
  have := NoSpace_byte h hc (by norm_num)
  simp [IsSpace] at this

/-- `TrimLeftFunc` keeps a text whose first rune is no space. -/
theorem TrimLeft_keep (s : GoString) (h : IsSpace (DecodeRuneInString s).1 = false) :
    TrimLeftFunc s IsSpace = s := by
  rcases s with _ | ⟨a, r⟩
  · rfl
  · simp [TrimLeftFunc, indexFunc, indexFuncAux, h]

theorem backToStart_le (s : GoString) (lim m : Nat) (h : lim ≤ m + 1) :
    backToStart s lim m ≤ m := by
  induction m with
  | zero => simp [backToStart]
  | succ k ih =>
    simp only [backToStart]
    split_ifs with h1 h2
    · omega
    · omega
    · have := ih (by omega)
      omega

theorem drop_eq_getD_cons (s : GoString) (i : Nat) (h : i < s.length) :
    s.drop i = s.getD i 0 :: s.drop (i + 1) := by
  rw [← List.getElem_cons_drop _ _ h]
  congr 1
  simp [List.getD, List.getElem?_eq_getElem h]

theorem getD_mem (s : GoString) (i : Nat) (h : i < s.length) : s.getD i 0 ∈ s := by
  apply List.mem_of_mem_drop (n := i)
  rw [drop_eq_getD_cons s i h]
  exact List.mem_cons_self _ _

/-- What `DecodeLastRuneInString` returns for a non-empty text: the last byte, when it is
below `0x80`; else `RuneError` of width one, or the rune decoded at a start from which it
reaches the end of the text. -/
theorem DecodeLastRune_cases (s : GoString) (hs : s ≠ []) :
    (s.getD (s.length - 1) 0 < RuneSelf ∧
      DecodeLastRuneInString s = (s.getD (s.length - 1) 0, 1)) ∨
    (RuneSelf ≤ s.getD (s.length - 1) 0 ∧ DecodeLastRuneInString s = (RuneError, 1)) ∨
    (RuneSelf ≤ s.getD (s.length - 1) 0 ∧ ∃ start, start < s.length ∧
      DecodeLastRuneInString s = DecodeRuneInString (s.drop start) ∧
      start + (DecodeRuneInString (s.drop start)).2 = s.length) := by
  have hlen : ¬ s.length = 0 := by
    intro h
    exact hs (List.length_eq_zero.1 h)
  unfold DecodeLastRuneInString
  simp only [hlen, if_false]
  by_cases hr : s.getD (s.length - 1) 0 < RuneSelf
  · left
    exact ⟨hr, by rw [if_pos hr]⟩
  · right
    rw [if_neg hr]
    by_cases hm : backToStart s (s.length - 4) (s.length - 1) +
        (DecodeRuneInString (s.drop (backToStart s (s.length - 4) (s.length - 1)))).2 = s.length
    · right
      refine ⟨by omega, backToStart s (s.length - 4) (s.length - 1), ?_, ?_, hm⟩
      · have := backToStart_le s (s.length - 4) (s.length - 1) (by omega)
        omega
      · rw [if_neg (by simpa using hm)]
    · left
      exact ⟨by omega, by rw [if_pos (by simpa using hm)]⟩

/-- `TrimRightFunc` keeps a text whose last rune is no space. -/
theorem TrimRight_keep (s : GoString) (h : IsSpace (DecodeLastRuneInString s).1 = false) :
    TrimRightFunc s IsSpace = s := by
  by_cases hs : s = []
  · subst hs
    rfl
  have hlen : 0 < s.length := List.length_pos.2 hs
  have hidx : lastIndexFunc s IsSpace false =
      some (s.length - (DecodeLastRuneInString s).2) := by
    simp [lastIndexFunc, lastIndexFuncAux, hlen, h]
  simp only [TrimRightFunc, hidx]
  rcases DecodeLastRune_cases s hs with ⟨hr, hd⟩ | ⟨hr, hd⟩ | ⟨-, start, hlt, hd, hsum⟩
  · rw [hd]
    simp only
    rw [if_neg (by omega), show s.length - 1 + 1 = s.length by omega, List.take_length]
  · rw [hd]
    simp only
    rw [if_pos hr, drop_eq_getD_cons s (s.length - 1) (by omega),
      List.drop_of_length_le (by omega), DecodeRune_single _ hr]
    simp only
    rw [show s.length - 1 + 1 = s.length by omega, List.take_length]
  · rw [hd]
    have hi : s.length - (DecodeRuneInString (s.drop start)).2 = start := by omega
    rw [hi]
    split_ifs with hge
    · rw [hsum, List.take_length]
    · have hd1 : (DecodeRuneInString (s.drop start)).2 = 1 := by
        rw [drop_eq_getD_cons s start hlt,
          DecodeRune_ascii _ _ (by simp only [RuneSelf] at hge; omega)]
      rw [show start + 1 = s.length by omega, List.take_length]

/-- `TrimSpace` keeps a text without white space. -/
theorem TrimSpace_NoSpace {t : GoString} (h : NoSpace t) : TrimSpace t = t := by
  by_cases ht : t = []
  · subst ht
    rfl
  have hlen : 0 < t.length := List.length_pos.2 ht
  have hleft : TrimLeftFunc t IsSpace = t := by
    apply TrimLeft_keep
    simpa using NoSpace_decode h 0 hlen
  have hright : TrimRightFunc t IsSpace = t := by
    apply TrimRight_keep
    rcases DecodeLastRune_cases t ht with ⟨hr, hd⟩ | ⟨hr, hd⟩ | ⟨-, start, hlt, hd, hsum⟩
    · rw [hd]
      exact NoSpace_byte h (getD_mem t _ (by omega)) hr
    · rw [hd]
      exact IsSpace_RuneError
    · rw [hd]
      exact NoSpace_decode h start hlt
  rw [TrimSpace, TrimFunc, hleft, hright]

/-- `TrimSpace` keeps a text that starts and ends with a byte below `0x80` that is no space. -/
theorem TrimSpace_ascii_ends (a b : Nat) (mid : GoString) (ha : a < 0x80) (hb : b < 0x80)
    (hsa : IsSpace a = false) (hsb : IsSpace b = false) :
    TrimSpace (a :: mid ++ [b]) = a :: mid ++ [b] := by
  have hleft : TrimLeftFunc (a :: mid ++ [b]) IsSpace = a :: mid ++ [b] := by
    apply TrimLeft_keep
    rw [List.cons_append, DecodeRune_ascii _ _ ha]
    exact hsa
  have hlast : (a :: mid ++ [b]).getD ((a :: mid ++ [b]).length - 1) 0 = b := by
    simp [List.getD]
  have hright : TrimRightFunc (a :: mid ++ [b]) IsSpace = a :: mid ++ [b] := by
    apply TrimRight_keep
    rcases DecodeLastRune_cases (a :: mid ++ [b]) (by simp) with ⟨hr, hd⟩ | ⟨hr, hd⟩ | ⟨hr, -⟩
    · rw [hd, hlast]
      exact hsb
    · rw [hd]
      exact IsSpace_RuneError
    · rw [hlast] at hr
      simp only [RuneSelf] at hr
      omega
  rw [TrimSpace, TrimFunc, hleft, hright]

/-! ## C4, C5: a quoted value -/

theorem Index_byte_append {v : GoString} {c : Nat} (r : GoString) (h : c ∉ v) :
    Index (v ++ c :: r) [c] = some v.length := by
  induction v with
  | nil => simp [Index_byte_cons]
  | cons a v ih =>
    simp only [List.mem_cons, not_or] at h
    rw [List.cons_append, Index_byte_cons, if_neg (fun hc => h.1 hc.symm), ih h.2]
    rfl

theorem countAux_some {sub s : GoString} {i : Nat} (fuel : Nat) (h : Index s sub = some i) :
    countAux sub (fuel + 1) s = 1 + countAux sub fuel (s.drop (i + sub.length)) := by
  simp only [countAux, h]

theorem countAux_none {sub s : GoString} (fuel : Nat) (h : Index s sub = none) :
    countAux sub (fuel + 1) s = 0 := by
  simp only [countAux, h]

theorem Count_quoted {v : GoString} (h : 34 ∉ v) : Count (34 :: v ++ [34]) [34] = 2 := by
  have h1 : Index (34 :: v ++ [34]) [34] = some 0 := by
    rw [List.cons_append, Index_byte_cons, if_pos rfl]
  have h2 : Index (v ++ [34]) [34] = some v.length := Index_byte_append [] h
  have h3 : Index ([] : GoString) [34] = none := by decide
  have hlen : (34 :: v ++ [34]).length + 1 = v.length + 1 + 1 + 1 := by simp
  have hd1 : (34 :: v ++ [34]).drop (0 + [34].length) = v ++ [34] := by simp
  have hd2 : (v ++ [34]).drop (v.length + [34].length) = [] := by simp
  rw [Count, if_neg (by simp), hlen, countAux_some _ h1, hd1, countAux_some _ h2, hd2,
    countAux_none _ h3]

theorem HasPrefix_false_of_not_mem {s : GoString} {c : Nat} (h : c ∉ s) :
    HasPrefix s [c] = false := by
  cases hp : HasPrefix s [c] with
  | false => rfl
  | true =>
    have := (HasPrefix_iff s [c]).1 hp
    exact absurd (this.subset (List.mem_singleton_self c)) h

/-- The quotes around a quoted value are removed; a key without a quote stays as it is. -/
theorem stripQuotes_quoted {key v : GoString} (hk : 34 ∉ key) (hv : 34 ∉ v) :
    stripQuotes key (34 :: v ++ [34]) = .ok (key, v) := by
  have hkn : Count key [34] = 0 := by
    apply Count_eq_zero (by simp)
    rintro ⟨a, b, hab⟩
    exact hk (by rw [← hab]; simp)
  have hpre : HasPrefix (34 :: v ++ [34]) [34] = true := by
    rw [HasPrefix_iff]
    exact ⟨v ++ [34], by simp⟩
  have hsuf : HasSuffix (34 :: v ++ [34]) [34] = true := by
    simp [HasSuffix]
  have hslice : slice (34 :: v ++ [34]) 1 ((34 :: v ++ [34]).length - 1) = .ok v := by
    rw [slice, if_pos (by simp)]
    simp
  have hlen : (34 :: v ++ [34]).length > 1 := by simp
  simp only [stripQuotes, hkn, Count_quoted hv, stripAcross, Nat.zero_mod, zero_ne_one,
    false_and, if_false, pure_eq_ok, ok_bind, stripAround, HasPrefix_false_of_not_mem hk,
    Bool.false_eq_true, ite_self, Nat.mod_self, hlen, hpre, hsuf, and_self, if_true, hslice]

/-- The groups of the line `key="v"`: the key, and the value with its quotes. -/
theorem splitKV_quoted {key v : GoString} (hks : NoSpace key) (hk61 : 61 ∉ key)
    (hk92 : 92 ∉ key) (hv61 : 61 ∉ v) (hv92 : 92 ∉ v) (hv10 : 10 ∉ v) :
    splitKV (key ++ 61 :: (34 :: v ++ [34])) [61] = .ok [[key, 34 :: v ++ [34]]] := by
  rw [splitKV_key_rest key (34 :: v ++ [34]) hk61 (by simp [hv61]) (NoSpace_newline hks)
    (by simp [hv10]) hk92 (by simp [hv92])]
  rw [if_neg (by simp), TrimSpace_NoSpace hks,
    TrimSpace_ascii_ends 34 34 v (by norm_num) (by norm_num) (by decide) (by decide)]

theorem go_eq_quote : go "=\"" = [61, 34] := by decide

theorem go_quote : go "\"" = [34] := by decide

theorem go_eq : go "=" = [61] := by decide

theorem go_eq_quote_quote : go "=\"\"" = [61, 34, 34] := by decide

/-- C4: for a non-empty key without white space, "=", double quote or backslash, and a
non-empty text `v` without "=", double quote, backslash or line break (spaces allowed
anywhere), parsing the line `key="v"` with separator "=" and string preservation on yields
exactly one record with the single field `key -> v`: the quotes are removed, the spaces of `v`
are kept. -/
theorem C4_quoted_value_round_trip {F : Type} (ParseFloat : GoString → Option F) (p : Parser)
    (key v : GoString) (hsep : p.splitter = go "=") (hkeep : p.keepString = true)
    (hkne : key ≠ []) (hks : NoSpace key) (hk61 : 61 ∉ key) (hk34 : 34 ∉ key)
    (hk92 : 92 ∉ key) (hvne : v ≠ []) (hv61 : 61 ∉ v) (hv34 : 34 ∉ v) (hv92 : 92 ∉ v)
    (hv10 : 10 ∉ v) :
    parse ParseFloat p (key ++ go "=\"" ++ v ++ go "\"") = .ok [[(key, Value.str v)]] := by
  have hline : key ++ go "=\"" ++ v ++ go "\"" = key ++ 61 :: (34 :: v ++ [34]) := by
    rw [go_eq_quote, go_quote]
    simp
  have hs := splitKV_quoted hks hk61 hk92 hv61 hv92 hv10
  have hq : stripQuotes key (34 :: (v ++ [34])) = .ok (key, v) := stripQuotes_quoted hk34 hv34
  rw [hline, parse, hsep, go_eq, hs]
  simp [decodeGroups, decodeGroup, hq, hkne, hvne, coerce, hkeep, Data.set, swapLoop]

/-- C4, witness: the line `key="value with spaces"` gives the record
`{key: "value with spaces"}`. -/
theorem C4_quoted_value_round_trip_witness :
    parse decimalFloat stringParser (go "key=\"value with spaces\"") =
      .ok [[(go "key", Value.str (go "value with spaces"))]] :=
  C4_quoted_value_round_trip decimalFloat stringParser (go "key") (go "value with spaces")
    rfl rfl (by decide) (by decide) (by decide) (by decide) (by decide) (by decide) (by decide)
    (by decide) (by decide) (by decide)

/-- Decoding a group goes pair by pair: after an even number of tokens the rest is decoded
into the record built so far. -/
theorem decodeGroup_append {F : Type} (ParseFloat : GoString → Option F) (keepString : Bool)
    (n : Nat) (before rest : List GoString) (field : Data F) (hn : before.length = 2 * n) :
    decodeGroup ParseFloat keepString (before ++ rest) field =
      decodeGroup ParseFloat keepString before field >>=
        decodeGroup ParseFloat keepString rest := by
  induction n generalizing before field with
  | zero =>
    have : before = [] := List.length_eq_zero.1 (by simpa using hn)
    subst this
    simp [decodeGroup]
  | succ n ih =>
    match before, hn with
    | k :: v :: tl, hn =>
      simp only [List.cons_append, decodeGroup]
      cases stripQuotes k v with
      | error e => rfl
      | ok kv =>
        simp only [ok_bind]
        by_cases he : kv.1.length = 0 ∨ kv.2.length = 0
        · simp only [if_pos he, throw_eq_error, error_bind]
        · simp only [if_neg he, pure_eq_ok, ok_bind, List.append_eq]
          exact ih tl _ (by simp at hn; omega)

/-- The groups that decode are passed; the loop goes on with the rest. -/
theorem decodeGroups_pass {F : Type} (ParseFloat : GoString → Option F) (keepString : Bool)
    (pre rest : List (List GoString)) (datas : List (Data F))
    (hpre : ∀ h ∈ pre, h.length % 2 = 0 ∧
      ∃ out, decodeGroup ParseFloat keepString h [] = .ok out) :
    ∃ datas1, decodeGroups ParseFloat keepString (pre ++ rest) datas =
      decodeGroups ParseFloat keepString rest datas1 := by
  induction pre generalizing datas with
  | nil => exact ⟨datas, rfl⟩
  | cons h pre ih =>
    obtain ⟨heven, out, hout⟩ := hpre h (List.mem_cons_self _ _)
    have hodd : ¬ h.length % 2 = 1 := by omega
    have hpre2 : ∀ x ∈ pre, x.length % 2 = 0 ∧
        ∃ out, decodeGroup ParseFloat keepString x [] = .ok out :=
      fun x hx => hpre x (List.mem_cons_of_mem _ hx)
    simp only [List.cons_append, decodeGroups, hodd, if_false, hout, ok_bind]
    split
    · exact ih _ hpre2
    · exact ih _ hpre2

/-- C5: for a key without white space, "=", double quote or backslash (empty or not), parsing
the line `k=""` with separator "=" fails with the error "no value parsed" and returns no record.
In general `parse` fails with that error at the first pair whose key or value is empty after
the quotes are removed: when every group before and every pair before it in its group
decodes. -/
theorem C5_empty_after_strip {F : Type} (ParseFloat : GoString → Option F) (p : Parser)
    (key : GoString) (hsep : p.splitter = go "=") (hks : NoSpace key)
    (hk61 : 61 ∉ key) (hk34 : 34 ∉ key) (hk92 : 92 ∉ key) :
    parse ParseFloat p (key ++ go "=\"\"") = .error .noValue ∧
    ∀ (q : Parser) (line : GoString) (pre post : List (List GoString))
      (before after : List GoString) (k v : GoString) (kv : GoString × GoString),
      splitKV line q.splitter = .ok (pre ++ (before ++ k :: v :: after) :: post) →
      (∀ h ∈ pre, h.length % 2 = 0 ∧
        ∃ out, decodeGroup ParseFloat q.keepString h [] = .ok out) →
      before.length % 2 = 0 → after.length % 2 = 0 →
      (∃ out, decodeGroup ParseFloat q.keepString before [] = .ok out) →
      stripQuotes k v = .ok kv → (kv.1 = [] ∨ kv.2 = []) →
      parse ParseFloat q line = .error .noValue := by
  constructor
  · have hline : key ++ go "=\"\"" = key ++ 61 :: (34 :: [] ++ [34]) := by
      rw [go_eq_quote_quote]
      simp
    have hs := splitKV_quoted (v := []) hks hk61 hk92 (by simp) (by simp) (by simp)
    have hq : stripQuotes key [34, 34] = .ok (key, []) :=
      stripQuotes_quoted (v := []) hk34 (by simp)
    rw [hline, parse, hsep, go_eq, hs]
    simp [decodeGroups, decodeGroup, hq]
  · intro q line pre post before after k v kv hs hpre hbefore hafter hdec hstrip hempty
    obtain ⟨out, hout⟩ := hdec
    obtain ⟨datas1, hpass⟩ := decodeGroups_pass ParseFloat q.keepString pre
      ((before ++ k :: v :: after) :: post) [] hpre
    have hlen : ¬ (before ++ k :: v :: after).length % 2 = 1 := by
      simp only [List.length_append, List.length_cons]
      omega
    have he : kv.1.length = 0 ∨ kv.2.length = 0 := by
      rcases hempty with h | h
      · exact Or.inl (by rw [h]; rfl)
      · exact Or.inr (by rw [h]; rfl)
    have hgroup : decodeGroup ParseFloat q.keepString (before ++ k :: v :: after) [] =
        .error .noValue := by
      rw [decodeGroup_append ParseFloat q.keepString (before.length / 2) before _ []
        (by omega), hout]
      simp only [ok_bind, decodeGroup, hstrip]
      rw [if_pos he]
      rfl
    rw [parse, hs]
    simp only [ok_bind, hpass, decodeGroups, hlen, if_false, hgroup, error_bind]

/-- C5, witness: the line `k=""` fails with "no value parsed". -/
theorem C5_empty_after_strip_witness :
    parse decimalFloat coercingParser (go "k=\"\"") = .error .noValue :=
  (C5_empty_after_strip decimalFloat coercingParser (go "k") rfl (by decide) (by decide)
    (by decide) (by decide)).1

/-! ## The scan of values -/

/-- A byte that is neither a space nor "=" is passed over and changes nothing. -/
theorem scanLoop_plain {ln : GoString} {pos c : Nat} (fuel : Nat) (isKey : Bool)
    (vhead ls : Nat) (kv : List GoString) (h : ln[pos]? = some c) (hc : c ≠ 61)
    (hs : IsSpace c = false) :
    scanLoop ln [61] (fuel + 1) pos isKey vhead ls kv =
      scanLoop ln [61] fuel (pos + 1) isKey vhead ls kv := by
  have hlt := getElem?_lt h
  have hguard : pos + [61].length ≤ ln.length := by simp; omega
  rw [scanLoop, if_pos hguard]
  simp [spaceStep_plain h hs, slice_one h, hc]

/-- A run of `m` bytes that are neither spaces nor "=" is passed over. -/
theorem scanLoop_run {ln : GoString} (m fuel pos : Nat) (isKey : Bool) (vhead ls : Nat)
    (kv : List GoString)
    (hrun : ∀ q, pos ≤ q → q < pos + m → ∃ c, ln[q]? = some c ∧ c ≠ 61 ∧ IsSpace c = false) :
    scanLoop ln [61] (fuel + m) pos isKey vhead ls kv =
      scanLoop ln [61] fuel (pos + m) isKey vhead ls kv := by
  induction m generalizing pos with
  | zero => rfl
  | succ m ih =>
    obtain ⟨c, hc, hne, hsp⟩ := hrun pos (le_refl _) (by omega)
    rw [show fuel + (m + 1) = fuel + m + 1 by omega, scanLoop_plain _ _ _ _ _ hc hne hsp,
      ih (pos + 1) (fun q h1 h2 => hrun q (by omega) (by omega))]
    rw [show pos + 1 + m = pos + (m + 1) by omega]

/-- An "=" inside a value, with no space recorded since the value began, is skipped. -/
theorem scanLoop_sep_inside {ln : GoString} {pos : Nat} (fuel : Nat) (vhead ls : Nat)
    (kv : List GoString) (h : ln[pos]? = some 61) (hls : ls ≤ vhead) :
    scanLoop ln [61] (fuel + 1) pos false vhead ls kv =
      scanLoop ln [61] fuel (pos + 1) false vhead ls kv := by
  have hlt := getElem?_lt h
  have hguard : pos + [61].length ≤ ln.length := by simp; omega
  have hsp : IsSpace 61 = false := by decide
  rw [scanLoop, if_pos hguard]
  simp [spaceStep_plain h hsp, slice_one h, hls]

/-- A value without a space byte: every "=" in it is skipped, and the scan ends without a new
token. -/
theorem scanLoop_value_end {ln : GoString} (fuel pos vhead ls : Nat) (kv : List GoString)
    (hval : ∀ q, pos ≤ q → q < ln.length → ∃ c, ln[q]? = some c ∧ IsSpace c = false)
    (hls : ls ≤ vhead) (hfuel : ln.length < pos + fuel) (hpos : 0 < fuel) :
    scanLoop ln [61] fuel pos false vhead ls kv = .ok (vhead, kv) := by
  induction fuel generalizing pos with
  | zero => omega
  | succ fuel ih =>
    by_cases hguard : pos + [61].length ≤ ln.length
    · have hlt : pos < ln.length := by simp at hguard; omega
      obtain ⟨c, hc, hsp⟩ := hval pos (le_refl _) hlt
      have hnext := ih (pos + 1) (fun q h1 h2 => hval q (by omega) h2) (by omega) (by omega)
      by_cases h61 : c = 61
      · subst h61
        rw [scanLoop_sep_inside fuel vhead ls kv hc hls, hnext]
      · rw [scanLoop_plain fuel false vhead ls kv hc h61 hsp, hnext]
    · rw [scanLoop, if_neg hguard]
      rfl

/-! ## Lines without a backslash or a line break -/

/-- On a line without a backslash and without a line break, `splitKV` with the separator "="
is the scan of the line. -/
theorem splitKV_single_line (ln : GoString) (h92 : 92 ∉ ln) (h10 : 10 ∉ ln) :
    splitKV ln [61] = scanLine ln [61] [] := by
  have hnl : Index ln [10] = none := Index_none_of_not_mem (by simp : 10 ∈ [10]) h10
  obtain ⟨n, hn⟩ : ∃ n, (ln.length + 1) * (ln.length + 1) = n + 1 :=
    ⟨_, (Nat.succ_pred_eq_of_pos (Nat.mul_pos (by omega) (by omega))).symm⟩
  simp only [splitKV, splitKVFuel, Replace_escaped_quotes h92, joinSep, List.length_singleton,
    gt_iff_lt, lt_self_iff_false, if_false, ok_bind, hnl, hn, nlLoop]

/-- The scan of a line `key=rest` without a line break, given what the scan of `rest` does
from the state the key leaves: the open token is flushed from the final `vhead`. -/
theorem scanLine_after_key (key rest : GoString) (data : List (List GoString))
    (vh : Nat) (tokens : List GoString) (hk : 61 ∉ key) (hk10 : 10 ∉ key) (hr10 : 10 ∉ rest)
    (hscan : ∀ ls fuel, ls ≤ key.length → rest.length + 1 ≤ fuel →
      scanLoop (key ++ 61 :: rest) [61] fuel (key.length + 1) false (key.length + 1) ls
        [TrimSpace key] = .ok (vh, tokens)) :
    scanLine (key ++ 61 :: rest) [61] data =
      .ok (data ++ [if vh < (key ++ 61 :: rest).length then
        tokens ++ [TrimSpace ((key ++ 61 :: rest).drop vh)] else tokens]) := by
  have h10 : 10 ∉ key ++ 61 :: rest := by simp [hk10, hr10]
  have hcon : Contains (key ++ 61 :: rest) [61] = true := by
    rw [Contains_iff]
    exact ⟨key, rest, by simp⟩
  have hkey : ∀ q, 0 ≤ q → q < 0 + key.length →
      ∃ c, (key ++ 61 :: rest)[q]? = some c ∧ c ≠ 61 := by
    intro q _ hq
    have hq2 : q < key.length := by omega
    refine ⟨key[q], ?_, ?_⟩
    · rw [List.getElem?_append_left hq2, List.getElem?_eq_getElem hq2]
    · intro h
      exact hk (h ▸ List.getElem_mem hq2)
  have hsep : (key ++ 61 :: rest)[0 + key.length]? = some 61 := by
    rw [Nat.zero_add, List.getElem?_append_right (le_refl _)]
    simp
  obtain ⟨ls1, h1, hls1⟩ := scanLoop_key key.length (key.length + 2 * rest.length + 4) 0 0 0 []
    hkey hsep (le_refl _)
  have hfuel : 2 * (key ++ 61 :: rest).length + 3 =
      key.length + 2 * rest.length + 4 + key.length + 1 := by
    simp; omega
  have h2 := hscan ls1 (key.length + 2 * rest.length + 4) (by omega) (by omega)
  simp only [Nat.zero_add, List.take_left', List.drop_zero, List.nil_append] at h1
  simp only [scanLine, Replace_newlines, filter_newlines_of_not_mem h10, hcon, Bool.not_true,
    Bool.false_eq_true, if_false, hfuel, h1, h2, ok_bind, pure_eq_ok, sliceFrom]
  by_cases hv : vh < (key ++ 61 :: rest).length
  · rw [if_pos hv, if_pos hv, if_pos (by omega)]
    rfl
  · rw [if_neg hv, if_neg hv]

/-- On the safe tokens, C3 holds: for a key without white space, "=" or backslash and a
non-empty value without white space or backslash, none of whose bytes is a space when taken
for a rune, `splitKV` returns the one group `[key, value]`, however many "=" the value
holds. -/
theorem splitKV_value_with_sep (key value : GoString) (hks : NoSpace key) (hk61 : 61 ∉ key)
    (hk92 : 92 ∉ key) (hvne : value ≠ []) (hvs : NoSpace value) (hvb : NoSpaceByte value)
    (hv92 : 92 ∉ value) :
    splitKV (key ++ 61 :: value) [61] = .ok [[key, value]] := by
  have hk10 := NoSpace_newline hks
  have hv10 := NoSpace_newline hvs
  have hscan : ∀ ls fuel, ls ≤ key.length → value.length + 1 ≤ fuel →
      scanLoop (key ++ 61 :: value) [61] fuel (key.length + 1) false (key.length + 1) ls
        [TrimSpace key] = .ok (key.length + 1, [TrimSpace key]) := by
    intro ls fuel hls hfuel
    apply scanLoop_value_end
    · intro q hq1 hq2
      have hq3 : q - (key.length + 1) < value.length := by simp at hq2; omega
      refine ⟨value[q - (key.length + 1)], ?_, hvb _ (List.getElem_mem _)⟩
      have h : key ++ 61 :: value = (key ++ [61]) ++ value := by simp
      rw [h, List.getElem?_append_right (by simp; omega)]
      simp [List.getElem?_eq_getElem hq3]
    · omega
    · simp; omega
    · omega
  rw [splitKV_single_line _ (by simp [hk92, hv92]) (by simp [hk10, hv10]),
    scanLine_after_key key value [] _ _ hk61 hk10 hv10 hscan]
  have hpos : 0 < value.length := List.length_pos.2 hvne
  rw [if_pos (by simp; omega), drop_key_sep, TrimSpace_NoSpace hks, TrimSpace_NoSpace hvs]
  rfl

/-! ## The scan of "k1=v1 k2=v2 ..." -/

theorem getElem?_mid (a m c : GoString) (q : Nat) (h1 : a.length ≤ q)
    (h2 : q < a.length + m.length) : ∃ x, (a ++ m ++ c)[q]? = some x ∧ x ∈ m := by
  have hq : q - a.length < m.length := by omega
  refine ⟨m[q - a.length], ?_, List.getElem_mem _⟩
  rw [List.append_assoc, List.getElem?_append_right h1, List.getElem?_append_left hq,
    List.getElem?_eq_getElem hq]

theorem getElem?_at (a c : GoString) (b : Nat) : (a ++ b :: c)[a.length]? = some b := by
  rw [List.getElem?_append_right (le_refl _)]
  simp

theorem take_drop_mid (a m c : GoString) :
    ((a ++ m ++ c).take (a.length + m.length)).drop a.length = m := by
  have h : a.length + m.length = (a ++ m).length := by simp
  rw [h, List.take_left' rfl, List.drop_left' rfl]

/-- A space with text in front of the next "=" is inside a value: it becomes `lastSpace`. -/
theorem scanLoop_space_skip {ln : GoString} {pos c j : Nat} (fuel : Nat) (isKey : Bool)
    (vhead ls : Nat) (kv : List GoString) (h : ln[pos]? = some c) (hc : IsSpace c = true)
    (hi : Index (ln.drop (pos + 1)) [61] = some j)
    (hseg : TrimSpace ((ln.take (pos + 1 + j)).drop (pos + 1)) ≠ []) :
    scanLoop ln [61] (fuel + 1) pos isKey vhead ls kv =
      scanLoop ln [61] fuel (pos + 1) isKey vhead pos kv := by
  have hlt := getElem?_lt h
  have hj := (Index_some_spec hi).1
  simp only [List.length_drop, List.length_singleton] at hj
  have hguard : pos + [61].length ≤ ln.length := by simp; omega
  have hstep : spaceStep ln [61] pos = .ok .skip := by
    simp only [spaceStep, slice_one h, byteAt, ok_bind, List.get?_cons_zero, hc, if_true,
      sliceFrom]
    rw [if_pos (by omega)]
    simp only [ok_bind, hi, slice]
    rw [if_pos ⟨by omega, by omega⟩]
    simp only [ok_bind]
    rw [if_pos hseg]
    rfl
  rw [scanLoop, if_pos hguard]
  simp [hstep]

/-- The "=" after a value with a space behind it: the value runs from `vhead` to `lastSpace`,
the next key from `lastSpace` to the "=". -/
theorem scanLoop_sep_value {ln : GoString} {pos : Nat} (fuel : Nat) (vhead ls : Nat)
    (kv : List GoString) (h : ln[pos]? = some 61) (h1 : vhead < ls) (h2 : ls ≤ pos) :
    scanLoop ln [61] (fuel + 1) pos false vhead ls kv =
      scanLoop ln [61] fuel (pos + 1) false (pos + 1) ls
        (kv ++ [TrimSpace ((ln.take ls).drop vhead), TrimSpace ((ln.take pos).drop ls)]) := by
  have hlt := getElem?_lt h
  have hguard : pos + [61].length ≤ ln.length := by simp; omega
  have hsp : IsSpace 61 = false := by decide
  have hnot : ¬ ls ≤ vhead := by omega
  rw [scanLoop, if_pos hguard]
  simp only [spaceStep_plain h hsp, ok_bind, List.length_singleton, slice_one h, if_true,
    Bool.false_eq_true, if_false, hnot]
  rw [slice, if_pos ⟨by omega, by omega⟩, slice, if_pos ⟨h2, by omega⟩]
  rfl

/-- `TrimSpace` removes a space in front of a text without white space. -/
theorem TrimSpace_space_cons {k : GoString} (hk : NoSpace k) : TrimSpace (32 :: k) = k := by
  have hright : TrimRightFunc k IsSpace = k := by
    have h := TrimSpace_NoSpace hk
    rw [TrimSpace, TrimFunc] at h
    rcases k with _ | ⟨a, r⟩
    · rfl
    · rw [TrimLeft_keep _ (by simpa using NoSpace_decode hk 0 (by simp))] at h
      exact h
  have hleft : TrimLeftFunc (32 :: k) IsSpace = k := by
    rcases k with _ | ⟨a, r⟩
    · decide
    · have hd : IsSpace (DecodeRuneInString (a :: r)).1 = false := by
        simpa using NoSpace_decode hk 0 (by simp)
      have h32 : DecodeRuneInString (32 :: a :: r) = (32, 1) := DecodeRune_ascii _ _ (by norm_num)
      have hs32 : IsSpace 32 = true := by decide
      simp [TrimLeftFunc, indexFunc, indexFuncAux, h32, hs32, hd]
  rw [TrimSpace, TrimFunc, hleft, hright]

theorem pairTail_cons (k w : GoString) (rest : List (GoString × GoString)) :
    pairTail ((k, w) :: rest) = 32 :: (k ++ 61 :: (w ++ pairTail rest)) := by
  simp [pairTail]

/-- The scan of the values and keys that follow the first key of "k1=v1 k2=v2 ... kn=vn": from
the start of a value it appends every token but the last value, and ends with `vhead` at the
start of the last value. -/
theorem scanLoop_pairs (rest : List (GoString × GoString)) :
    ∀ (ln pre v : GoString) (ls fuel : Nat) (acc : List GoString),
      ln = pre ++ v ++ pairTail rest → SafeToken v →
      (∀ kv ∈ rest, SafeToken kv.1 ∧ SafeToken kv.2) → ls ≤ pre.length →
      ln.length < pre.length + fuel → 0 < fuel →
      scanLoop ln [61] fuel pre.length false pre.length ls acc =
        .ok (ln.length - (lastValue v rest).length, acc ++ innerTokens v rest) := by
  induction rest with
  | nil =>
    intro ln pre v ls fuel acc hln hv _ hls hfuel hpos
    have hln2 : ln = pre ++ v ++ [] := by simpa [pairTail] using hln
    subst hln2
    rw [scanLoop_value_end fuel pre.length pre.length ls acc ?_ hls hfuel hpos]
    · simp [lastValue, innerTokens]
    · intro q hq1 hq2
      obtain ⟨x, hx, hmem⟩ := getElem?_mid pre v [] q hq1 (by simpa using hq2)
      exact ⟨x, hx, hv.2.2.1 x hmem⟩
  | cons kv rest ih =>
    intro ln pre v ls fuel acc hln hv hrest hls hfuel hpos
    obtain ⟨k, w⟩ := kv
    have hk := (hrest (k, w) (List.mem_cons_self _ _)).1
    have hw := (hrest (k, w) (List.mem_cons_self _ _)).2
    have hrest2 : ∀ kv ∈ rest, SafeToken kv.1 ∧ SafeToken kv.2 :=
      fun x hx => hrest x (List.mem_cons_of_mem _ hx)
    rw [pairTail_cons] at hln
    have hA : ln = pre ++ v ++ (32 :: (k ++ 61 :: (w ++ pairTail rest))) := hln
    have hB : ln = (pre ++ v ++ [32]) ++ k ++ (61 :: (w ++ pairTail rest)) := by
      rw [hln]; simp
    have hC : ln = (pre ++ v ++ 32 :: k ++ [61]) ++ w ++ pairTail rest := by
      rw [hln]; simp
    have hD : ln = (pre ++ v) ++ (32 :: k) ++ (61 :: (w ++ pairTail rest)) := by
      rw [hln]; simp
    have hlen : ln.length =
        pre.length + v.length + 1 + k.length + 1 + w.length + (pairTail rest).length := by
      rw [hC]; simp; omega
    have hvpos : 0 < v.length := List.length_pos.2 hv.1
    -- the value
    have hrun1 : ∀ q, pre.length ≤ q → q < pre.length + v.length →
        ∃ c, ln[q]? = some c ∧ c ≠ 61 ∧ IsSpace c = false := by
      intro q h1 h2
      obtain ⟨x, hx, hmem⟩ := getElem?_mid pre v (32 :: (k ++ 61 :: (w ++ pairTail rest))) q h1 h2
      rw [← hA] at hx
      exact ⟨x, hx, fun h => hv.2.2.2.1 (h ▸ hmem), hv.2.2.1 x hmem⟩
    -- the space
    have hget32 : ln[pre.length + v.length]? = some 32 := by
      have := getElem?_at (pre ++ v) (k ++ 61 :: (w ++ pairTail rest)) 32
      rw [← hA] at this
      simpa using this
    have hdrop : ln.drop (pre.length + v.length + 1) = k ++ 61 :: (w ++ pairTail rest) := by
      have := drop_key_sep (pre ++ v) (k ++ 61 :: (w ++ pairTail rest)) 32
      rw [← hA] at this
      simpa using this
    have hidx : Index (ln.drop (pre.length + v.length + 1)) [61] = some k.length := by
      rw [hdrop]
      exact Index_byte_append _ hk.2.2.2.1
    have hseg : (ln.take (pre.length + v.length + 1 + k.length)).drop
        (pre.length + v.length + 1) = k := by
      have := take_drop_mid (pre ++ v ++ [32]) k (61 :: (w ++ pairTail rest))
      rw [← hB] at this
      simpa using this
    -- the key
    have hrun2 : ∀ q, pre.length + v.length + 1 ≤ q → q < pre.length + v.length + 1 + k.length →
        ∃ c, ln[q]? = some c ∧ c ≠ 61 ∧ IsSpace c = false := by
      intro q h1 h2
      obtain ⟨x, hx, hmem⟩ := getElem?_mid (pre ++ v ++ [32]) k (61 :: (w ++ pairTail rest)) q
        (by simpa using h1) (by simpa using h2)
      rw [← hB] at hx
      exact ⟨x, hx, fun h => hk.2.2.2.1 (h ▸ hmem), hk.2.2.1 x hmem⟩
    -- the separator
    have hget61 : ln[pre.length + v.length + 1 + k.length]? = some 61 := by
      have := getElem?_at (pre ++ v ++ [32] ++ k) (w ++ pairTail rest) 61
      have hl : (pre ++ v ++ [32] ++ k).length = pre.length + v.length + 1 + k.length := by
        simp only [List.length_append, List.length_singleton]
      rw [← hB, hl] at this
      exact this
    have hval : (ln.take (pre.length + v.length)).drop pre.length = v := by
      have := take_drop_mid pre v (32 :: (k ++ 61 :: (w ++ pairTail rest)))
      rw [← hA] at this
      exact this
    have hkey : (ln.take (pre.length + v.length + 1 + k.length)).drop (pre.length + v.length) =
        32 :: k := by
      have := take_drop_mid (pre ++ v) (32 :: k) (61 :: (w ++ pairTail rest))
      rw [← hD] at this
      simpa [Nat.add_assoc, Nat.add_comm 1] using this
    -- the rest, by induction
    have hplen : (pre ++ v ++ 32 :: k ++ [61]).length =
        pre.length + v.length + 1 + k.length + 1 := by
      simp only [List.length_append, List.length_cons, List.length_singleton, List.length_nil]
      omega
    have hih := ih ln (pre ++ v ++ 32 :: k ++ [61]) w (pre.length + v.length)
      (fuel - (v.length + 1 + k.length + 1)) (acc ++ [v, k]) hC hw hrest2
      (by rw [hplen]; omega) (by rw [hplen]; omega) (by omega)
    rw [hplen] at hih
    obtain ⟨f, hf⟩ : ∃ f, fuel = f + 1 + k.length + 1 + v.length :=
      ⟨fuel - (v.length + 1 + k.length + 1), by omega⟩
    have hf2 : fuel - (v.length + 1 + k.length + 1) = f := by omega
    rw [hf2] at hih
    rw [hf, scanLoop_run v.length _ pre.length false pre.length ls acc hrun1,
      scanLoop_space_skip _ false pre.length ls acc hget32 (by decide) hidx
        (by rw [hseg, TrimSpace_NoSpace hk.2.1]; exact hk.1),
      scanLoop_run k.length _ _ false pre.length _ acc hrun2,
      scanLoop_sep_value f pre.length _ acc hget61 (by omega) (by omega),
      hval, hkey, TrimSpace_NoSpace hv.2.1, TrimSpace_space_cons hk.2.1, hih]
    simp [lastValue, innerTokens]

theorem pairLine_cons (k v : GoString) (rest : List (GoString × GoString)) :
    pairLine ((k, v) :: rest) = k ++ 61 :: (v ++ pairTail rest) := by
  induction rest generalizing k v with
  | nil => simp [pairLine, pairTail, List.intercalate]
  | cons kv rest ih =>
    obtain ⟨k2, v2⟩ := kv
    have h := ih k2 v2
    simp only [pairLine, List.intercalate, List.map_cons, List.intersperse_cons_cons,
      List.flatten_cons] at h ⊢
    rw [h, pairTail_cons]
    simp

theorem not_mem_pairTail (c : Nat) (rest : List (GoString × GoString)) (h32 : c ≠ 32)
    (h61 : c ≠ 61) (h : ∀ kv ∈ rest, c ∉ kv.1 ∧ c ∉ kv.2) : c ∉ pairTail rest := by
  induction rest with
  | nil => simp [pairTail]
  | cons kv rest ih =>
    obtain ⟨k, w⟩ := kv
    have hkw := h (k, w) (List.mem_cons_self _ _)
    have := ih (fun x hx => h x (List.mem_cons_of_mem _ hx))
    rw [pairTail_cons]
    simp [h32, h61, hkw.1, hkw.2, this]

theorem lastValue_suffix (v : GoString) (rest : List (GoString × GoString)) :
    ∃ front, v ++ pairTail rest = front ++ lastValue v rest := by
  induction rest generalizing v with
  | nil => exact ⟨[], by simp [pairTail, lastValue]⟩
  | cons kv rest ih =>
    obtain ⟨k, w⟩ := kv
    obtain ⟨front, hfront⟩ := ih w
    refine ⟨v ++ 32 :: (k ++ [61]) ++ front, ?_⟩
    rw [pairTail_cons, lastValue]
    simp only [List.append_assoc, List.cons_append, List.nil_append, List.singleton_append]
    rw [hfront]

theorem lastValue_safe (v : GoString) (rest : List (GoString × GoString)) (hv : SafeToken v)
    (h : ∀ kv ∈ rest, SafeToken kv.1 ∧ SafeToken kv.2) : SafeToken (lastValue v rest) := by
  induction rest generalizing v with
  | nil => exact hv
  | cons kv rest ih =>
    exact ih kv.2 (h kv (List.mem_cons_self _ _)).2 (fun x hx => h x (List.mem_cons_of_mem _ hx))

theorem innerTokens_lastValue (v : GoString) (rest : List (GoString × GoString)) :
    innerTokens v rest ++ [lastValue v rest] = v :: pairTokens rest := by
  induction rest generalizing v with
  | nil => simp [innerTokens, lastValue, pairTokens]
  | cons kv rest ih =>
    have := ih kv.2
    simp only [innerTokens, lastValue, List.cons_append, this]
    simp [pairTokens]

/-- On the safe tokens, C1 holds: for `n >= 1` pairs of tokens that are non-empty and hold no
white space, no byte that is a space when taken for a rune, no "=" and no backslash, `splitKV`
applied to "k1=v1 k2=v2 ... kn=vn" with separator "=" returns exactly one group, the flat
sequence `[k1, v1, ..., kn, vn]`. -/
theorem splitKV_pairs_safe (pairs : List (GoString × GoString)) (hne : pairs ≠ [])
    (h : ∀ kv ∈ pairs, SafeToken kv.1 ∧ SafeToken kv.2) :
    splitKV (pairLine pairs) (go "=") = .ok [pairTokens pairs] := by
  rcases pairs with _ | ⟨⟨k, v⟩, rest⟩
  · exact absurd rfl hne
  have hk := (h (k, v) (List.mem_cons_self _ _)).1
  have hv := (h (k, v) (List.mem_cons_self _ _)).2
  have hrest : ∀ kv ∈ rest, SafeToken kv.1 ∧ SafeToken kv.2 :=
    fun x hx => h x (List.mem_cons_of_mem _ hx)
  have hk10 : 10 ∉ k := NoSpace_newline hk.2.1
  have hr10 : 10 ∉ v ++ pairTail rest := by
    have := not_mem_pairTail 10 rest (by norm_num) (by norm_num)
      (fun x hx => ⟨NoSpace_newline (hrest x hx).1.2.1, NoSpace_newline (hrest x hx).2.2.1⟩)
    simp [NoSpace_newline hv.2.1, this]
  have hr92 : 92 ∉ v ++ pairTail rest := by
    have := not_mem_pairTail 92 rest (by norm_num) (by norm_num)
      (fun x hx => ⟨(hrest x hx).1.2.2.2.2, (hrest x hx).2.2.2.2.2⟩)
    simp [hv.2.2.2.2, this]
  have hscan : ∀ ls fuel, ls ≤ k.length → (v ++ pairTail rest).length + 1 ≤ fuel →
      scanLoop (k ++ 61 :: (v ++ pairTail rest)) [61] fuel (k.length + 1) false (k.length + 1)
        ls [TrimSpace k] =
      .ok ((k ++ 61 :: (v ++ pairTail rest)).length - (lastValue v rest).length,
        [TrimSpace k] ++ innerTokens v rest) := by
    intro ls fuel hls hfuel
    have := scanLoop_pairs rest (k ++ 61 :: (v ++ pairTail rest)) (k ++ [61]) v ls fuel
      [TrimSpace k] (by simp) hv hrest (by simp; omega) (by simp at hfuel ⊢; omega) (by omega)
    simpa using this
  obtain ⟨front, hfront⟩ := lastValue_suffix v rest
  have hlast := lastValue_safe v rest hv hrest
  have hlpos : 0 < (lastValue v rest).length := List.length_pos.2 hlast.1
  have hvh : (k ++ 61 :: (v ++ pairTail rest)).length - (lastValue v rest).length <
      (k ++ 61 :: (v ++ pairTail rest)).length := by
    have : (lastValue v rest).length ≤ (v ++ pairTail rest).length := by
      rw [hfront]; simp
    simp only [List.length_append, List.length_cons] at this ⊢
    omega
  have hdrop : (k ++ 61 :: (v ++ pairTail rest)).drop
      ((k ++ 61 :: (v ++ pairTail rest)).length - (lastValue v rest).length) =
      lastValue v rest := by
    have hshape : k ++ 61 :: (v ++ pairTail rest) = (k ++ 61 :: front) ++ lastValue v rest := by
      rw [hfront]; simp
    rw [hshape, List.drop_left' (by simp; omega)]
  rw [go_eq, pairLine_cons, splitKV_single_line _ (by simp [hk.2.2.2.2, hr92])
    (by simp [hk10, hr10]),
    scanLine_after_key k (v ++ pairTail rest) [] _ _ hk.2.2.2.1 hk10 hr10 hscan, if_pos hvh,
    hdrop, TrimSpace_NoSpace hk.2.1, TrimSpace_NoSpace hlast.2.1]
  simp only [List.nil_append, List.singleton_append, List.cons_append,
    innerTokens_lastValue]
  simp [pairTokens]

/-- The witness of C3: for every `ParseFloat` that rejects "1+1=2", with or without string
preservation, the line "a=1+1=2" gives the one pair (a, "1+1=2") and the one record
`{a: "1+1=2"}`. -/
theorem parse_ambiguous_separator {F : Type} (ParseFloat : GoString → Option F) (p : Parser)
    (hsep : p.splitter = go "=") (hpf : ParseFloat (go "1+1=2") = none) :
    splitKV (go "a=1+1=2") (go "=") = .ok [[go "a", go "1+1=2"]] ∧
    parse ParseFloat p (go "a=1+1=2") = .ok [[(go "a", Value.str (go "1+1=2"))]] := by
  have hs : splitKV (go "a=1+1=2") (go "=") = .ok [[go "a", go "1+1=2"]] := by decide
  have hq : stripQuotes (go "a") (go "1+1=2") = .ok (go "a", go "1+1=2") := by decide
  have ha : go "a" ≠ [] := by decide
  have hv : go "1+1=2" ≠ [] := by decide
  have hb : ParseBool (go "1+1=2") = none := by decide
  refine ⟨hs, ?_⟩
  rw [parse, hsep, hs]
  cases hk : p.keepString <;>
    simp [decodeGroups, decodeGroup, hq, ha, hv, coerce, hpf, hb, Data.set, swapLoop]

/-! ## C1, C3: bytes taken for runes -/

/-- C1 at the line "a=1 你好=2": the tokens a, 1, 你好, 2 are non-empty and hold no white
space, "=", double quote or backslash, yet `splitKV` does not return them. The last byte of
你 (E4 BD A0) is `0xA0`; line 292 tests it as if it were the rune U+00A0, a space, so the
value is cut to `1 \xE4\xBD` and the key to `\xA0好`. -/
theorem C1_utf8_token_cut :
    go "你好" = [0xE4, 0xBD, 0xA0, 0xE5, 0xA5, 0xBD] ∧
    NoSpace (go "你好") ∧ 61 ∉ go "你好" ∧ 34 ∉ go "你好" ∧ 92 ∉ go "你好" ∧
    splitKV (go "a=1 你好=2") (go "=") =
      .ok [[go "a", [49, 32, 0xE4, 0xBD], [0xA0, 0xE5, 0xA5, 0xBD], go "2"]] ∧
    splitKV (go "a=1 你好=2") (go "=") ≠ .ok [[go "a", go "1", go "你好", go "2"]] := by
  decide

/-- C3 at the line "a=你好=2": the value 你好=2 is non-empty and holds no white space and no
backslash, yet `splitKV` returns four tokens instead of the pair (a, 你好=2): the byte `0xA0`
of 你 is taken for a space, so the "=" after it starts a new pair. -/
theorem C3_utf8_value_cut :
    NoSpace (go "你好=2") ∧ 92 ∉ go "你好=2" ∧
    splitKV (go "a=你好=2") (go "=") =
      .ok [[go "a", [0xE4, 0xBD], [0xA0, 0xE5, 0xA5, 0xBD], go "2"]] ∧
    splitKV (go "a=你好=2") (go "=") ≠ .ok [[go "a", go "你好=2"]] := by
  decide

/-! ## The loop of `Parse`, line by line -/

theorem take_set_succ {α : Type} (l : List α) (i : Nat) (x : α) (h : i < l.length) :
    (l.set i x).take (i + 1) = l.take i ++ [x] := by
  induction l generalizing i with
  | nil => simp at h
  | cons a l ih =>
    cases i with
    | zero => simp
    | succ n =>
      simp only [List.length_cons, Nat.add_lt_add_iff_right] at h
      simp [ih n h]

/-- One pass of the loop, in the words of the spec: the records of the line are appended, the
counters move by the line's class, and a skipped line's index is written at the next free place
of the skip buffer. -/
theorem classify_spec {F : Type} (keys : Keys) (p : Parser) (st : LoopState F)
    (r : ParseResult F) (hroom : st.datasourceIndex < st.se.DatasourceSkipIndex.length) :
    ∃ st1, classify keys p st r = .ok st1 ∧
      st1.datas = st.datas ++ specRecords keys p r ∧
      st1.se.Errors = st.se.Errors + (if specError r then 1 else 0) ∧
      st1.se.Success = st.se.Success + (if specSuccess r then 1 else 0) ∧
      st1.datasourceIndex = st.datasourceIndex + (if specSkip p r then 1 else 0) ∧
      st1.se.DatasourceSkipIndex.length = st.se.DatasourceSkipIndex.length ∧
      st1.se.DatasourceSkipIndex.take st1.datasourceIndex =
        st.se.DatasourceSkipIndex.take st.datasourceIndex ++
          (if specSkip p r then [r.Index] else []) := by
  unfold classify
  by_cases hl : r.Line.length = 0
  · have hl2 : r.Line = [] := List.length_eq_zero.1 hl
    simp only [hl, if_true, recordSkip, hroom]
    refine ⟨_, rfl, ?_, ?_, ?_, ?_, ?_, ?_⟩ <;>
      simp [specRecords, specError, specSuccess, specSkip, hl2, take_set_succ _ _ _ hroom]
  · have hl2 : r.Line ≠ [] := fun h => hl (by rw [h]; rfl)
    simp only [hl, if_false]
    cases hErr : r.Err with
    | some msg =>
      rcases hd : p.disableRecordErrData with _ | _ <;> rcases hk : p.keepRawData with _ | _ <;>
        simp [recordSkip, StatsError.AddErrors, hroom, specRecords, specError, specSuccess,
          specSkip, hl2, hErr, hd, hk, take_set_succ _ _ _ hroom]
    | none =>
      by_cases hz : r.Datas.length = 0
      · have hz2 : r.Datas = [] := List.length_eq_zero.1 hz
        simp [hz, StatsError.AddErrors, specRecords, specError, specSuccess, specSkip, hl2,
          hErr, hz2]
      · have hz2 : r.Datas ≠ [] := fun h => hz (by rw [h]; rfl)
        rcases hk : p.keepRawData with _ | _ <;>
          simp [hz, StatsError.AddSuccess, specRecords, specError, specSuccess, specSkip, hl2,
            hErr, hz2, hk]

/-- The whole loop, in the words of the spec. -/
theorem classifyAll_spec {F : Type} (keys : Keys) (p : Parser) (rs : List (ParseResult F))
    (st : LoopState F)
    (h : st.datasourceIndex + rs.length ≤ st.se.DatasourceSkipIndex.length) :
    ∃ st1, classifyAll keys p rs st = .ok st1 ∧
      st1.datas = st.datas ++ (rs.map (specRecords keys p)).flatten ∧
      st1.se.Errors = st.se.Errors + rs.countP specError ∧
      st1.se.Success = st.se.Success + rs.countP specSuccess ∧
      st1.datasourceIndex = st.datasourceIndex + rs.countP (specSkip p) ∧
      st1.se.DatasourceSkipIndex.length = st.se.DatasourceSkipIndex.length ∧
      st1.se.DatasourceSkipIndex.take st1.datasourceIndex =
        st.se.DatasourceSkipIndex.take st.datasourceIndex ++
          (rs.filter (specSkip p)).map (fun r => r.Index) := by
  induction rs generalizing st with
  | nil => exact ⟨st, rfl, by simp, by simp, by simp, by simp, rfl, by simp⟩
  | cons r rest ih =>
    obtain ⟨st1, h1, hd1, he1, hs1, hi1, hl1, ht1⟩ := classify_spec keys p st r
      (by simp at h; omega)
    obtain ⟨st2, h2, hd2, he2, hs2, hi2, hl2, ht2⟩ := ih st1 (by
      rw [hi1, hl1]
      simp only [List.length_cons] at h
      split <;> omega)
    refine ⟨st2, by simp [classifyAll, h1, h2], ?_, ?_, ?_, ?_, by rw [hl2, hl1], ?_⟩
    · rw [hd2, hd1]; simp
    · rw [he2, he1, List.countP_cons]; omega
    · rw [hs2, hs1, List.countP_cons]; omega
    · rw [hi2, hi1, List.countP_cons]; omega
    · rw [ht2, ht1]
      cases hsk : specSkip p r <;> simp [hsk]

/-- Every result is an empty line, a hard error or a success, and only one of them. -/
theorem class_count {F : Type} (rs : List (ParseResult F)) :
    rs.countP specSuccess + rs.countP specError +
      rs.countP (fun r => decide (r.Line = [])) = rs.length := by
  induction rs with
  | nil => rfl
  | cons r rest ih =>
    simp only [List.countP_cons, List.length_cons]
    have : (if specSuccess r = true then 1 else 0) + (if specError r = true then 1 else 0) +
        (if decide (r.Line = []) = true then 1 else 0) = 1 := by
      by_cases hl : r.Line = [] <;> cases hE : r.Err <;> cases hD : r.Datas <;>
        simp [specSuccess, specError, hl, hE, hD]
    omega

/-- A skip is an empty line or a failed line whose record is suppressed, never both. -/
theorem skip_count {F : Type} (p : Parser) (rs : List (ParseResult F)) :
    rs.countP (specSkip p) = rs.countP (fun r => decide (r.Line = [])) +
      rs.countP (fun r => decide (r.Line ≠ []) && r.Err.isSome && p.disableRecordErrData &&
        !p.keepRawData) := by
  induction rs with
  | nil => rfl
  | cons r rest ih =>
    simp only [List.countP_cons, ih]
    have : (if specSkip p r = true then 1 else 0) =
        (if decide (r.Line = []) = true then 1 else 0) +
        (if (decide (r.Line ≠ []) && r.Err.isSome && p.disableRecordErrData &&
          !p.keepRawData) = true then 1 else 0) := by
      by_cases hl : r.Line = [] <;> simp [specSkip, hl]
    omega

/-- What `Parse` returns, from the slice of outcomes and the final state of the loop. -/
theorem Parse_of_loop {F : Type} (keys : Keys) (p : Parser) (lines : List GoString)
    (arrivals sl : List (ParseResult F)) (st : LoopState F)
    (hsl : collect arrivals (List.replicate lines.length ParseResult.zero) = .ok sl)
    (hst : classifyAll keys p sl (LoopState.init lines.length) = .ok st)
    (hroom : st.datasourceIndex ≤ st.se.DatasourceSkipIndex.length) :
    Parse keys p lines arrivals = .ok (st.datas,
      if st.se.Errors = 0 ∧ (st.se.DatasourceSkipIndex.take st.datasourceIndex).length = 0
      then none
      else some { st.se with
        DatasourceSkipIndex := st.se.DatasourceSkipIndex.take st.datasourceIndex }) := by
  simp only [Parse, hsl, hst, finish, sliceTo, hroom, if_true, ok_bind, pure_eq_ok]
  split <;> rfl

/-- The slice of outcomes of a batch whose outcomes carry the distinct indices `0..N-1`: slot
`i` holds the outcome with index `i`, so the slice is the outcomes in the order of their
indices. -/
theorem slice_of_outcomes {F : Type} (outcomes arrivals : List (ParseResult F))
    (hidx : (outcomes.map (fun r => r.Index)).Perm (List.range outcomes.length))
    (hperm : arrivals.Perm outcomes) :
    ∃ sl, collect arrivals (List.replicate outcomes.length ParseResult.zero) = .ok sl ∧
      sl.length = outcomes.length ∧
      sl.map (fun r => r.Index) = List.range outcomes.length ∧
      sl.Perm outcomes := by
  have hnd : (outcomes.map (fun r => r.Index)).Nodup := hidx.nodup_iff.2 (List.nodup_range _)
  have hlt : ∀ r ∈ outcomes, r.Index < outcomes.length := fun r hr =>
    List.mem_range.1 (hidx.mem_iff.1 (List.mem_map_of_mem _ hr))
  have hall : ∀ i, i < outcomes.length → ∃ r ∈ outcomes, r.Index = i := fun i hi => by
    simpa using hidx.mem_iff.2 (List.mem_range.2 hi)
  obtain ⟨sl, hsl, hlen, hhit, -⟩ := collect_spec arrivals
    (List.replicate outcomes.length ParseResult.zero) ((hperm.map _).nodup_iff.2 hnd)
    (fun r hr => by simpa using hlt r (hperm.mem_iff.1 hr))
  have hlen2 : sl.length = outcomes.length := by simpa using hlen
  have hmap : sl.map (fun r => r.Index) = List.range outcomes.length := by
    apply List.ext_getElem?
    intro i
    by_cases hi : i < outcomes.length
    · obtain ⟨r, hr, rfl⟩ := hall i hi
      rw [List.getElem?_map, hhit r (hperm.mem_iff.2 hr)]
      simp [List.getElem?_range hi]
    · rw [List.getElem?_eq_none (by simp; omega), List.getElem?_eq_none (by simp; omega)]
  refine ⟨sl, hsl, hlen2, hmap, ?_⟩
  rw [List.perm_ext_iff_of_nodup (List.Nodup.of_map _ (hmap ▸ List.nodup_range _))
    (List.Nodup.of_map _ hnd)]
  intro r
  constructor
  · intro hr
    obtain ⟨i, hi, rfl⟩ := List.getElem_of_mem hr
    obtain ⟨r2, hr2, hri⟩ := hall i (by omega)
    have h2 := hhit r2 (hperm.mem_iff.2 hr2)
    rw [hri, List.getElem?_eq_getElem hi] at h2
    rw [Option.some.inj h2]
    exact hr2
  · intro hr
    exact List.getElem?_mem (hhit r (hperm.mem_iff.2 hr))

/-- The batch, classified: the slice of outcomes in index order, the final state of the loop,
and what `Parse` returns. -/
theorem batch_spec {F : Type} (keys : Keys) (p : Parser) (lines : List GoString)
    (outcomes arrivals : List (ParseResult F))
    (hidx : (outcomes.map (fun r => r.Index)).Perm (List.range outcomes.length))
    (hperm : arrivals.Perm outcomes) (hlen : lines.length = outcomes.length) :
    ∃ sl skip err,
      collect arrivals (List.replicate lines.length ParseResult.zero) = .ok sl ∧
      sl.map (fun r => r.Index) = List.range outcomes.length ∧
      sl.Perm outcomes ∧
      Parse keys p lines arrivals = .ok ((sl.map (specRecords keys p)).flatten, err) ∧
      skip = (sl.filter (specSkip p)).map (fun r => r.Index) ∧
      (∀ se, err = some se → se.DatasourceSkipIndex = skip) ∧
      (err = none → skip = []) := by
  obtain ⟨sl, hsl, hlen2, hmap, hp⟩ := slice_of_outcomes outcomes arrivals hidx hperm
  rw [← hlen] at hsl
  obtain ⟨st, hst, hd, -, -, hi, hl, ht⟩ := classifyAll_spec keys p sl
    (LoopState.init lines.length) (by simp [LoopState.init, hlen2, hlen])
  have hroom : st.datasourceIndex ≤ st.se.DatasourceSkipIndex.length := by
    rw [hi, hl]
    have := List.countP_le_length (specSkip p) (l := sl)
    simp [LoopState.init] at this ⊢
    omega
  have htake : st.se.DatasourceSkipIndex.take st.datasourceIndex =
      (sl.filter (specSkip p)).map (fun r => r.Index) := by
    rw [ht]; simp [LoopState.init]
  have hparse := Parse_of_loop keys p lines arrivals sl st hsl hst hroom
  rw [hd, htake] at hparse
  simp only [LoopState.init, List.nil_append] at hparse
  refine ⟨sl, _, _, hsl, hmap, hp, hparse, rfl, ?_, ?_⟩
  · intro se hse
    split at hse
    · cases hse
    · cases hse
      rfl
  · intro hnone
    split at hnone
    · rename_i h
      exact List.length_eq_zero.1 h.2
    · cases hnone

/-- A skipped line is the origin of no record. -/
theorem specRecords_of_skip {F : Type} (keys : Keys) (p : Parser) (r : ParseResult F)
    (h : specSkip p r = true) : specRecords keys p r = [] := by
  by_cases hl : r.Line = []
  · simp [specRecords, hl]
  · cases hE : r.Err with
    | none => simp [specSkip, hl, hE] at h
    | some msg =>
      simp only [specSkip, hl, hE, decide_False, Bool.false_or, ne_eq, not_false_eq_true,
        decide_True, Option.isSome_some, Bool.true_and, Bool.and_eq_true,
        Bool.not_eq_true'] at h
      simp [specRecords, hl, hE, h.1, h.2]

/-- C11: for a batch whose outcomes carry the distinct indices `0..N-1`, in any arrival order,
the skip index sequence that `Parse` hands out in its `StatsError` is strictly increasing and
holds exactly the indices `i < N` whose resolved line is empty, or whose parse failed while
stash-on-error and raw retention are both disabled; its length is the number of such lines, so
no padding entry of the pre-sized buffer is left. When `Parse` returns no error the sequence is
empty. -/
theorem C11_skip_index_sequence {F : Type} (keys : Keys) (p : Parser) (lines : List GoString)
    (outcomes arrivals : List (ParseResult F))
    (hidx : (outcomes.map (fun r => r.Index)).Perm (List.range outcomes.length))
    (hperm : arrivals.Perm outcomes) (hlen : lines.length = outcomes.length) :
    ∃ datas err skip,
      Parse keys p lines arrivals = .ok (datas, err) ∧
      (∀ se, err = some se → se.DatasourceSkipIndex = skip) ∧
      (err = none → skip = []) ∧
      skip.Pairwise (fun a b => a < b) ∧
      (∀ i, i ∈ skip ↔ i < lines.length ∧ ∃ r ∈ outcomes, r.Index = i ∧ specSkip p r = true) ∧
      skip.length = outcomes.countP (specSkip p) := by
  obtain ⟨sl, skip, err, -, hmap, hp, hparse, hskip, hse, hnone⟩ :=
    batch_spec keys p lines outcomes arrivals hidx hperm hlen
  refine ⟨_, err, skip, hparse, hse, hnone, ?_, ?_, ?_⟩
  · rw [hskip]
    have hsub : List.Sublist ((sl.filter (specSkip p)).map (fun r => r.Index))
        (sl.map (fun r => r.Index)) := (List.filter_sublist sl).map _
    rw [hmap] at hsub
    exact List.Pairwise.sublist hsub (List.pairwise_lt_range _)
  · intro i
    rw [hskip]
    simp only [List.mem_map, List.mem_filter]
    constructor
    · rintro ⟨r, ⟨hr, hs⟩, rfl⟩
      have hmem : r.Index ∈ sl.map (fun r => r.Index) := List.mem_map_of_mem _ hr
      rw [hmap, List.mem_range] at hmem
      exact ⟨by omega, r, hp.mem_iff.1 hr, rfl, hs⟩
    · rintro ⟨-, r, hr, rfl, hs⟩
      exact ⟨r, ⟨hp.mem_iff.2 hr, hs⟩, rfl⟩
  · rw [hskip, List.length_map, ← List.countP_eq_length_filter, hp.countP_eq]

/-- C12: for a batch whose outcomes carry the distinct indices `0..N-1`, the records `Parse`
returns are the records of the lines in index order, and no line index is both in the skip
index sequence and the origin of a record: a line recorded as a skip contributes no record, and
a line that contributes a record (parsed, stash or raw) is not recorded as a skip. -/
theorem C12_skip_and_record_disjoint {F : Type} (keys : Keys) (p : Parser)
    (lines : List GoString) (outcomes arrivals : List (ParseResult F))
    (hidx : (outcomes.map (fun r => r.Index)).Perm (List.range outcomes.length))
    (hperm : arrivals.Perm outcomes) (hlen : lines.length = outcomes.length) :
    ∃ (sl : List (ParseResult F)) (err : Option StatsError) (skip : List Nat),
      sl.Perm outcomes ∧ sl.map (fun r => r.Index) = List.range outcomes.length ∧
      Parse keys p lines arrivals = .ok ((sl.map (specRecords keys p)).flatten, err) ∧
      (∀ se, err = some se → se.DatasourceSkipIndex = skip) ∧
      (err = none → skip = []) ∧
      ∀ r ∈ outcomes,
        (r.Index ∈ skip → specRecords keys p r = []) ∧
        (specRecords keys p r ≠ [] → r.Index ∉ skip) := by
  obtain ⟨sl, skip, err, -, hmap, hp, hparse, hskip, hse, hnone⟩ :=
    batch_spec keys p lines outcomes arrivals hidx hperm hlen
  have hnd : (outcomes.map (fun r => r.Index)).Nodup := hidx.nodup_iff.2 (List.nodup_range _)
  have hkey : ∀ r ∈ outcomes, r.Index ∈ skip → specRecords keys p r = [] := by
    intro r hr hin
    rw [hskip] at hin
    simp only [List.mem_map, List.mem_filter] at hin
    obtain ⟨r2, ⟨hr2, hs⟩, heq⟩ := hin
    have : r2 = r := List.inj_on_of_nodup_map hnd (hp.mem_iff.1 hr2) hr heq
    subst this
    exact specRecords_of_skip keys p r2 hs
  exact ⟨sl, err, skip, hp, hmap, hparse, hse, hnone,
    fun r hr => ⟨hkey r hr, fun hne hin => hne (hkey r hr hin)⟩⟩

/-- C11, witness: three lines, the second fails and the third is empty, results arriving in
the order 1, 2, 0, with a parser that drops failed lines. -/
theorem C11_skip_index_sequence_witness :
    ∃ datas err skip,
      Parse sampleKeys droppingParser [go "a=1", go "b", []] [outcomeB, outcomeC, outcomeA] =
        .ok (datas, err) ∧
      (∀ se, err = some se → se.DatasourceSkipIndex = skip) ∧
      (err = none → skip = []) ∧
      skip.Pairwise (fun a b => a < b) ∧
      (∀ i, i ∈ skip ↔ i < [go "a=1", go "b", ([] : GoString)].length ∧
        ∃ r ∈ [outcomeA, outcomeB, outcomeC], r.Index = i ∧ specSkip droppingParser r = true) ∧
      skip.length = [outcomeA, outcomeB, outcomeC].countP (specSkip droppingParser) :=
  C11_skip_index_sequence sampleKeys droppingParser [go "a=1", go "b", []]
    [outcomeA, outcomeB, outcomeC] [outcomeB, outcomeC, outcomeA] (by decide)
    (@List.perm_append_comm _ [outcomeB, outcomeC] [outcomeA]) rfl

/-- C12, witness: the same batch; the skipped lines 1 and 2 give no record and line 0, which
gives a record, is not skipped. -/
theorem C12_skip_and_record_disjoint_witness :
    ∃ (sl : List (ParseResult Nat)) (err : Option StatsError) (skip : List Nat),
      sl.Perm [outcomeA, outcomeB, outcomeC] ∧
      sl.map (fun r => r.Index) = List.range [outcomeA, outcomeB, outcomeC].length ∧
      Parse sampleKeys droppingParser [go "a=1", go "b", []] [outcomeB, outcomeC, outcomeA] =
        .ok ((sl.map (specRecords sampleKeys droppingParser)).flatten, err) ∧
      (∀ se, err = some se → se.DatasourceSkipIndex = skip) ∧
      (err = none → skip = []) ∧
      ∀ r ∈ [outcomeA, outcomeB, outcomeC],
        (r.Index ∈ skip → specRecords sampleKeys droppingParser r = []) ∧
        (specRecords sampleKeys droppingParser r ≠ [] → r.Index ∉ skip) :=
  C12_skip_and_record_disjoint sampleKeys droppingParser [go "a=1", go "b", []]
    [outcomeA, outcomeB, outcomeC] [outcomeB, outcomeC, outcomeA] (by decide)
    (@List.perm_append_comm _ [outcomeB, outcomeC] [outcomeA]) rfl

/-- The loop over a map whose histories are all absent or empty changes nothing. -/
theorem copyEntries_blank {Q : Type} (ops : QueueOps Q) (m : QueueMap Q)
    (dst : Option (QueueMap Q)) (isEmpty : Bool)
    (h : m.all (fun e => ops.blank e.2) = true) :
    copyEntries ops m dst isEmpty = (dst, isEmpty) := by
  induction m with
  | nil => rfl
  | cons e rest ih =>
    obtain ⟨name, q⟩ := e
    simp only [List.all_cons, Bool.and_eq_true] at h
    cases q with
    | none => simpa [copyEntries] using ih h.2
    | some e =>
      have he : ops.IsEmpty e = true := h.1
      simpa [copyEntries, he] using ih h.2

/-- The loop over a map reports a copy exactly when some history of the map is present and not
empty. -/
theorem copyEntries_isEmpty {Q : Type} (ops : QueueOps Q) (m : QueueMap Q)
    (dst : Option (QueueMap Q)) (isEmpty : Bool) :
    (copyEntries ops m dst isEmpty).2 = (isEmpty && m.all (fun e => ops.blank e.2)) := by
  induction m generalizing dst isEmpty with
  | nil => simp [copyEntries]
  | cons e rest ih =>
    obtain ⟨name, q⟩ := e
    cases q with
    | none => simp [copyEntries, ih, QueueOps.blank]
    | some e =>
      cases he : ops.IsEmpty e <;> simp [copyEntries, ih, QueueOps.blank, he]

/-- When every sub-history is absent or empty, `Copy` returns nil, provided the test of line 160
does not call `IsEmpty` on a nil read history (the read history is present or the parse history
is absent) or that call answers true. -/
theorem Copy_allBlank {Q : Type} (ops : QueueOps Q) (src : ErrorsList Q)
    (h : ops.allBlank src = true)
    (hsafe : src.ReadErrors ≠ none ∨ src.ParseErrors = none ∨ ops.IsEmptyNil = .ok true) :
    src.Copy ops = .ok none := by
  obtain ⟨r, p, t, s⟩ := src
  simp only [QueueOps.allBlank, Bool.and_eq_true] at h
  obtain ⟨⟨⟨hr, hp⟩, ht⟩, hs⟩ := h
  have e1 : copyRead ops ⟨r, p, t, s⟩ ⟨⟨none, none, none, none⟩, true⟩ =
      ⟨⟨none, none, none, none⟩, true⟩ := by
    cases r with
    | none => rfl
    | some q =>
      have : ops.IsEmpty q = true := hr
      simp [copyRead, this]
  have e2 : copyParse ops ⟨r, p, t, s⟩ ⟨⟨none, none, none, none⟩, true⟩ =
      .ok ⟨⟨none, none, none, none⟩, true⟩ := by
    cases p with
    | none => rfl
    | some q =>
      cases r with
      | none =>
        rcases hsafe with h1 | h1 | h1
        · exact absurd rfl h1
        · cases h1
        · simp [copyParse, QueueOps.callIsEmpty, h1]
      | some qr =>
        have : ops.IsEmpty qr = true := hr
        simp [copyParse, QueueOps.callIsEmpty, this]
  have e3 : copyTransform ops ⟨r, p, t, s⟩ ⟨⟨none, none, none, none⟩, true⟩ =
      ⟨⟨none, none, none, none⟩, true⟩ := by
    cases t with
    | none => rfl
    | some m => simp [copyTransform, copyEntries_blank ops m none true ht]
  have e4 : copySend ops ⟨r, p, t, s⟩ ⟨⟨none, none, none, none⟩, true⟩ =
      ⟨⟨none, none, none, none⟩, true⟩ := by
    cases s with
    | none => rfl
    | some m => simp [copySend, copyEntries_blank ops m none true hs]
  simp [ErrorsList.Copy, e1, e2, e3, e4]

/-- With a nil read history and a present, empty parse history, what `Copy` gives is decided by
the call of `IsEmpty` on the nil pointer in the test of line 160. -/
theorem Copy_nil_read {Q : Type} (ops : QueueOps Q) (q : Q) :
    ErrorsList.Copy ops ⟨none, some q, none, none⟩ =
      match ops.IsEmptyNil with
      | .error e => .error e
      | .ok b => if b then .ok none else .ok (some ⟨none, some (ops.duplicate q), none, none⟩) := by
  cases h : ops.IsEmptyNil with
  | error e => simp [ErrorsList.Copy, copyRead, copyParse, QueueOps.callIsEmpty, h]
  | ok b =>
    cases b <;>
      simp [ErrorsList.Copy, copyRead, copyParse, copyTransform, copySend,
        QueueOps.callIsEmpty, h]

/-- Sample: all histories absent or empty, read history nil, and `IsEmpty` on nil does not
return: `Copy` does not return nil. -/
theorem Copy_nil_read_sample :
    (sampleOps (.error .outOfRange)).allBlank ⟨none, some ⟨10, []⟩, none, none⟩ = true ∧
    ErrorsList.Copy (sampleOps (.error .outOfRange)) ⟨none, some ⟨10, []⟩, none, none⟩ =
      .error .outOfRange := by
  constructor <;> rfl

/-- Sample: the same list when `IsEmpty` on nil answers true: `Copy` returns nil. -/
theorem Copy_allBlank_sample :
    ErrorsList.Copy (sampleOps (.ok true)) ⟨none, some ⟨10, []⟩, none, none⟩ = .ok none :=
  Copy_allBlank (sampleOps (.ok true)) ⟨none, some ⟨10, []⟩, none, none⟩ rfl
    (Or.inr (Or.inr rfl))

/-- C15, evaluation: for a list with a read and a parse history and nil maps, whatever the
queue functions are, what `Copy` does with the parse history follows the read history: when the
read history is empty `Copy` returns nil, also when the parse history has entries, and when the
read history is not empty the copy holds a parse history, also when the source's is empty. The
test `IsEmpty` is never applied to the parse history. -/
theorem C15_parse_history_follows_read {Q : Type} (ops : QueueOps Q) (qr qp : Q) :
    ErrorsList.Copy ops ⟨some qr, some qp, none, none⟩ =
      .ok (if ops.IsEmpty qr then none
        else some ⟨some (ops.duplicate qr), some (ops.duplicate qp), none, none⟩) := by
  cases h : ops.IsEmpty qr <;>
    simp [ErrorsList.Copy, copyRead, copyParse, copyTransform, copySend,
      QueueOps.callIsEmpty, h]

/-- Sample: an empty read history with maximum size 10 and a parse history with one entry;
`Copy` returns nil and the parse history is lost. -/
theorem Copy_parse_only_sample (nilEmpty : Except Fault Bool) :
    (sampleOps nilEmpty).blank parseOnlyList.ParseErrors = false ∧
    parseOnlyList.Copy (sampleOps nilEmpty) = .ok none := by
  constructor <;> rfl

/-- Sample: a read history with one entry and an empty parse history; the copy holds an empty
parse history. -/
theorem Copy_read_only_sample (nilEmpty : Except Fault Bool) :
    ErrorsList.Copy (sampleOps nilEmpty) ⟨some ⟨10, [7]⟩, some ⟨5, []⟩, none, none⟩ =
      .ok (some ⟨some ⟨10, [7]⟩, some ⟨5, []⟩, none, none⟩) := by
  rfl

/-- C17, counterexample: a list whose read history has maximum size 10 and one entry; after
`Reset` the read history is nil, not an empty history with maximum size 10. -/
theorem C17_reset_keeps_capacity_refuted :
    ¬ ∀ (entry : ErrorsList SampleQueue) (q : SampleQueue), entry.ReadErrors = some q →
      ∃ q2, entry.Reset.ReadErrors = some q2 ∧ (sampleOps (.ok true)).IsEmpty q2 = true ∧
        (sampleOps (.ok true)).GetMaxSize q2 = (sampleOps (.ok true)).GetMaxSize q := by
  intro h
  obtain ⟨q2, h2, -⟩ := h parseOnlyList ⟨10, []⟩ rfl
  simp [ErrorsList.Reset] at h2

/-- C17, amended: after `Reset` every error history of the list is absent: the read and the
parse history are nil pointers and the transformer and sender maps are nil maps, whatever the
list held before; no queue and no maximum size is kept. -/
theorem C17_reset_clears_to_nil {Q : Type} (entry : ErrorsList Q) :
    entry.Reset.ReadErrors = none ∧ entry.Reset.ParseErrors = none ∧
    entry.Reset.TransformErrors = none ∧ entry.Reset.SendErrors = none := by
  simp [ErrorsList.Reset]

/-- The loop of lines 205-209 from the index `A.length`, when the first and last `A.length`
elements have changed places already, turns the slice round. -/
theorem swapLoop_middle {α : Type} (fuel : Nat) (A M B : List α) (hAB : A.length = B.length)
    (hf : M.length < 2 * fuel) :
    swapLoop fuel A.length (B.reverse ++ M ++ A.reverse) = .ok (A ++ M ++ B).reverse := by
  induction fuel generalizing A M B with
  | zero => omega
  | succ fuel ih =>
    have hlen : (B.reverse ++ M ++ A.reverse).length = 2 * A.length + M.length := by
      simp; omega
    by_cases hlt : A.length < (2 * A.length + M.length) / 2
    · have hM : 2 ≤ M.length := by omega
      obtain ⟨a, M1, rfl⟩ : ∃ a M1, M = a :: M1 := by
        cases M with
        | nil => simp at hM
        | cons a M1 => exact ⟨a, M1, rfl⟩
      obtain ⟨M2, b, rfl⟩ : ∃ M2 b, M1 = M2 ++ [b] := by
        rcases List.eq_nil_or_concat M1 with h | ⟨M2, b, h⟩
        · subst h; simp at hM
        · exact ⟨M2, b, by simpa using h⟩
      have hg1 : (B.reverse ++ (a :: (M2 ++ [b])) ++ A.reverse).get? A.length = some a := by
        rw [List.get?_eq_getElem?, List.append_assoc, List.getElem?_append_right (by simp [hAB])]
        simp [hAB]
      have hidx : (B.reverse ++ (a :: (M2 ++ [b])) ++ A.reverse).length - A.length - 1 =
          (B.reverse ++ (a :: M2)).length := by
        simp; omega
      have hg2 : (B.reverse ++ (a :: (M2 ++ [b])) ++ A.reverse).get?
          ((B.reverse ++ (a :: (M2 ++ [b])) ++ A.reverse).length - A.length - 1) = some b := by
        rw [hidx, List.get?_eq_getElem?]
        have : B.reverse ++ (a :: (M2 ++ [b])) ++ A.reverse =
            (B.reverse ++ (a :: M2)) ++ (b :: A.reverse) := by simp
        rw [this, List.getElem?_append_right (le_refl _)]
        simp
      have hset : ((B.reverse ++ (a :: (M2 ++ [b])) ++ A.reverse).set A.length b).set
          ((B.reverse ++ (a :: (M2 ++ [b])) ++ A.reverse).length - A.length - 1) a =
          (b :: B).reverse ++ M2 ++ (A ++ [a]).reverse := by
        rw [hidx]
        have e1 : B.reverse ++ (a :: (M2 ++ [b])) ++ A.reverse =
            B.reverse ++ (a :: (M2 ++ b :: A.reverse)) := by simp
        have hA : A.length = B.reverse.length := by simp [hAB]
        rw [e1]
        nth_rewrite 1 [hA]
        rw [List.set_append_right _ _ (le_refl _)]
        simp only [Nat.sub_self, List.set_cons_zero]
        have e2 : B.reverse ++ b :: (M2 ++ b :: A.reverse) =
            (B.reverse ++ b :: M2) ++ (b :: A.reverse) := by simp
        have hB : (B.reverse ++ a :: M2).length = (B.reverse ++ b :: M2).length := by simp
        rw [e2, hB, List.set_append_right _ _ (le_refl _)]
        simp
      have hstep : swapLoop (fuel + 1) A.length (B.reverse ++ (a :: (M2 ++ [b])) ++ A.reverse) =
          swapLoop fuel (A.length + 1) ((b :: B).reverse ++ M2 ++ (A ++ [a]).reverse) := by
        rw [swapLoop, if_pos (by rw [hlen]; exact hlt), hg1, hg2]
        simp only [hset]
      rw [hstep]
      have := ih (A ++ [a]) M2 (b :: B) (by simp [hAB]) (by simp at hf ⊢; omega)
      simp only [List.length_append, List.length_singleton] at this
      rw [this]
      simp
    · have hM : M.length ≤ 1 := by omega
      have hr : M.reverse = M := by
        match M, hM with
        | [], _ => rfl
        | [x], _ => rfl
      rw [swapLoop, if_neg (by rw [hlen]; exact hlt)]
      simp [hr]

/-- The loop of lines 205-209 of `parse` turns the slice round, and the fuel `parse` gives it
is enough. -/
theorem swapLoop_reverse {α : Type} (datas : List α) :
    swapLoop (datas.length + 1) 0 datas = .ok datas.reverse := by
  have := swapLoop_middle (datas.length + 1) [] datas [] rfl (by omega)
  simpa using this

/-- The value `parse` stores is the value the text describes. -/
theorem coerce_eq_specValue {F : Type} (ParseFloat : GoString → Option F) (keepString : Bool)
    (t : GoString) : coerce ParseFloat keepString t = specValue ParseFloat keepString t := by
  cases keepString <;> cases h1 : ParseFloat t <;> cases h2 : ParseBool t <;>
    simp [coerce, specValue, h1, h2]

/-- A group that decodes gives the record the text describes. -/
theorem decodeGroup_spec {F : Type} (ParseFloat : GoString → Option F) (keepString : Bool) :
    ∀ (g : List GoString) (field out : Data F),
      decodeGroup ParseFloat keepString g field = .ok out →
      out = specFields ParseFloat keepString g field
  | [], field, out, h => by
    simp only [decodeGroup, Except.ok.injEq] at h
    simp [specFields, tokenPairs, h]
  | [_], field, out, h => by simp [decodeGroup] at h
  | k :: v :: rest, field, out, h => by
    obtain ⟨kv, hkv⟩ := stripQuotes_ok k v
    have hs : stripped k v = kv := by simp [stripped, hkv]
    by_cases he : kv.1.length = 0 ∨ kv.2.length = 0
    · have he2 : kv.1 = [] ∨ kv.2 = [] := by simpa [List.length_eq_zero] using he
      simp [decodeGroup, hkv, he2] at h
    · have he2 : ¬ (kv.1 = [] ∨ kv.2 = []) := by simpa [List.length_eq_zero] using he
      simp only [decodeGroup, hkv, ok_bind, List.length_eq_zero, he2, if_false] at h
      have := decodeGroup_spec ParseFloat keepString rest _ out h
      rw [this]
      simp [specFields, tokenPairs, hs, coerce_eq_specValue]

/-- The groups that decode give the records the text describes, without the empty ones, after
the records made before. -/
theorem decodeGroups_spec {F : Type} (ParseFloat : GoString → Option F) (keepString : Bool)
    (pairs : List (List GoString)) (datas out : List (Data F))
    (h : decodeGroups ParseFloat keepString pairs datas = .ok out) :
    out = datas ++ (pairs.map (fun g => specFields ParseFloat keepString g [])).filter
      (fun f => !f.isEmpty) := by
  induction pairs generalizing datas with
  | nil =>
    simp only [decodeGroups, Except.ok.injEq] at h
    simp [h]
  | cons g rest ih =>
    by_cases hodd : g.length % 2 = 1
    · simp [decodeGroups, hodd] at h
    · cases hg : decodeGroup ParseFloat keepString g [] with
      | error e => simp [decodeGroups, hodd, hg] at h
      | ok field =>
        have hf := decodeGroup_spec ParseFloat keepString g [] field hg
        by_cases hz : field.length = 0
        · simp only [decodeGroups, hodd, if_false, hg, ok_bind, hz, if_true] at h
          have hnil : field = [] := List.length_eq_zero.1 hz
          rw [ih datas h, List.map_cons, ← hf, hnil]
          simp
        · simp only [decodeGroups, hodd, if_false, hg, ok_bind, hz] at h
          have hne : field ≠ [] := fun hn => hz (by simp [hn])
          rw [ih _ h, List.map_cons, ← hf]
          simp [List.filter_cons, hne]

/-- What `parse` returns on success: the records of the groups of `splitKV`, the empty ones
left out, in the opposite order. -/
theorem parse_ok_spec {F : Type} (ParseFloat : GoString → Option F) (p : Parser)
    (line : GoString) (datas : List (Data F)) (h : parse ParseFloat p line = .ok datas) :
    ∃ pairs, splitKV line p.splitter = .ok pairs ∧
      datas = ((pairs.map (fun g => specFields ParseFloat p.keepString g [])).filter
        (fun f => !f.isEmpty)).reverse := by
  cases hs : splitKV line p.splitter with
  | error e => simp [parse, hs] at h
  | ok pairs =>
    cases hd : decodeGroups ParseFloat p.keepString pairs [] with
    | error e => simp [parse, hs, hd] at h
    | ok out =>
      simp only [parse, hs, ok_bind, hd, swapLoop_reverse, Except.ok.injEq] at h
      refine ⟨pairs, rfl, ?_⟩
      rw [← h, decodeGroups_spec ParseFloat p.keepString pairs [] out hd]
      simp

/-- An entry of a map after an assignment is the assigned one or was there before. -/
theorem mem_Data_set {F : Type} (d : Data F) (k : GoString) (v : Value F)
    (e : GoString × Value F) (h : e ∈ d.set k v) : e = (k, v) ∨ e ∈ d := by
  unfold Data.set at h
  split at h
  · simp only [List.mem_map] at h
    obtain ⟨e2, he2, rfl⟩ := h
    by_cases hk : e2.1 = k
    · simp [hk]
    · simp [hk, he2]
  · simp only [List.mem_append, List.mem_singleton] at h
    exact h.symm

/-- Every entry of a record the text describes is in the record it started from or is the
stripped key of a pair of the group with the value of its stripped value token. -/
theorem mem_specFields {F : Type} (ParseFloat : GoString → Option F) (keepString : Bool)
    (g : List GoString) (field : Data F) (e : GoString × Value F)
    (h : e ∈ specFields ParseFloat keepString g field) :
    e ∈ field ∨ ∃ kv ∈ tokenPairs g, e.1 = (stripped kv.1 kv.2).1 ∧
      e.2 = specValue ParseFloat keepString (stripped kv.1 kv.2).2 := by
  unfold specFields at h
  generalize tokenPairs g = ps at h ⊢
  induction ps generalizing field with
  | nil => exact Or.inl (by simpa using h)
  | cons kv rest ih =>
    rw [List.foldl_cons] at h
    rcases ih _ h with h1 | ⟨kv2, hkv2, h2⟩
    · rcases mem_Data_set _ _ _ _ h1 with h3 | h3
      · exact Or.inr ⟨kv, List.mem_cons_self _ _, by simp [h3], by simp [h3]⟩
      · exact Or.inl h3
    · exact Or.inr ⟨kv2, List.mem_cons_of_mem _ hkv2, h2⟩

/-- C13: when `parse` decodes a line, its records are those of the groups of `splitKV`, each
built pair by pair from the quote-stripped tokens, so every field of every record has the
quote-stripped key of a pair of a group as its name, and its value is determined from the
quote-stripped value token `t` of that pair: with `keepString` on it is the string `t`; with
`keepString` off it is the float parsed from `t` if `ParseFloat` accepts `t`, whatever
`ParseBool` says, otherwise the boolean parsed from `t` if `ParseBool` accepts `t`, otherwise
the string `t`. -/
theorem C13_value_coercion {F : Type} (ParseFloat : GoString → Option F) (p : Parser)
    (line : GoString) (datas : List (Data F)) (h : parse ParseFloat p line = .ok datas) :
    ∃ pairs, splitKV line p.splitter = .ok pairs ∧
      datas = ((pairs.map (fun g => specFields ParseFloat p.keepString g [])).filter
        (fun f => !f.isEmpty)).reverse ∧
      (∀ d ∈ datas, ∀ e ∈ d, ∃ g ∈ pairs, ∃ kv ∈ tokenPairs g,
        e.1 = (stripped kv.1 kv.2).1 ∧
        e.2 = coerce ParseFloat p.keepString (stripped kv.1 kv.2).2 ∧
        (p.keepString = true → e.2 = .str (stripped kv.1 kv.2).2) ∧
        (p.keepString = false → ∀ f, ParseFloat (stripped kv.1 kv.2).2 = some f →
          e.2 = .float f) ∧
        (p.keepString = false → ParseFloat (stripped kv.1 kv.2).2 = none →
          ∀ b, ParseBool (stripped kv.1 kv.2).2 = some b → e.2 = .bool b) ∧
        (p.keepString = false → ParseFloat (stripped kv.1 kv.2).2 = none →
          ParseBool (stripped kv.1 kv.2).2 = none → e.2 = .str (stripped kv.1 kv.2).2)) := by
  obtain ⟨pairs, hs, hd⟩ := parse_ok_spec ParseFloat p line datas h
  refine ⟨pairs, hs, hd, ?_⟩
  intro d hdm e he
  rw [hd] at hdm
  simp only [List.mem_reverse, List.mem_filter, List.mem_map] at hdm
  obtain ⟨⟨g, hg, rfl⟩, -⟩ := hdm
  rcases mem_specFields ParseFloat p.keepString g [] e he with h1 | ⟨kv, hkv, h1, h2⟩
  · simp at h1
  · refine ⟨g, hg, kv, hkv, h1, by rw [h2, coerce_eq_specValue], ?_, ?_, ?_, ?_⟩
    · intro hk; rw [h2]; simp [specValue, hk]
    · intro hk f hf; rw [h2]; simp [specValue, hk, hf]
    · intro hk hf b hb; rw [h2]; simp [specValue, hk, hf, hb]
    · intro hk hf hb; rw [h2]; simp [specValue, hk, hf, hb]

/-- C13, witness: with `decimalFloat` for `ParseFloat` and type coercion on, the line
"a=1 b=true c=x" gives the record `{a: 1 (a number), b: true, c: "x"}`. -/
theorem C13_value_coercion_witness :
    parse decimalFloat coercingParser (go "a=1 b=true c=x") =
      .ok [[(go "a", .float 1), (go "b", .bool true), (go "c", .str (go "x"))]] ∧
    ∃ pairs, splitKV (go "a=1 b=true c=x") coercingParser.splitter = .ok pairs ∧
      [[(go "a", Value.float 1), (go "b", .bool true), (go "c", .str (go "x"))]] =
        ((pairs.map (fun g => specFields decimalFloat coercingParser.keepString g [])).filter
          (fun f => !f.isEmpty)).reverse ∧
      (∀ d ∈ [[(go "a", Value.float 1), (go "b", .bool true), (go "c", .str (go "x"))]],
        ∀ e ∈ d, ∃ g ∈ pairs, ∃ kv ∈ tokenPairs g,
        e.1 = (stripped kv.1 kv.2).1 ∧
        e.2 = coerce decimalFloat coercingParser.keepString (stripped kv.1 kv.2).2 ∧
        (coercingParser.keepString = true → e.2 = .str (stripped kv.1 kv.2).2) ∧
        (coercingParser.keepString = false → ∀ f, decimalFloat (stripped kv.1 kv.2).2 = some f →
          e.2 = .float f) ∧
        (coercingParser.keepString = false → decimalFloat (stripped kv.1 kv.2).2 = none →
          ∀ b, ParseBool (stripped kv.1 kv.2).2 = some b → e.2 = .bool b) ∧
        (coercingParser.keepString = false → decimalFloat (stripped kv.1 kv.2).2 = none →
          ParseBool (stripped kv.1 kv.2).2 = none → e.2 = .str (stripped kv.1 kv.2).2)) :=
  ⟨by decide, C13_value_coercion decimalFloat coercingParser (go "a=1 b=true c=x") _ (by decide)⟩

/-- The white-space test never slices out of range inside the line. -/
theorem spaceStep_total {ln sep : GoString} {pos : Nat} (hsep : sep ≠ [])
    (hguard : pos + sep.length ≤ ln.length) : ∃ r, spaceStep ln sep pos = .ok r := by
  have hpos : 0 < sep.length := List.length_pos.2 hsep
  have hlt : pos < ln.length := by omega
  have hget : ln[pos]? = some ln[pos] := List.getElem?_eq_getElem hlt
  cases hsp : IsSpace ln[pos] with
  | false => exact ⟨_, spaceStep_plain hget hsp⟩
  | true =>
    cases hi : Index (ln.drop (pos + 1)) sep with
    | none =>
      refine ⟨.stop, ?_⟩
      simp [spaceStep, slice_one hget, byteAt, hsp, sliceFrom, show pos + 1 ≤ ln.length by omega,
        hi]
    | some nextSep =>
      have hb := (Index_some_spec hi).1
      rw [List.length_drop] at hb
      have hs : slice ln (pos + 1) (pos + 1 + nextSep) =
          .ok ((ln.take (pos + 1 + nextSep)).drop (pos + 1)) := by
        rw [slice, if_pos ⟨by omega, by omega⟩]
      by_cases ht : TrimSpace ((ln.take (pos + 1 + nextSep)).drop (pos + 1)) ≠ []
      · refine ⟨.skip, ?_⟩
        simp only [spaceStep, slice_one hget, byteAt, ok_bind, List.get?_cons_zero, hsp, if_true,
          sliceFrom, if_pos (show pos + 1 ≤ ln.length by omega), hi, hs, if_pos ht, pure_eq_ok]
      · refine ⟨.test, ?_⟩
        simp only [spaceStep, slice_one hget, byteAt, ok_bind, List.get?_cons_zero, hsp, if_true,
          sliceFrom, if_pos (show pos + 1 ≤ ln.length by omega), hi, hs, if_neg ht, pure_eq_ok]

/-- The scan loop of `splitKV` ends, with the fuel that is left bounding the bytes still to
scan, without any slice out of range; and when it ends with no token, `vhead` is still 0. -/
theorem scanLoop_total {ln sep : GoString} (hsep : sep ≠ []) (fuel pos : Nat) (isKey : Bool)
    (vhead ls : Nat) (kvArr : List GoString) (hfuel : ln.length < pos + fuel)
    (hpos : pos ≤ ln.length) (hv : vhead ≤ pos) (hl : ls ≤ pos)
    (hinv : kvArr ≠ [] ∨ vhead = 0) :
    ∃ vh out, scanLoop ln sep fuel pos isKey vhead ls kvArr = .ok (vh, out) ∧
      vh ≤ ln.length ∧ (out ≠ [] ∨ vh = 0) := by
  have hsl : 0 < sep.length := List.length_pos.2 hsep
  induction fuel generalizing pos isKey vhead ls kvArr with
  | zero => omega
  | succ fuel ih =>
    by_cases hguard : pos + sep.length ≤ ln.length
    · obtain ⟨r, hr⟩ := spaceStep_total hsep hguard
      rw [scanLoop, if_pos hguard]
      simp only [hr, ok_bind]
      cases r with
      | stop => exact ⟨vhead, kvArr, rfl, by omega, hinv⟩
      | skip =>
        exact ih (pos + 1) isKey vhead pos kvArr (by omega) (by omega) (by omega)
          (by omega) hinv
      | test =>
        have hw : slice ln pos (pos + sep.length) =
            .ok ((ln.take (pos + sep.length)).drop pos) := by
          rw [slice, if_pos ⟨by omega, hguard⟩]
        simp only [hw, ok_bind]
        by_cases heq : (ln.take (pos + sep.length)).drop pos = sep
        · rw [if_pos heq]
          cases isKey with
          | true =>
            simp only [if_true]
            rw [slice, if_pos ⟨hv, by omega⟩]
            simp only [ok_bind]
            exact ih (pos + sep.length) false (pos + sep.length) ls _ (by omega) hguard
              (le_refl _) (by omega) (Or.inl (by simp))
          | false =>
            simp only [Bool.false_eq_true, if_false]
            by_cases hls : ls ≤ vhead
            · rw [if_pos hls]
              exact ih (pos + 1) false vhead ls kvArr (by omega) (by omega) (by omega)
                (by omega) hinv
            · rw [if_neg hls, slice, if_pos ⟨by omega, by omega⟩, slice,
                if_pos ⟨hl, by omega⟩]
              simp only [ok_bind]
              exact ih (pos + sep.length) false (pos + sep.length) ls _ (by omega) hguard
                (le_refl _) (by omega) (Or.inl (by simp))
        · rw [if_neg heq]
          exact ih (pos + 1) isKey vhead ls kvArr (by omega) (by omega) (by omega)
            (by omega) hinv
    · rw [scanLoop, if_neg hguard]
      exact ⟨vhead, kvArr, rfl, by omega, hinv⟩

/-- Lines 278-324 of `splitKV` end in the error of line 280 or in `data` with one more group,
which has at least one token. -/
theorem scanLine_total {ln sep : GoString} (hsep : sep ≠ []) (data : List (List GoString)) :
    scanLine ln sep data = .error .noValue ∨
      ∃ g, g ≠ [] ∧ scanLine ln sep data = .ok (data ++ [g]) := by
  have hsl : 0 < sep.length := List.length_pos.2 hsep
  by_cases hc : Contains (Replace ln [10] [] (-1)) sep = true
  · right
    have hlen : sep.length ≤ (Replace ln [10] [] (-1)).length := by
      obtain ⟨a, b, hab⟩ := (Contains_iff _ _).1 hc
      rw [← hab]
      simp
      omega
    obtain ⟨vh, out, hscan, hvh, hinv⟩ := scanLoop_total hsep
      (2 * (Replace ln [10] [] (-1)).length + 3) 0 true 0 0 []
      (show (Replace ln [10] [] (-1)).length < 0 + _ by omega) (by omega) (le_refl _)
      (le_refl _) (Or.inr rfl)
    by_cases hlt : vh < (Replace ln [10] [] (-1)).length
    · refine ⟨out ++ [TrimSpace ((Replace ln [10] [] (-1)).drop vh)], by simp, ?_⟩
      simp [scanLine, hc, hscan, hlt, sliceFrom, hvh]
    · refine ⟨out, ?_, ?_⟩
      · rcases hinv with h | h
        · exact h
        · omega
      · simp [scanLine, hc, hscan, hlt]
  · left
    simp [scanLine, hc]

/-- Deleting instances of `old` does not make a string longer. -/
theorem replaceAux_length_le (old : GoString) (fuel : Nat) (s : GoString) (n : Option Nat) :
    (replaceAux old [] fuel s n).length ≤ s.length := by
  induction fuel generalizing s n with
  | zero => simp [replaceAux]
  | succ fuel ih =>
    rw [replaceAux]
    split
    · exact le_refl _
    · cases hi : Index s old with
      | none => simp
      | some i =>
        have := ih (s.drop (i + old.length)) (n.map (· - 1))
        simp only [List.append_nil, List.length_append, List.length_take, List.length_drop] at this ⊢
        omega

theorem Replace_length_le (s old : GoString) (n : Int) :
    (Replace s old [] n).length ≤ s.length :=
  replaceAux_length_le old _ s _

/-- A non-empty string has no more instances in `s` than `s` has bytes. -/
theorem countAux_le {sub : GoString} (hsub : sub ≠ []) (fuel : Nat) (s : GoString) :
    countAux sub fuel s ≤ s.length := by
  have hsl : 0 < sub.length := List.length_pos.2 hsub
  induction fuel generalizing s with
  | zero => simp [countAux]
  | succ fuel ih =>
    rw [countAux]
    cases hi : Index s sub with
    | none => simp
    | some i =>
      have hb := (Index_some_spec hi).1
      have := ih (s.drop (i + sub.length))
      simp only [List.length_drop] at this ⊢
      omega

theorem Count_le_length {sub : GoString} (hsub : sub ≠ []) (s : GoString) :
    Count s sub ≤ s.length := by
  simp only [Count, hsub, if_false]
  exact countAux_le hsub _ s

/-- The loop of lines 222-231 ends within its fuel, and the line it leaves is no longer than the
one it started with. -/
theorem joinLoop_total {sep : GoString} (hsep : sep ≠ []) (sepCount B : Nat) (fuel : Nat)
    (ln : GoString) (jointCount j : Nat) (hl : ln.length ≤ B) (hj : jointCount ≤ B)
    (hfuel : B + 2 ≤ j + fuel) (hpos : 0 < fuel) :
    ∃ out, joinLoop sep sepCount fuel ln jointCount j = .ok out ∧ out.length ≤ B := by
  induction fuel generalizing ln jointCount j with
  | zero => omega
  | succ fuel ih =>
    rw [joinLoop]
    by_cases hc : sepCount < jointCount ∧ j ≤ jointCount
    · rw [if_pos hc]
      have hr : (Replace ln [10] [] j).length ≤ B := le_trans (Replace_length_le _ _ _) hl
      have hcnt : Count (Replace ln [10] [] j) sep ≤ B := le_trans (Count_le_length hsep _) hr
      simp only
      split
      · exact ih _ _ _ hr hcnt (by omega) (by omega)
      · exact ih _ _ _ hl hj (by omega) (by omega)
    · rw [if_neg hc]
      exact ⟨ln, rfl, hl⟩

theorem joinSep_total {sep : GoString} (hsep : sep ≠ []) (ln : GoString) :
    ∃ out, joinSep ln sep = .ok out ∧ out.length ≤ ln.length := by
  unfold joinSep
  split
  · exact joinLoop_total hsep _ ln.length _ ln _ 1 (le_refl _)
      (le_trans (Count_le_length hsep _) (Replace_length_le _ _ _)) (by omega) (by omega)
  · exact ⟨ln, rfl, le_refl _⟩

/-- The loop `for nl != -1` ends within its fuel without a slice out of range: it ends in a
line and the groups gathered, or in the error of a recursive call. -/
theorem nlLoop_total (sep : GoString)
    (recur : GoString → Except Fault (List (List GoString))) (B L : Nat)
    (hrec : ∀ next : GoString, next.length < B →
      (∃ r, recur next = .ok r) ∨ recur next = .error .noValue)
    (fuel : Nat) (ln : GoString) (nl : Option Nat) (data : List (List GoString))
    (hB : ln.length ≤ B) (hL : ln.length ≤ L)
    (hnl : ∀ i, nl = some i → i < ln.length ∧ ln.length * (L + 1) + (ln.length - i) < fuel)
    (hpos : 0 < fuel) :
    (∃ out d, nlLoop sep recur fuel ln nl data = .ok (out, d)) ∨
      nlLoop sep recur fuel ln nl data = .error .noValue := by
  induction fuel generalizing ln nl data with
  | zero => omega
  | succ fuel ih =>
    cases nl with
    | none => exact Or.inl ⟨ln, data, rfl⟩
    | some i =>
      obtain ⟨hi, hmu⟩ := hnl i rfl
      rw [nlLoop]
      by_cases hend : ln.length ≤ i + 1
      · rw [if_pos hend]
        exact Or.inl ⟨ln.take (ln.length - 1), data, by
          simp [dropLastByte, show ln.length ≠ 0 by omega, show ln ≠ [] by
            intro h; simp [h] at hi]⟩
      · rw [if_neg hend]
        have hpre : sliceTo ln i = .ok (ln.take i) := by rw [sliceTo, if_pos (by omega)]
        have hpost : sliceFrom ln (i + 1) = .ok (ln.drop (i + 1)) := by
          rw [sliceFrom, if_pos (by omega)]
        simp only [hpre, hpost, ok_bind]
        have hadv : (∃ out d, (match Index (ln.drop (i + 1)) [10] with
              | none => (pure (ln, data) : Except Fault (GoString × List (List GoString)))
              | some n => nlLoop sep recur fuel ln (some (i + 1 + n)) data) = .ok (out, d)) ∨
            (match Index (ln.drop (i + 1)) [10] with
              | none => (pure (ln, data) : Except Fault (GoString × List (List GoString)))
              | some n => nlLoop sep recur fuel ln (some (i + 1 + n)) data) =
                .error .noValue := by
          cases hn : Index (ln.drop (i + 1)) [10] with
          | none => exact Or.inl ⟨ln, data, rfl⟩
          | some n =>
            have hb := (Index_some_spec hn).1
            simp only [List.length_drop, List.length_singleton] at hb
            exact ih ln (some (i + 1 + n)) data hB hL
              (fun k hk => by
                cases hk
                exact ⟨by omega, by omega⟩) (by omega)
        cases hns : Index (ln.drop (i + 1)) sep with
        | none => exact Or.inl ⟨ln, data, rfl⟩
        | some nextSep =>
          have hb := (Index_some_spec hns).1
          simp only [List.length_drop] at hb
          cases hps : LastIndex (ln.take i) sep with
          | none => exact hadv
          | some preSep =>
            have hseg : slice ln (i + 1) (i + 1 + nextSep) =
                .ok ((ln.take (i + 1 + nextSep)).drop (i + 1)) := by
              rw [slice, if_pos ⟨by omega, by omega⟩]
            simp only [hseg, ok_bind]
            cases hsp : LastIndexFunc (TrimSpace ((ln.take (i + 1 + nextSep)).drop (i + 1)))
                IsSpace with
            | some _ => exact hadv
            | none =>
              simp only
              rcases hrec (ln.drop (i + 1)) (by simp only [List.length_drop]; omega) with
                ⟨r, hr⟩ | hr
              · simp only [hr, ok_bind]
                have h1 : (i + 1) * (L + 1) ≤ ln.length * (L + 1) :=
                  Nat.mul_le_mul_right _ (by omega)
                have h2 : (i + 1) * (L + 1) = i * (L + 1) + (L + 1) := Nat.succ_mul _ _
                have hlen : (ln.take i).length = i := by
                  rw [List.length_take]; omega
                exact ih (ln.take i) (Index (ln.take i) [10]) (data ++ r)
                  (by rw [hlen]; omega) (by rw [hlen]; omega)
                  (fun k hk => by
                    have hk2 := (Index_some_spec hk).1
                    simp only [hlen, List.length_singleton] at hk2
                    rw [hlen]
                    exact ⟨by omega, by omega⟩) (by omega)
              · right
                simp only [hr, error_bind]

/-- For a non-empty separator `splitKV` ends without a slice out of range and within the depth
`len(line) + 1`: it returns the error of line 280 or groups, the last one with at least one
token. -/
theorem splitKVFuel_total {sep : GoString} (hsep : sep ≠ []) (fuel : Nat) (ln : GoString)
    (hfuel : ln.length < fuel) :
    (∃ data g, g ≠ [] ∧ splitKVFuel fuel ln sep = .ok (data ++ [g])) ∨
      splitKVFuel fuel ln sep = .error .noValue := by
  induction fuel generalizing ln with
  | zero => omega
  | succ fuel ih =>
    obtain ⟨l2, hj, hl2⟩ := joinSep_total hsep (Replace ln [92, 34] [] (-1))
    have hl1 := Replace_length_le ln [92, 34] (-1)
    have hrec : ∀ next : GoString, next.length < l2.length →
        (∃ r, splitKVFuel fuel next sep = .ok r) ∨
          splitKVFuel fuel next sep = .error .noValue := by
      intro next hn
      rcases ih next (by omega) with ⟨d, g, -, h⟩ | h
      · exact Or.inl ⟨_, h⟩
      · exact Or.inr h
    have hloop := nlLoop_total sep (fun next => splitKVFuel fuel next sep) l2.length l2.length
      hrec ((l2.length + 1) * (l2.length + 1)) l2 (Index l2 [10]) [] (le_refl _) (le_refl _)
      (fun k hk => by
        have hk2 := (Index_some_spec hk).1
        simp only [List.length_singleton] at hk2
        have : (l2.length + 1) * (l2.length + 1) = l2.length * (l2.length + 1) + (l2.length + 1) :=
          Nat.succ_mul _ _
        exact ⟨by omega, by omega⟩)
      (Nat.mul_pos (by omega) (by omega))
    rw [splitKVFuel]
    simp only [hj, ok_bind]
    rcases hloop with ⟨out, d, h⟩ | h
    · simp only [h, ok_bind]
      rcases @scanLine_total out sep hsep d with h2 | ⟨g, hg, h2⟩
      · exact Or.inr h2
      · exact Or.inl ⟨d, g, hg, h2⟩
    · right
      simp only [h, error_bind]

theorem splitKV_total {sep : GoString} (hsep : sep ≠ []) (ln : GoString) :
    (∃ data g, g ≠ [] ∧ splitKV ln sep = .ok (data ++ [g])) ∨
      splitKV ln sep = .error .noValue :=
  splitKVFuel_total hsep _ ln (by omega)

/-- A map is not empty after an assignment. -/
theorem Data_set_ne_nil {F : Type} (d : Data F) (k : GoString) (v : Value F) :
    d.set k v ≠ [] := by
  unfold Data.set
  split
  · rename_i h
    cases d with
    | nil => simp at h
    | cons a d => simp
  · simp

/-- A group that decodes gives a record whose names are not empty, and a record with at least
one field when the group has a token. -/
theorem decodeGroup_names {F : Type} (ParseFloat : GoString → Option F) (keepString : Bool) :
    ∀ (g : List GoString) (field out : Data F),
      decodeGroup ParseFloat keepString g field = .ok out →
      (∀ e ∈ field, e.1 ≠ []) →
      (∀ e ∈ out, e.1 ≠ []) ∧ (g ≠ [] ∨ field ≠ [] → out ≠ [])
  | [], field, out, h, hf => by
    simp only [decodeGroup, Except.ok.injEq] at h
    subst h
    exact ⟨hf, fun hne => hne.resolve_left (fun h => h rfl)⟩
  | [_], field, out, h, hf => by simp [decodeGroup] at h
  | k :: v :: rest, field, out, h, hf => by
    obtain ⟨kv, hkv⟩ := stripQuotes_ok k v
    by_cases he : kv.1 = [] ∨ kv.2 = []
    · simp [decodeGroup, hkv, he] at h
    · simp only [decodeGroup, hkv, ok_bind, List.length_eq_zero, he, if_false] at h
      have hk : kv.1 ≠ [] := fun hk => he (Or.inl hk)
      have := decodeGroup_names ParseFloat keepString rest _ out h (fun e hm => by
        rcases mem_Data_set _ _ _ _ hm with h1 | h1
        · rw [h1]; exact hk
        · exact hf e h1)
      exact ⟨this.1, fun _ => this.2 (Or.inr (Data_set_ne_nil _ _ _))⟩

/-- The groups that decode add records with at least one field and no empty name. -/
theorem decodeGroups_records {F : Type} (ParseFloat : GoString → Option F) (keepString : Bool)
    (pairs : List (List GoString)) (datas out : List (Data F))
    (h : decodeGroups ParseFloat keepString pairs datas = .ok out)
    (hd : ∀ d ∈ datas, d ≠ [] ∧ ∀ e ∈ d, e.1 ≠ []) :
    ∀ d ∈ out, d ≠ [] ∧ ∀ e ∈ d, e.1 ≠ [] := by
  induction pairs generalizing datas with
  | nil =>
    simp only [decodeGroups, Except.ok.injEq] at h
    subst h
    exact hd
  | cons g rest ih =>
    by_cases hodd : g.length % 2 = 1
    · simp [decodeGroups, hodd] at h
    · cases hg : decodeGroup ParseFloat keepString g [] with
      | error e => simp [decodeGroups, hodd, hg] at h
      | ok field =>
        by_cases hz : field.length = 0
        · simp only [decodeGroups, hodd, if_false, hg, ok_bind, hz, if_true] at h
          exact ih datas h hd
        · simp only [decodeGroups, hodd, if_false, hg, ok_bind, hz] at h
          have hn := (decodeGroup_names ParseFloat keepString g [] field hg (by simp)).1
          refine ih _ h (fun d hm => ?_)
          rcases List.mem_append.1 hm with h1 | h1
          · exact hd d h1
          · simp only [List.mem_singleton] at h1
            subst h1
            exact ⟨fun hnil => hz (by simp [hnil]), hn⟩

/-- When the last group has a token and the groups decode, there is a record. -/
theorem decodeGroups_last {F : Type} (ParseFloat : GoString → Option F) (keepString : Bool)
    (pre : List (List GoString)) (g : List GoString) (datas out : List (Data F))
    (hg : g ≠ []) (h : decodeGroups ParseFloat keepString (pre ++ [g]) datas = .ok out) :
    out ≠ [] := by
  induction pre generalizing datas with
  | nil =>
    by_cases hodd : g.length % 2 = 1
    · simp [decodeGroups, hodd] at h
    · cases hd : decodeGroup ParseFloat keepString g [] with
      | error e => simp [decodeGroups, hodd, hd] at h
      | ok field =>
        have hne := (decodeGroup_names ParseFloat keepString g [] field hd (by simp)).2
          (Or.inl hg)
        have hz : ¬ field.length = 0 := fun hz => hne (List.length_eq_zero.1 hz)
        simp only [List.nil_append, decodeGroups, hodd, if_false, hd, ok_bind, hz,
          Except.ok.injEq] at h
        rw [← h]
        simp
  | cons g2 rest ih =>
    by_cases hodd : g2.length % 2 = 1
    · simp [decodeGroups, hodd] at h
    · cases hd : decodeGroup ParseFloat keepString g2 [] with
      | error e => simp [decodeGroups, hodd, hd] at h
      | ok field =>
        by_cases hz : field.length = 0
        · simp only [List.cons_append, decodeGroups, hodd, if_false, hd, ok_bind, hz,
            if_true] at h
          exact ih datas h
        · simp only [List.cons_append, decodeGroups, hodd, if_false, hd, ok_bind, hz] at h
          exact ih _ h

/-- The groups decode, or one of the two errors of `parse` is returned. -/
theorem decodeGroups_total {F : Type} (ParseFloat : GoString → Option F) (keepString : Bool)
    (pairs : List (List GoString)) (datas : List (Data F)) :
    (∃ out, decodeGroups ParseFloat keepString pairs datas = .ok out) ∨
      decodeGroups ParseFloat keepString pairs datas = .error .noValue ∨
      decodeGroups ParseFloat keepString pairs datas = .error .notMatch := by
  induction pairs generalizing datas with
  | nil => exact Or.inl ⟨datas, rfl⟩
  | cons g rest ih =>
    by_cases hodd : g.length % 2 = 1
    · exact Or.inr (Or.inr (by simp [decodeGroups, hodd]))
    · rcases decodeGroup_even ParseFloat keepString (g.length / 2) g [] (by omega) with
        ⟨field, hf⟩ | hf
      · by_cases hz : field.length = 0
        · simp only [decodeGroups, hodd, if_false, hf, ok_bind, hz, if_true]
          exact ih datas
        · simp only [decodeGroups, hodd, if_false, hf, ok_bind, hz]
          exact ih _
      · exact Or.inr (Or.inl (by simp [decodeGroups, hodd, hf]))

/-- C14: for every line, any byte string, and every parser with a non-empty separator,
`splitKV` and `parse` run to completion: `splitKV` returns groups or the error of line 280, and
`parse` returns records or one of its two errors. No slice or index expression they evaluate is
out of range (the model would end in `outOfRange`), and no loop or recursion goes beyond the
bound the model gives it (`outOfFuel`). -/
theorem C14_no_out_of_range {F : Type} (ParseFloat : GoString → Option F) (p : Parser)
    (line : GoString) (hsep : p.splitter ≠ []) :
    ((∃ groups, splitKV line p.splitter = .ok groups) ∨
      splitKV line p.splitter = .error .noValue) ∧
    ((∃ datas, parse ParseFloat p line = .ok datas) ∨
      parse ParseFloat p line = .error .noValue ∨
      parse ParseFloat p line = .error .notMatch) ∧
    splitKV line p.splitter ≠ .error .outOfRange ∧
    splitKV line p.splitter ≠ .error .outOfFuel ∧
    parse ParseFloat p line ≠ .error .outOfRange ∧
    parse ParseFloat p line ≠ .error .outOfFuel := by
  have hs : (∃ groups, splitKV line p.splitter = .ok groups) ∨
      splitKV line p.splitter = .error .noValue := by
    rcases splitKV_total hsep line with ⟨d, g, -, h⟩ | h
    · exact Or.inl ⟨_, h⟩
    · exact Or.inr h
  have hp : (∃ datas, parse ParseFloat p line = .ok datas) ∨
      parse ParseFloat p line = .error .noValue ∨
      parse ParseFloat p line = .error .notMatch := by
    rcases hs with ⟨groups, h⟩ | h
    · rcases decodeGroups_total ParseFloat p.keepString groups [] with ⟨out, ho⟩ | ho | ho
      · exact Or.inl ⟨out.reverse, by simp [parse, h, ho, swapLoop_reverse]⟩
      · exact Or.inr (Or.inl (by simp [parse, h, ho]))
      · exact Or.inr (Or.inr (by simp [parse, h, ho]))
    · exact Or.inr (Or.inl (by simp [parse, h]))
  refine ⟨hs, hp, ?_, ?_, ?_, ?_⟩
  · rcases hs with ⟨g, h⟩ | h <;> simp [h]
  · rcases hs with ⟨g, h⟩ | h <;> simp [h]
  · rcases hp with ⟨g, h⟩ | h | h <;> simp [h]
  · rcases hp with ⟨g, h⟩ | h | h <;> simp [h]

/-- C14, witness: a line with an open quote, an escaped quote, stray separators and line
breaks. -/
theorem C14_no_out_of_range_witness :
    ((∃ groups, splitKV (go "\"a==\n =\\\" b\n\n=") coercingParser.splitter = .ok groups) ∨
      splitKV (go "\"a==\n =\\\" b\n\n=") coercingParser.splitter = .error .noValue) ∧
    ((∃ datas, parse decimalFloat coercingParser (go "\"a==\n =\\\" b\n\n=") = .ok datas) ∨
      parse decimalFloat coercingParser (go "\"a==\n =\\\" b\n\n=") = .error .noValue ∨
      parse decimalFloat coercingParser (go "\"a==\n =\\\" b\n\n=") = .error .notMatch) ∧
    splitKV (go "\"a==\n =\\\" b\n\n=") coercingParser.splitter ≠ .error .outOfRange ∧
    splitKV (go "\"a==\n =\\\" b\n\n=") coercingParser.splitter ≠ .error .outOfFuel ∧
    parse decimalFloat coercingParser (go "\"a==\n =\\\" b\n\n=") ≠ .error .outOfRange ∧
    parse decimalFloat coercingParser (go "\"a==\n =\\\" b\n\n=") ≠ .error .outOfFuel :=
  C14_no_out_of_range decimalFloat coercingParser (go "\"a==\n =\\\" b\n\n=") (by decide)

/-- C19: for every line and every parser with a non-empty separator, when `parse` succeeds it
returns at least one record, every record has at least one field and no field name is empty;
so for a result with that line's records and no error, the loop of `Parse` takes the success
branch (the records are appended and `AddSuccess` is called), not the branch 'parsed no data by
line'. -/
theorem C19_parse_gives_records {F : Type} (ParseFloat : GoString → Option F) (p : Parser)
    (line : GoString) (datas : List (Data F)) (hsep : p.splitter ≠ [])
    (h : parse ParseFloat p line = .ok datas) :
    datas ≠ [] ∧ (∀ d ∈ datas, d ≠ [] ∧ ∀ e ∈ d, e.1 ≠ []) ∧
    ∀ (keys : Keys) (st : LoopState F) (r : ParseResult F),
      r.Line ≠ [] → r.Err = none → r.Datas = datas →
      classify keys p st r = .ok { st with
        se := st.se.AddSuccess
        datas := st.datas ++
          (if p.keepRawData then datas.map (fun d => d.set keys.KeyRawData (.str r.Line))
           else datas) } := by
  cases hs : splitKV line p.splitter with
  | error e => simp [parse, hs] at h
  | ok pairs =>
    cases hd : decodeGroups ParseFloat p.keepString pairs [] with
    | error e => simp [parse, hs, hd] at h
    | ok out =>
      simp only [parse, hs, ok_bind, hd, swapLoop_reverse, Except.ok.injEq] at h
      have hne : out ≠ [] := by
        rcases splitKV_total hsep line with ⟨d, g, hg, h2⟩ | h2
        · rw [hs, Except.ok.injEq] at h2
          rw [h2] at hd
          exact decodeGroups_last ParseFloat p.keepString d g [] out hg hd
        · rw [hs] at h2
          cases h2
      have hrec := decodeGroups_records ParseFloat p.keepString pairs [] out hd (by simp)
      have hdn : datas ≠ [] := by
        rw [← h]
        simpa using hne
      refine ⟨hdn, ?_, ?_⟩
      · intro d hm
        rw [← h] at hm
        exact hrec d (List.mem_reverse.1 hm)
      · intro keys st r hl he hdat
        have hl2 : ¬ r.Line.length = 0 := fun hz => hl (List.length_eq_zero.1 hz)
        have hd2 : ¬ datas.length = 0 := fun hz => hdn (List.length_eq_zero.1 hz)
        simp only [classify, hl2, if_false, he, hdat, hd2]

/-- C19, witness: the line "a=1 b=2" gives one record with the fields a and b. -/
theorem C19_parse_gives_records_witness :
    parse decimalFloat coercingParser (go "a=1 b=2") =
      .ok [[(go "a", .float 1), (go "b", .float 2)]] ∧
    ([[(go "a", Value.float 1), (go "b", .float 2)]] ≠ [] ∧
    (∀ d ∈ [[(go "a", Value.float 1), (go "b", .float 2)]], d ≠ [] ∧ ∀ e ∈ d, e.1 ≠ []) ∧
    ∀ (keys : Keys) (st : LoopState Nat) (r : ParseResult Nat),
      r.Line ≠ [] → r.Err = none →
      r.Datas = [[(go "a", Value.float 1), (go "b", .float 2)]] →
      classify keys coercingParser st r = .ok { st with
        se := st.se.AddSuccess
        datas := st.datas ++
          (if coercingParser.keepRawData then
            ([[(go "a", Value.float 1), (go "b", .float 2)]] : List (Data Nat)).map
              (fun d => d.set keys.KeyRawData (.str r.Line))
           else [[(go "a", Value.float 1), (go "b", .float 2)]]) }) :=
  ⟨by decide, C19_parse_gives_records decimalFloat coercingParser (go "a=1 b=2") _ (by decide)
    (by decide)⟩

/-- The first rune of a prefix of `s` is the first rune of `s`, unless the prefix cuts it, and
then it is `RuneError`. -/
theorem DecodeRune_take (s : GoString) (n : Nat) :
    (DecodeRuneInString (s.take n)).1 = RuneError ∨
      DecodeRuneInString (s.take n) = DecodeRuneInString s := by
  rcases s with _ | ⟨s0, rest⟩
  · right; simp
  rcases n with _ | n
  · left; rfl
  by_cases h0 : s0 < 0x80
  · right; simp [DecodeRuneInString, h0]
  by_cases h1 : s0 < 0xC2 ∨ 0xF4 < s0
  · left; simp [DecodeRuneInString, h0, h1]
  rcases rest with _ | ⟨s1, r1⟩
  · right; simp
  rcases n with _ | n
  · left
    simp only [List.take_succ_cons, List.take_zero]
    rw [DecodeRune_single s0 (by omega)]
  by_cases hacc : s1 < (if s0 = 0xE0 then 0xA0 else if s0 = 0xF0 then 0x90 else 0x80) ∨
      (if s0 = 0xED then 0x9F else if s0 = 0xF4 then 0x8F else 0xBF) < s1
  · left
    simp only [List.take_succ_cons, DecodeRuneInString, h0, h1, hacc, if_false, if_true]
    split_ifs <;> rfl
  by_cases hsz2 : s0 < 0xE0
  · right
    simp [DecodeRuneInString, h0, h1, hacc, hsz2]
    split_ifs <;> first | rfl | omega
  rcases r1 with _ | ⟨s2, r2⟩
  · right; simp
  rcases n with _ | n
  · left
    simp [DecodeRuneInString, h0, h1, hsz2]
    split_ifs <;> first | rfl | omega
  by_cases hc2 : isCont s2 = true
  swap
  · left
    simp only [List.take_succ_cons, DecodeRuneInString, h0, h1, hacc, hsz2, hc2, if_false]
    split_ifs <;> first | rfl | (simp at *)
  by_cases hsz3 : s0 < 0xF0
  · right
    simp [DecodeRuneInString, h0, h1, hacc, hsz2, hsz3, hc2]
    split_ifs <;> first | rfl | omega
  rcases r2 with _ | ⟨s3, r3⟩
  · right; simp
  rcases n with _ | n
  · left
    simp [DecodeRuneInString, h0, h1, hsz2, hsz3]
  right
  simp [DecodeRuneInString, h0, h1, hacc, hsz2, hsz3, hc2]
  split_ifs <;> first | rfl | omega

/-- A text without white space has no rune that is a space when it is read from its end, as
`strings.LastIndexFunc` reads it. -/
theorem lastIndexFuncAux_NoSpace {t : GoString} (h : NoSpace t) (fuel i : Nat)
    (hi : i ≤ t.length) : lastIndexFuncAux t IsSpace true fuel i = none := by
  induction fuel generalizing i with
  | zero => rfl
  | succ fuel ih =>
    rw [lastIndexFuncAux]
    by_cases hpos : 0 < i
    · rw [if_pos hpos]
      have hne : t.take i ≠ [] := by
        intro hnil
        have := congrArg List.length hnil
        simp only [List.length_take, List.length_nil] at this
        omega
      have hlen : (t.take i).length = i := by rw [List.length_take]; omega
      have hsp : IsSpace (DecodeLastRuneInString (t.take i)).1 = false := by
        rcases DecodeLastRune_cases (t.take i) hne with ⟨hlt, heq⟩ | ⟨-, heq⟩ |
          ⟨-, start, hst, heq, -⟩
        · rw [heq]
          have hmem : (t.take i).getD ((t.take i).length - 1) 0 ∈ t :=
            List.mem_of_mem_take (getD_mem _ _ (by rw [hlen]; omega))
          exact NoSpace_byte h hmem (by simpa [RuneSelf] using hlt)
        · rw [heq]; exact IsSpace_RuneError
        · rw [heq, hlen] at *
          rw [List.drop_take]
          rcases DecodeRune_take (t.drop start) (i - start) with he | he
          · rw [he]; exact IsSpace_RuneError
          · rw [he]; exact NoSpace_decode h start (by omega)
      simp only [hsp, Bool.false_eq_true, if_false]
      exact ih _ (by omega)
    · rw [if_neg hpos]

theorem LastIndexFunc_NoSpace {t : GoString} (h : NoSpace t) :
    LastIndexFunc t IsSpace = none :=
  lastIndexFuncAux_NoSpace h _ _ (le_refl _)

/-- Where the text has an instance of `sub`, `strings.LastIndex` finds one. -/
theorem LastIndex_isSome {s sub : GoString} {i : Nat} (h : Index s sub = some i) :
    ∃ j, LastIndex s sub = some j := by
  induction s generalizing i with
  | nil =>
    by_cases hs : sub = []
    · exact ⟨0, by simp [LastIndex, hs]⟩
    · simp [Index, hs] at h
  | cons c s ih =>
    rw [LastIndex]
    cases hl : LastIndex s sub with
    | some j => exact ⟨j + 1, rfl⟩
    | none =>
      by_cases hp : HasPrefix (c :: s) sub = true
      · exact ⟨0, by simp [hp]⟩
      · rw [Index, if_neg hp] at h
        cases hi : Index s sub with
        | none => simp [hi] at h
        | some k =>
          obtain ⟨j, hj⟩ := ih hi
          rw [hl] at hj
          cases hj

theorem segLine_single (kv : GoString × GoString) : segLine [kv] = kv.1 ++ 61 :: kv.2 := by
  simp [segLine, List.intercalate]

theorem segLine_cons (kv kv2 : GoString × GoString) (rest : List (GoString × GoString)) :
    segLine (kv :: kv2 :: rest) = (kv.1 ++ 61 :: kv.2) ++ 10 :: segLine (kv2 :: rest) := by
  simp [segLine, List.intercalate]

/-- The line of one or more segments starts with the first key and an "=". -/
theorem segLine_head (kv : GoString × GoString) (rest : List (GoString × GoString)) :
    ∃ tail, segLine (kv :: rest) = kv.1 ++ 61 :: tail := by
  cases rest with
  | nil => exact ⟨kv.2, segLine_single kv⟩
  | cons kv2 rest => exact ⟨kv.2 ++ 10 :: segLine (kv2 :: rest), by simp [segLine_cons]⟩

/-- A byte that is in no token and is neither "=" nor a line break is not in the line. -/
theorem not_mem_segLine (c : Nat) (hc61 : c ≠ 61) (hc10 : c ≠ 10)
    (segs : List (GoString × GoString)) (h : ∀ kv ∈ segs, c ∉ kv.1 ∧ c ∉ kv.2) :
    c ∉ segLine segs := by
  induction segs with
  | nil => simp [segLine, List.intercalate]
  | cons kv rest ih =>
    have hk := h kv (List.mem_cons_self _ _)
    cases rest with
    | nil => simp [segLine_single, hk.1, hk.2, hc61]
    | cons kv2 rest =>
      have := ih (fun x hx => h x (List.mem_cons_of_mem _ hx))
      simp [segLine_cons, hk.1, hk.2, hc61, hc10, this]

/-- With the separator "=", on a line without a backslash, `splitKV` starts the loop over the
line breaks on the line itself. -/
theorem splitKVFuel_plain (fuel : Nat) (ln : GoString) (h92 : 92 ∉ ln) :
    splitKVFuel (fuel + 1) ln [61] =
      (nlLoop [61] (fun next => splitKVFuel fuel next [61])
        ((ln.length + 1) * (ln.length + 1)) ln (Index ln [10]) []).bind
        (fun r => scanLine r.1 [61] r.2) := by
  simp only [splitKVFuel, Replace_escaped_quotes h92, joinSep, List.length_singleton,
    gt_iff_lt, lt_self_iff_false, if_false, ok_bind]
  rfl

/-- The line break between a segment `k=v` and the text `k2=...` after it: the text after the
break is split off, its groups are put in `data`, and the loop ends with the segment. -/
theorem nlLoop_split (recur : GoString → Except Fault (List (List GoString)))
    (fuel : Nat) (k v k2 tail : GoString) (groups : List (List GoString))
    (hk : 61 ∉ k) (hk10 : 10 ∉ k) (hv10 : 10 ∉ v) (hk2 : 61 ∉ k2) (hs2 : NoSpace k2)
    (hrec : recur (k2 ++ 61 :: tail) = .ok groups) :
    nlLoop [61] recur (fuel + 2) ((k ++ 61 :: v) ++ 10 :: (k2 ++ 61 :: tail))
      (Index ((k ++ 61 :: v) ++ 10 :: (k2 ++ 61 :: tail)) [10]) [] =
      .ok (k ++ 61 :: v, groups) := by
  have hP10 : 10 ∉ k ++ 61 :: v := by simp [hk10, hv10]
  have hnl : Index ((k ++ 61 :: v) ++ 10 :: (k2 ++ 61 :: tail)) [10] =
      some (k ++ 61 :: v).length := Index_byte_append _ hP10
  have hlen : ((k ++ 61 :: v) ++ 10 :: (k2 ++ 61 :: tail)).length =
      (k ++ 61 :: v).length + 1 + (k2.length + 1 + tail.length) := by
    simp; omega
  have htake : ((k ++ 61 :: v) ++ 10 :: (k2 ++ 61 :: tail)).take (k ++ 61 :: v).length =
      k ++ 61 :: v := List.take_left' rfl
  have hdrop : ((k ++ 61 :: v) ++ 10 :: (k2 ++ 61 :: tail)).drop ((k ++ 61 :: v).length + 1) =
      k2 ++ 61 :: tail := by
    have : (k ++ 61 :: v) ++ 10 :: (k2 ++ 61 :: tail) =
        ((k ++ 61 :: v) ++ [10]) ++ (k2 ++ 61 :: tail) := by simp
    rw [this]
    exact List.drop_left' (by simp; omega)
  have hpre : sliceTo ((k ++ 61 :: v) ++ 10 :: (k2 ++ 61 :: tail)) (k ++ 61 :: v).length =
      .ok (k ++ 61 :: v) := by
    rw [sliceTo, if_pos (by rw [hlen]; omega), htake]
  have hpost : sliceFrom ((k ++ 61 :: v) ++ 10 :: (k2 ++ 61 :: tail))
      ((k ++ 61 :: v).length + 1) = .ok (k2 ++ 61 :: tail) := by
    rw [sliceFrom, if_pos (by rw [hlen]; omega), hdrop]
  have hnext : Index (k2 ++ 61 :: tail) [61] = some k2.length := Index_byte_append _ hk2
  obtain ⟨j, hj⟩ := LastIndex_isSome (Index_byte_append (c := 61) v hk)
  have hseg : slice ((k ++ 61 :: v) ++ 10 :: (k2 ++ 61 :: tail)) ((k ++ 61 :: v).length + 1)
      ((k ++ 61 :: v).length + 1 + k2.length) = .ok k2 := by
    rw [slice, if_pos ⟨by omega, by rw [hlen]; omega⟩]
    have e : (k ++ 61 :: v) ++ 10 :: (k2 ++ 61 :: tail) =
        ((k ++ 61 :: v) ++ [10]) ++ k2 ++ (61 :: tail) := by simp
    have e2 : (k ++ 61 :: v).length + 1 = ((k ++ 61 :: v) ++ [10]).length := by simp; omega
    rw [e, e2, take_drop_mid]
  have hP : Index (k ++ 61 :: v) [10] = none :=
    Index_none_of_not_mem (by simp : 10 ∈ [10]) hP10
  rw [hnl, nlLoop, if_neg (by rw [hlen]; omega)]
  simp only [hpre, hpost, ok_bind, hnext, hj, hseg, TrimSpace_NoSpace hs2,
    LastIndexFunc_NoSpace hs2, hrec, List.nil_append, hP, nlLoop]

/-- The groups of the line of segments, for every depth bound above the length of the line. -/
theorem splitKVFuel_segments (segs : List (GoString × GoString)) (hne : segs ≠ [])
    (hplain : ∀ kv ∈ segs, PlainToken kv.1 ∧ PlainToken kv.2) (fuel : Nat)
    (hfuel : (segLine segs).length < fuel) :
    splitKVFuel fuel (segLine segs) [61] = .ok (segs.reverse.map (fun kv => [kv.1, kv.2])) := by
  induction segs generalizing fuel with
  | nil => exact absurd rfl hne
  | cons kv rest ih =>
    obtain ⟨⟨hkne, hks, hk61, -, hk92⟩, ⟨hvne, hvs, hv61, -, hv92⟩⟩ :=
      hplain kv (List.mem_cons_self _ _)
    have h92 : 92 ∉ segLine (kv :: rest) :=
      not_mem_segLine 92 (by decide) (by decide) _ (fun x hx =>
        ⟨(hplain x hx).1.2.2.2.2, (hplain x hx).2.2.2.2.2⟩)
    obtain ⟨f, rfl⟩ : ∃ f, fuel = f + 1 := ⟨fuel - 1, by omega⟩
    have hscan : ∀ data, scanLine (kv.1 ++ 61 :: kv.2) [61] data =
        .ok (data ++ [[kv.1, kv.2]]) := by
      intro data
      rw [scanLine_key_rest kv.1 kv.2 data hk61 hv61 (NoSpace_newline hks)
        (NoSpace_newline hvs), if_neg hvne, TrimSpace_NoSpace hks, TrimSpace_NoSpace hvs]
    rw [splitKVFuel_plain f _ h92]
    cases rest with
    | nil =>
      have h10 : 10 ∉ kv.1 ++ 61 :: kv.2 := by
        simp [NoSpace_newline hks, NoSpace_newline hvs]
      have hnl : Index (kv.1 ++ 61 :: kv.2) [10] = none :=
        Index_none_of_not_mem (by simp : 10 ∈ [10]) h10
      obtain ⟨n, hn⟩ : ∃ n, ((kv.1 ++ 61 :: kv.2).length + 1) *
          ((kv.1 ++ 61 :: kv.2).length + 1) = n + 1 :=
        ⟨_, (Nat.succ_pred_eq_of_pos (Nat.mul_pos (by omega) (by omega))).symm⟩
      rw [segLine_single, hnl, hn, nlLoop]
      simp only [Except.bind, hscan]
      simp
    | cons kv2 rest =>
      obtain ⟨tail, htail⟩ := segLine_head kv2 rest
      obtain ⟨⟨-, hk2s, hk261, -, -⟩, -⟩ :=
        hplain kv2 (List.mem_cons_of_mem _ (List.mem_cons_self _ _))
      have hlen : (segLine (kv :: kv2 :: rest)).length =
          (kv.1 ++ 61 :: kv.2).length + 1 + (segLine (kv2 :: rest)).length := by
        rw [segLine_cons]; simp; omega
      have hrec := ih (by simp) (fun x hx => hplain x (List.mem_cons_of_mem _ hx)) f
        (by rw [hlen] at hfuel; omega)
      obtain ⟨n, hn⟩ : ∃ n, ((segLine (kv :: kv2 :: rest)).length + 1) *
          ((segLine (kv :: kv2 :: rest)).length + 1) = n + 2 := by
        have h1 : 2 ≤ (segLine (kv :: kv2 :: rest)).length + 1 := by rw [hlen]; omega
        have := Nat.mul_le_mul h1 h1
        exact ⟨_, (Nat.sub_add_cancel (by omega)).symm⟩
      rw [hn, segLine_cons, htail]
      rw [htail] at hrec
      rw [nlLoop_split _ n kv.1 kv.2 kv2.1 tail _ hk61 (NoSpace_newline hks)
        (NoSpace_newline hvs) hk261 hk2s hrec]
      simp only [Except.bind, hscan]
      simp

/-- C18: for every n >= 1 and every line made of n segments "k1=v1", ..., "kn=vn" joined by
single line breaks, where all keys and values are non-empty and hold no white space, "=",
double quote or backslash, `splitKV` with separator "=" returns exactly n groups in reverse
segment order, `[kn, vn], ..., [k2, v2], [k1, v1]`; no segment is dropped. -/
theorem C18_segments_reversed (segs : List (GoString × GoString)) (hne : segs ≠ [])
    (hplain : ∀ kv ∈ segs, PlainToken kv.1 ∧ PlainToken kv.2) :
    splitKV (segLine segs) [61] = .ok (segs.reverse.map (fun kv => [kv.1, kv.2])) ∧
    (segs.reverse.map (fun kv => [kv.1, kv.2])).length = segs.length :=
  ⟨splitKVFuel_segments segs hne hplain _ (by omega), by simp⟩

/-- C18, witness: the line "a=1\n你=好\nc=x" gives the groups `[c, x]`, `[你, 好]`, `[a, 1]`. -/
theorem C18_segments_reversed_witness :
    segLine [(go "a", go "1"), (go "你", go "好"), (go "c", go "x")] = go "a=1\n你=好\nc=x" ∧
    splitKV (segLine [(go "a", go "1"), (go "你", go "好"), (go "c", go "x")]) [61] =
      .ok ([(go "a", go "1"), (go "你", go "好"), (go "c", go "x")].reverse.map
        (fun kv => [kv.1, kv.2])) ∧
    ([(go "a", go "1"), (go "你", go "好"), (go "c", go "x")].reverse.map
      (fun kv => [kv.1, kv.2])).length =
      [(go "a", go "1"), (go "你", go "好"), (go "c", go "x")].length :=
  ⟨by decide, C18_segments_reversed [(go "a", go "1"), (go "你", go "好"), (go "c", go "x")]
    (by decide) (by decide)⟩

/-- For a non-empty separator `parse` returns records or one of its two errors. -/
theorem parse_outcome {F : Type} (ParseFloat : GoString → Option F) (p : Parser)
    (ln : GoString) (hsep : p.splitter ≠ []) :
    (∃ datas, parse ParseFloat p ln = .ok datas) ∨
      parse ParseFloat p ln = .error .noValue ∨
      parse ParseFloat p ln = .error .notMatch := by
  rcases splitKV_total hsep ln with ⟨d, g, -, h⟩ | h
  · rcases decodeGroups_total ParseFloat p.keepString (d ++ [g]) [] with ⟨out, ho⟩ | ho | ho
    · exact Or.inl ⟨out.reverse, by simp [parse, h, ho, swapLoop_reverse]⟩
    · exact Or.inr (Or.inl (by simp [parse, h, ho]))
    · exact Or.inr (Or.inr (by simp [parse, h, ho]))
  · exact Or.inr (Or.inl (by simp [parse, h]))

theorem ready_splitter (p : Parser) : p.ready.splitter ≠ [] := by
  unfold Parser.ready
  split
  · show go "=" ≠ []
    decide
  · assumption

theorem ready_flags (p : Parser) :
    p.ready.disableRecordErrData = p.disableRecordErrData ∧
      p.ready.keepRawData = p.keepRawData ∧ p.ready.keepString = p.keepString := by
  unfold Parser.ready
  split <;> simp

/-- With a non-empty separator the worker sends back an outcome for every unit: it carries the
unit's index and the trimmed line. -/
theorem worker_ok {F : Type} (ParseFloat : GoString → Option F) (p : Parser)
    (hsep : p.splitter ≠ []) (ln : GoString) (index : Nat) :
    ∃ r, ParseLineDataSlice ParseFloat p ln index = .ok r ∧ r.Index = index ∧
      r.Line = TrimSpace ln := by
  unfold ParseLineDataSlice
  by_cases hz : (TrimSpace ln).length = 0
  · exact ⟨⟨TrimSpace ln, index, [], none⟩, by simp only [hz, if_true], rfl, rfl⟩
  · simp only [hz, if_false]
    rcases parse_outcome ParseFloat p (TrimSpace ln) hsep with ⟨datas, h⟩ | h | h
    · exact ⟨_, by rw [h], rfl, rfl⟩
    · exact ⟨_, by rw [h]; rfl, rfl, rfl⟩
    · exact ⟨_, by rw [h]; rfl, rfl, rfl⟩

/-- The outcome of a line that is not empty after trimming and whose parse fails: the trimmed
line and the error, no record. -/
theorem worker_failed {F : Type} (ParseFloat : GoString → Option F) (p : Parser)
    (hsep : p.splitter ≠ []) (ln : GoString) (index : Nat) (e : Fault)
    (hline : TrimSpace ln ≠ []) (hfail : parse ParseFloat p (TrimSpace ln) = .error e) :
    ∃ msg, ParseLineDataSlice ParseFloat p ln index =
      .ok ⟨TrimSpace ln, index, [], some msg⟩ := by
  have hz : ¬ (TrimSpace ln).length = 0 := fun h => hline (List.length_eq_zero.1 h)
  unfold ParseLineDataSlice
  simp only [hz, if_false, hfail]
  rcases parse_outcome ParseFloat p (TrimSpace ln) hsep with ⟨datas, h⟩ | h | h
  · rw [hfail] at h; cases h
  · rw [hfail] at h; cases h; exact ⟨_, rfl⟩
  · rw [hfail] at h; cases h; exact ⟨_, rfl⟩

/-- The workers send back one outcome per line, with the indices in order. -/
theorem workFrom_ok {F : Type} (ParseFloat : GoString → Option F) (p : Parser)
    (hsep : p.splitter ≠ []) (lines : List GoString) (index : Nat) :
    ∃ outs, workFrom ParseFloat p index lines = .ok outs ∧ outs.length = lines.length ∧
      outs.map (fun r => r.Index) = List.range' index lines.length := by
  induction lines generalizing index with
  | nil => exact ⟨[], rfl, rfl, rfl⟩
  | cons ln rest ih =>
    obtain ⟨r, hr, hri, -⟩ := worker_ok ParseFloat p hsep ln index
    obtain ⟨rs, hrs, hlen, hmap⟩ := ih (index + 1)
    refine ⟨r :: rs, by simp only [workFrom, hr, hrs], by simp [hlen], ?_⟩
    simp [hri, hmap, List.range'_succ]

theorem workFrom_append {F : Type} (ParseFloat : GoString → Option F) (p : Parser)
    (a b : List GoString) (index : Nat) (outsA outsB : List (ParseResult F))
    (ha : workFrom ParseFloat p index a = .ok outsA)
    (hb : workFrom ParseFloat p (index + a.length) b = .ok outsB) :
    workFrom ParseFloat p index (a ++ b) = .ok (outsA ++ outsB) := by
  induction a generalizing index outsA with
  | nil =>
    simp only [workFrom, Except.ok.injEq] at ha
    subst ha
    simpa using hb
  | cons ln rest ih =>
    simp only [workFrom] at ha
    cases hr : ParseLineDataSlice ParseFloat p ln index with
    | error e => simp [hr] at ha
    | ok r =>
      cases hrs : workFrom ParseFloat p (index + 1) rest with
      | error e => simp [hr, hrs] at ha
      | ok rs =>
        simp only [hr, hrs, Except.ok.injEq] at ha
        subst ha
        have := ih (index + 1) rs hrs (by
          rw [show index + 1 + rest.length = index + (ln :: rest).length by simp; omega]
          exact hb)
        simp only [List.cons_append, workFrom, hr, List.append_eq, this]

/-- Two lists with the same elements and the same sequence of indices, all different, are the
same list. -/
theorem eq_of_perm_of_map {α β : Type} (f : α → β) (l1 l2 : List α) (hp : l1.Perm l2)
    (hm : l1.map f = l2.map f) (hnd : (l2.map f).Nodup) : l1 = l2 := by
  induction l1 generalizing l2 with
  | nil => exact (List.Perm.nil_eq hp)
  | cons a l1 ih =>
    cases l2 with
    | nil => exact absurd hp.symm (List.Perm.nil_eq · |> fun h => by cases h)
    | cons b l2 =>
      simp only [List.map_cons, List.cons.injEq] at hm
      simp only [List.map_cons, List.nodup_cons] at hnd
      have hab : a = b := by
        have hmem : a ∈ b :: l2 := hp.mem_iff.1 (List.mem_cons_self _ _)
        rcases List.mem_cons.1 hmem with h | h
        · exact h
        · exact absurd (hm.1 ▸ List.mem_map_of_mem f h) hnd.1
      subst hab
      rw [ih l2 (List.Perm.cons_inv hp) hm.2 hnd.2]

/-- The batch, classified, with the counters: the slice of outcomes in index order, the final
state of the loop, and what `Parse` returns. -/
theorem batch_counts {F : Type} (keys : Keys) (p : Parser) (lines : List GoString)
    (outcomes arrivals : List (ParseResult F))
    (hidx : (outcomes.map (fun r => r.Index)).Perm (List.range outcomes.length))
    (hperm : arrivals.Perm outcomes) (hlen : lines.length = outcomes.length) :
    ∃ sl st,
      collect arrivals (List.replicate lines.length ParseResult.zero) = .ok sl ∧
      sl.map (fun r => r.Index) = List.range outcomes.length ∧
      sl.Perm outcomes ∧
      classifyAll keys p sl (LoopState.init lines.length) = .ok st ∧
      st.datas = (sl.map (specRecords keys p)).flatten ∧
      st.se.Errors = sl.countP specError ∧
      st.se.Success = sl.countP specSuccess ∧
      st.se.DatasourceSkipIndex.take st.datasourceIndex =
        (sl.filter (specSkip p)).map (fun r => r.Index) ∧
      Parse keys p lines arrivals = .ok (st.datas,
        if st.se.Errors = 0 ∧ (st.se.DatasourceSkipIndex.take st.datasourceIndex).length = 0
        then none
        else some { st.se with
          DatasourceSkipIndex := st.se.DatasourceSkipIndex.take st.datasourceIndex }) := by
  obtain ⟨sl, hsl, hlen2, hmap, hp⟩ := slice_of_outcomes outcomes arrivals hidx hperm
  rw [← hlen] at hsl
  obtain ⟨st, hst, hd, he, hs, hi, hl, ht⟩ := classifyAll_spec keys p sl
    (LoopState.init lines.length) (by simp [LoopState.init, hlen2, hlen])
  have hroom : st.datasourceIndex ≤ st.se.DatasourceSkipIndex.length := by
    rw [hi, hl]
    have := List.countP_le_length (specSkip p) (l := sl)
    simp [LoopState.init] at this ⊢
    omega
  refine ⟨sl, st, hsl, hmap, hp, hst, ?_, ?_, ?_, ?_,
    Parse_of_loop keys p lines arrivals sl st hsl hst hroom⟩
  · rw [hd]; simp [LoopState.init]
  · rw [he]; simp [LoopState.init]
  · rw [hs]; simp [LoopState.init]
  · rw [ht]; simp [LoopState.init]

/-- C20: for every batch of `N` lines whose outcomes carry the distinct indices `0..N-1`,
received in any order, and every configuration: after `Parse` has classified all outcomes
the success counter is the number of outcomes with a non-empty line, no error and a record,
the error counter is the number of outcomes with a non-empty line and an error or no record,
and `successCount + errorCount + (number of outcomes whose resolved line is empty) = N`; the
number of skip indices is the number of outcomes with an empty line plus the number of failed
outcomes whose record was suppressed (stash-on-error and raw retention both disabled). The
counters and the skip indices of the `StatsError` that `Parse` returns are these, and when
`Parse` returns no error there is no error and no skip. -/
theorem C20_every_line_counted_once {F : Type} (keys : Keys) (p : Parser)
    (lines : List GoString) (outcomes arrivals : List (ParseResult F))
    (hidx : (outcomes.map (fun r => r.Index)).Perm (List.range outcomes.length))
    (hperm : arrivals.Perm outcomes) (hlen : lines.length = outcomes.length) :
    ∃ sl st datas err,
      collect arrivals (List.replicate lines.length ParseResult.zero) = .ok sl ∧
      classifyAll keys p sl (LoopState.init lines.length) = .ok st ∧
      Parse keys p lines arrivals = .ok (datas, err) ∧
      st.se.Success = outcomes.countP specSuccess ∧
      st.se.Errors = outcomes.countP specError ∧
      st.se.Success + st.se.Errors + outcomes.countP (fun r => decide (r.Line = [])) =
        lines.length ∧
      (st.se.DatasourceSkipIndex.take st.datasourceIndex).length =
        outcomes.countP (fun r => decide (r.Line = [])) +
        outcomes.countP (fun r => decide (r.Line ≠ []) && r.Err.isSome &&
          p.disableRecordErrData && !p.keepRawData) ∧
      (∀ se, err = some se → se.Success = st.se.Success ∧ se.Errors = st.se.Errors ∧
        se.DatasourceSkipIndex = st.se.DatasourceSkipIndex.take st.datasourceIndex) ∧
      (err = none → st.se.Errors = 0 ∧ st.se.Success = lines.length ∧
        st.se.DatasourceSkipIndex.take st.datasourceIndex = []) := by
  obtain ⟨sl, st, hsl, -, hp, hst, -, he, hs, ht, hparse⟩ :=
    batch_counts keys p lines outcomes arrivals hidx hperm hlen
  have hS : st.se.Success = outcomes.countP specSuccess := by rw [hs, hp.countP_eq]
  have hE : st.se.Errors = outcomes.countP specError := by rw [he, hp.countP_eq]
  have hsum : st.se.Success + st.se.Errors +
      outcomes.countP (fun r => decide (r.Line = [])) = lines.length := by
    rw [hS, hE, class_count, hlen]
  have hskip : (st.se.DatasourceSkipIndex.take st.datasourceIndex).length =
      outcomes.countP (fun r => decide (r.Line = [])) +
      outcomes.countP (fun r => decide (r.Line ≠ []) && r.Err.isSome &&
        p.disableRecordErrData && !p.keepRawData) := by
    rw [ht, List.length_map, ← List.countP_eq_length_filter, hp.countP_eq, skip_count]
  refine ⟨sl, st, _, _, hsl, hst, hparse, hS, hE, hsum, hskip, ?_, ?_⟩
  · intro se hse
    split at hse
    · cases hse
    · cases hse
      exact ⟨rfl, rfl, rfl⟩
  · intro hnone
    split at hnone
    · rename_i h
      have h0 : st.se.DatasourceSkipIndex.take st.datasourceIndex = [] :=
        List.length_eq_zero.1 h.2
      refine ⟨h.1, ?_, h0⟩
      have hc := Nat.le_add_right (outcomes.countP (fun r => decide (r.Line = [])))
        (outcomes.countP (fun r => decide (r.Line ≠ []) && r.Err.isSome &&
          p.disableRecordErrData && !p.keepRawData))
      rw [← hskip, h.2] at hc
      have := h.1
      omega
    · cases hnone

/-- C20, witness: three lines, the second fails and the third is empty, results arriving in
the order 1, 2, 0, with a parser that drops failed lines: one success, one error, one empty
line, two skips. -/
theorem C20_every_line_counted_once_witness :
    ∃ sl st datas err,
      collect [outcomeB, outcomeC, outcomeA]
        (List.replicate [go "a=1", go "b", ([] : GoString)].length ParseResult.zero) = .ok sl ∧
      classifyAll sampleKeys droppingParser sl
        (LoopState.init [go "a=1", go "b", ([] : GoString)].length) = .ok st ∧
      Parse sampleKeys droppingParser [go "a=1", go "b", []] [outcomeB, outcomeC, outcomeA] =
        .ok (datas, err) ∧
      st.se.Success = [outcomeA, outcomeB, outcomeC].countP specSuccess ∧
      st.se.Errors = [outcomeA, outcomeB, outcomeC].countP specError ∧
      st.se.Success + st.se.Errors +
        [outcomeA, outcomeB, outcomeC].countP (fun r => decide (r.Line = [])) =
        [go "a=1", go "b", ([] : GoString)].length ∧
      (st.se.DatasourceSkipIndex.take st.datasourceIndex).length =
        [outcomeA, outcomeB, outcomeC].countP (fun r => decide (r.Line = [])) +
        [outcomeA, outcomeB, outcomeC].countP (fun r => decide (r.Line ≠ []) && r.Err.isSome &&
          droppingParser.disableRecordErrData && !droppingParser.keepRawData) ∧
      (∀ se, err = some se → se.Success = st.se.Success ∧ se.Errors = st.se.Errors ∧
        se.DatasourceSkipIndex = st.se.DatasourceSkipIndex.take st.datasourceIndex) ∧
      (err = none → st.se.Errors = 0 ∧
        st.se.Success = [go "a=1", go "b", ([] : GoString)].length ∧
        st.se.DatasourceSkipIndex.take st.datasourceIndex = []) :=
  C20_every_line_counted_once sampleKeys droppingParser [go "a=1", go "b", []]
    [outcomeA, outcomeB, outcomeC] [outcomeB, outcomeC, outcomeA] (by decide)
    (@List.perm_append_comm _ [outcomeB, outcomeC] [outcomeA]) rfl

/-- The records of a failed line: one record when stash-on-error or raw retention is enabled,
else none. -/
theorem specRecords_failed {F : Type} (keys : Keys) (p : Parser) (r : ParseResult F)
    (msg : GoString) (hline : r.Line ≠ []) (herr : r.Err = some msg) :
    specRecords keys p r =
      if p.disableRecordErrData = false ∨ p.keepRawData = true then [errData keys p r.Line]
      else [] := by
  simp [specRecords, hline, herr]

/-- The fields of the record of a failed line. -/
theorem errData_fields {F : Type} (keys : Keys) (p : Parser) (ln : GoString)
    (hkeys : keys.KeyPandoraStash ≠ keys.KeyRawData) :
    (errData keys p ln : Data F).get? keys.KeyPandoraStash =
      (if p.disableRecordErrData = false then some (Value.str ln) else none) ∧
    (errData keys p ln : Data F).get? keys.KeyRawData =
      (if p.keepRawData = true then some (Value.str ln) else none) ∧
    ∀ k, k ≠ keys.KeyPandoraStash → k ≠ keys.KeyRawData →
      (errData keys p ln : Data F).get? k = none := by
  have hk2 : keys.KeyRawData ≠ keys.KeyPandoraStash := fun h => hkeys h.symm
  refine ⟨?_, ?_, ?_⟩
  · rcases hd : p.disableRecordErrData with _ | _ <;> rcases hk : p.keepRawData with _ | _ <;>
      simp [errData, Data.set, Data.get?, hd, hk, hkeys, hk2]
  · rcases hd : p.disableRecordErrData with _ | _ <;> rcases hk : p.keepRawData with _ | _ <;>
      simp [errData, Data.set, Data.get?, hd, hk, hkeys, hk2]
  · intro k hk1 hk2
    rcases hd : p.disableRecordErrData with _ | _ <;> rcases hk : p.keepRawData with _ | _ <;>
      simp [errData, Data.set, Data.get?, hd, hk, hkeys, Ne.symm hk1, Ne.symm hk2]

/-- C10, as the code behaves: in a batch `pre ++ line :: post`, for a line that is not empty
after the worker has trimmed it and whose parse (of the trimmed line) fails, and for every
setting of the two flags and every order of arrival: `Parse` returns a `StatsError` whose
error counter is the count of the other lines plus one, and whose success counter is that of
the other lines; between the records of the lines before and after it `Parse` emits exactly
one record for the line when stash-on-error is enabled (`disableRecordErrData` false) or raw
retention (`keepRawData`) is enabled, and none otherwise; that record holds the trimmed line
under `KeyPandoraStash` exactly when stash-on-error is enabled, the trimmed line under
`KeyRawData` exactly when raw retention is enabled, and no other field. -/
theorem C10_failed_line_record {F : Type} (ParseFloat : GoString → Option F) (keys : Keys)
    (p : Parser) (hkeys : keys.KeyPandoraStash ≠ keys.KeyRawData) (pre post : List GoString)
    (line : GoString) (e : Fault) (hline : TrimSpace line ≠ [])
    (hfail : parse ParseFloat p.ready (TrimSpace line) = .error e) :
    ∃ outsPre outsPost r emitted,
      workOutcomes ParseFloat p (pre ++ line :: post) = .ok (outsPre ++ r :: outsPost) ∧
      outsPre.length = pre.length ∧ outsPost.length = post.length ∧
      r.Line = TrimSpace line ∧ r.Index = pre.length ∧ r.Err.isSome = true ∧
      ((p.disableRecordErrData = true ∧ p.keepRawData = false) → emitted = []) ∧
      ((p.disableRecordErrData = false ∨ p.keepRawData = true) →
        ∃ record, emitted = [record] ∧
          record.get? keys.KeyPandoraStash =
            (if p.disableRecordErrData = false then some (Value.str (TrimSpace line))
             else none) ∧
          record.get? keys.KeyRawData =
            (if p.keepRawData = true then some (Value.str (TrimSpace line)) else none) ∧
          ∀ k, k ≠ keys.KeyPandoraStash → k ≠ keys.KeyRawData → record.get? k = none) ∧
      ∀ arrivals, arrivals.Perm (outsPre ++ r :: outsPost) →
        ∃ se, Parse keys p (pre ++ line :: post) arrivals =
            .ok ((outsPre.map (specRecords keys p)).flatten ++ emitted ++
              (outsPost.map (specRecords keys p)).flatten, some se) ∧
          se.Errors = outsPre.countP specError + 1 + outsPost.countP specError ∧
          se.Success = outsPre.countP specSuccess + outsPost.countP specSuccess := by
  have hsep := ready_splitter p
  obtain ⟨outsPre, hpre, hlpre, hmpre⟩ := workFrom_ok ParseFloat p.ready hsep pre 0
  obtain ⟨msg, hr⟩ := worker_failed ParseFloat p.ready hsep line (0 + pre.length) e hline hfail
  obtain ⟨outsPost, hpost, hlpost, hmpost⟩ :=
    workFrom_ok ParseFloat p.ready hsep post (0 + pre.length + 1)
  have htail : workFrom ParseFloat p.ready (0 + pre.length) (line :: post) =
      .ok (⟨TrimSpace line, 0 + pre.length, [], some msg⟩ :: outsPost) := by
    simp only [workFrom, hr, hpost]
  have hall := workFrom_append ParseFloat p.ready pre (line :: post) 0 outsPre _ hpre htail
  have hidxmap : ((outsPre ++ (⟨TrimSpace line, 0 + pre.length, [], some msg⟩ :
      ParseResult F) :: outsPost).map (fun r => r.Index)) =
      List.range (outsPre ++ (⟨TrimSpace line, 0 + pre.length, [], some msg⟩ :
        ParseResult F) :: outsPost).length := by
    obtain ⟨outs, ho, hlo, hmo⟩ :=
      workFrom_ok ParseFloat p.ready hsep (pre ++ line :: post) 0
    rw [hall, Except.ok.injEq] at ho
    rw [ho, hmo, hlo, List.range_eq_range']
  have hlen : (pre ++ line :: post).length =
      (outsPre ++ (⟨TrimSpace line, 0 + pre.length, [], some msg⟩ : ParseResult F) ::
        outsPost).length := by
    simp [hlpre, hlpost]
  have hrec := specRecords_failed keys p
    (⟨TrimSpace line, 0 + pre.length, [], some msg⟩ : ParseResult F) msg hline rfl
  have hf := errData_fields (F := F) keys p (TrimSpace line) hkeys
  refine ⟨outsPre, outsPost, ⟨TrimSpace line, 0 + pre.length, [], some msg⟩,
    (if p.disableRecordErrData = false ∨ p.keepRawData = true then
      [errData keys p (TrimSpace line)] else []),
    hall, hlpre, hlpost, rfl, by simp, rfl, ?_, ?_, ?_⟩
  · rintro ⟨hd, hk⟩
    simp [hd, hk]
  · intro hflag
    exact ⟨errData keys p (TrimSpace line), by simp [hflag], hf⟩
  · intro arrivals hperm
    obtain ⟨sl, st, -, hmap, hp, -, hd, he, hs, -, hparse⟩ :=
      batch_counts keys p (pre ++ line :: post) _ arrivals (by rw [hidxmap]) hperm hlen
    have hsl : sl = outsPre ++ (⟨TrimSpace line, 0 + pre.length, [], some msg⟩ :
        ParseResult F) :: outsPost :=
      eq_of_perm_of_map (fun r => r.Index) sl _ hp (by rw [hmap, hidxmap])
        (by rw [hidxmap]; exact List.nodup_range _)
    have hspecE : specError (⟨TrimSpace line, 0 + pre.length, [], some msg⟩ :
        ParseResult F) = true := by
      simp [specError, hline]
    have hspecS : specSuccess (⟨TrimSpace line, 0 + pre.length, [], some msg⟩ :
        ParseResult F) = false := by
      simp [specSuccess, hline]
    have hE : st.se.Errors = outsPre.countP specError + 1 + outsPost.countP specError := by
      rw [he, hsl, List.countP_append, List.countP_cons, if_pos hspecE]
      omega
    have hS : st.se.Success = outsPre.countP specSuccess + outsPost.countP specSuccess := by
      rw [hs, hsl, List.countP_append, List.countP_cons, if_neg (by rw [hspecS]; decide)]
      omega
    have hD : st.datas = (outsPre.map (specRecords keys p)).flatten ++
        (if p.disableRecordErrData = false ∨ p.keepRawData = true then
          [errData keys p (TrimSpace line)] else []) ++
        (outsPost.map (specRecords keys p)).flatten := by
      rw [hd, hsl, List.map_append, List.map_cons, List.flatten_append, List.flatten_cons,
        hrec, List.append_assoc]
    rw [if_neg (by omega)] at hparse
    exact ⟨{ st.se with
      DatasourceSkipIndex := st.se.DatasourceSkipIndex.take st.datasourceIndex },
      by rw [hparse, hD], hE, hS⟩

/-- C10, witness: the failed line " b " after the line "a=1", with the default flags: one
error, and after the record of "a=1" one record that holds "b" under the stash name. -/
theorem C10_failed_line_record_witness :
    ∃ (outsPre outsPost : List (ParseResult Nat)) (r : ParseResult Nat)
      (emitted : List (Data Nat)),
      workOutcomes decimalFloat coercingParser ([go "a=1"] ++ go " b " :: []) =
        .ok (outsPre ++ r :: outsPost) ∧
      outsPre.length = [go "a=1"].length ∧ outsPost.length = ([] : List GoString).length ∧
      r.Line = TrimSpace (go " b ") ∧ r.Index = [go "a=1"].length ∧ r.Err.isSome = true ∧
      ((coercingParser.disableRecordErrData = true ∧ coercingParser.keepRawData = false) →
        emitted = []) ∧
      ((coercingParser.disableRecordErrData = false ∨ coercingParser.keepRawData = true) →
        ∃ record, emitted = [record] ∧
          record.get? sampleKeys.KeyPandoraStash =
            (if coercingParser.disableRecordErrData = false then
              some (Value.str (TrimSpace (go " b "))) else none) ∧
          record.get? sampleKeys.KeyRawData =
            (if coercingParser.keepRawData = true then
              some (Value.str (TrimSpace (go " b "))) else none) ∧
          ∀ k, k ≠ sampleKeys.KeyPandoraStash → k ≠ sampleKeys.KeyRawData →
            record.get? k = none) ∧
      ∀ arrivals, arrivals.Perm (outsPre ++ r :: outsPost) →
        ∃ se, Parse sampleKeys coercingParser ([go "a=1"] ++ go " b " :: []) arrivals =
            .ok ((outsPre.map (specRecords sampleKeys coercingParser)).flatten ++ emitted ++
              (outsPost.map (specRecords sampleKeys coercingParser)).flatten, some se) ∧
          se.Errors = outsPre.countP specError + 1 + outsPost.countP specError ∧
          se.Success = outsPre.countP specSuccess + outsPost.countP specSuccess :=
  C10_failed_line_record decimalFloat sampleKeys coercingParser (by decide) [go "a=1"] []
    (go " b ") .noValue (by decide) (by decide)

/-- C10, as stated, fails. The line " b " is not empty and its parse fails, and with the
default flags `Parse` emits one record for it, but the record holds "b", the line as the worker
trimmed it, under the stash name, not the raw line " b ". The line " " is not empty and its
parse fails, but the worker resolves it to the empty line: `Parse` records a skip, the error
counter stays 0 and no record is emitted. -/
theorem C10_raw_line_refuted :
    go " b " ≠ [] ∧
    parse decimalFloat coercingParser (go " b ") = .error .noValue ∧
    workOutcomes decimalFloat coercingParser [go " b "] =
      .ok [(⟨go "b", 0, [], Fault.noValue.Error⟩ : ParseResult Nat)] ∧
    Parse sampleKeys coercingParser [go " b "]
        [(⟨go "b", 0, [], Fault.noValue.Error⟩ : ParseResult Nat)] =
      .ok (([[(sampleKeys.KeyPandoraStash, Value.str (go "b"))]] : List (Data Nat)),
        some ⟨1, 0, (Fault.noValue.Error).getD [], []⟩) ∧
    (Value.str (go "b") : Value Nat) ≠ Value.str (go " b ") ∧
    go " " ≠ [] ∧
    parse decimalFloat coercingParser (go " ") = .error .noValue ∧
    workOutcomes decimalFloat coercingParser [go " "] =
      .ok [(⟨[], 0, [], none⟩ : ParseResult Nat)] ∧
    Parse sampleKeys coercingParser [go " "] [(⟨[], 0, [], none⟩ : ParseResult Nat)] =
      .ok ([], some ⟨0, 0, [], [0]⟩) := by
  refine ⟨by decide, by decide, by decide, by decide, by decide, by decide, by decide,
    by decide, by decide⟩

end Logkit
